import Mathlib

/-!
# thermal_camera: the per-frame pipeline of `main.cpp`

A shallow embedding of the frame loop of `src/main.cpp`:

* the min/max scan and the image loop of `main` (lines 310-329),
* `draw_pixel` (lines 271-286) and `get_grad_value` (lines 227-268),
* the legend loop (lines 359-365) and the pacing arithmetic (lines 290, 367-370).

## Numbers

A `float` or `double` is a datum `FP`: a finite value (a rational, with the positive zero), the
negative zero, an infinity or a NaN.  The samples of a frame, `min_val`, `max_val` and the
arguments of `get_grad_value` and `draw_pixel` are such data, so a frame can hold a NaN (which
every comparison of the scan skips) or an infinity, and the comparisons `<`, `<=` and `==` are
those of IEEE 754 (`FP.lt`, `FP.le`, `FP.eq`).

`get_grad_value` computes in floating point, and its result depends on the roundings: the
embedding rounds the exact result of every operation of the source to the format in which
the source computes it, binary32 for `float` and binary64 for `double`, to nearest with ties
to even (`roundNE`), each operation on its own (no fused multiply-add, no excess precision).
The conversion of a NaN to `int` in `idx1 = floor(value)`, which is undefined in C++, is the
result `none`, and so is every computation that contains it.

## Contents

Definitions come first, then the lemmas (geometry of the loops, the scan, rounding, evaluation
of the palette, the drawing loops), then one theorem per claim `C1` ... `C10`, with its witness
or counterexample.
-/

namespace ThermalCamera

/-! ## Floating-point arithmetic -/

/-- Rounding of a rational to the nearest integer, ties to the even one. -/
def roundHalfEven (m : ℚ) : ℤ :=
  let n := ⌊m⌋
  let r := m - n
  if r < 1 / 2 then n else if 1 / 2 < r then n + 1 else if n % 2 = 0 then n else n + 1

/-- Rounding to the nearest binary floating-point number with a `p`-bit significand, where
`2 ^ emin` is the least unit in the last place (gradual underflow); ties go to the even
significand, and the exponent is not bounded above. -/
def roundNE (p : ℕ) (emin : ℤ) (x : ℚ) : ℚ :=
  if x = 0 then 0
  else
    let e := Int.log 2 |x|
    let s := max (e - (p - 1)) emin
    (roundHalfEven (x / 2 ^ s) : ℚ) * 2 ^ s

/-- Rounding to binary32 (`float`), overflow aside. -/
def rf (x : ℚ) : ℚ := roundNE 24 (-149) x

/-- Rounding to binary64 (`double`), overflow aside. -/
def rd (x : ℚ) : ℚ := roundNE 53 (-1074) x

/-- Numbers `n * 2 ^ k` with `|n| ≤ 2 ^ p` and `emin ≤ k`: the values of the format. -/
def Representable (p : ℕ) (emin : ℤ) (x : ℚ) : Prop :=
  ∃ n k : ℤ, |n| ≤ 2 ^ p ∧ emin ≤ k ∧ x = n * 2 ^ k

/-- A floating-point datum: a finite value (`fin 0` is the positive zero), the negative zero,
an infinity with its sign bit, or a NaN. -/
inductive FP where
  | fin (q : ℚ)
  | nzero
  | inf (negative : Bool)
  | nan
  deriving DecidableEq

/-- The value of a finite datum (both zeros have the value 0). -/
def FP.toRat : FP → ℚ
  | .fin q => q
  | _ => 0

/-- The sign bit of a datum. -/
def FP.signbit : FP → Bool
  | .fin q => decide (q < 0)
  | .nzero => true
  | .inf s => s
  | .nan => false

/-- Whether a datum is one of the two zeros. -/
def FP.isZero : FP → Bool
  | .fin q => decide (q = 0)
  | .nzero => true
  | _ => false

/-- Whether a datum is finite (neither an infinity nor a NaN). -/
def FP.isFinite : FP → Bool
  | .fin _ => true
  | .nzero => true
  | _ => false

/-- The zero with the given sign bit. -/
def FP.zero (negative : Bool) : FP := if negative then .nzero else .fin 0

/-- The binary64 result of an operation whose exact result is `x`: the rounded value, a zero
with the sign of `x` on underflow, an infinity on overflow. -/
def toDouble (x : ℚ) : FP :=
  if |rd x| < 2 ^ 1024 then (if rd x = 0 then FP.zero (decide (x < 0)) else .fin (rd x))
  else .inf (decide (x < 0))

/-- The binary32 result of an operation whose exact result is `x`. -/
def toFloat (x : ℚ) : FP :=
  if |rf x| < 2 ^ 128 then (if rf x = 0 then FP.zero (decide (x < 0)) else .fin (rf x))
  else .inf (decide (x < 0))

/-- Conversion of a `double` to `float`, as in the initialisation `float vrange = max-min`. -/
def FP.narrow : FP → FP
  | .fin q => toFloat q
  | .nzero => .nzero
  | .inf s => .inf s
  | .nan => .nan

/-- The binary64 difference `x - y`. -/
def FP.sub (x y : FP) : FP :=
  match x, y with
  | .nan, _ => .nan
  | _, .nan => .nan
  | .inf s, .inf t => if s = t then .nan else .inf s
  | .inf s, _ => .inf s
  | _, .inf t => .inf (!t)
  | .nzero, .nzero => .fin 0
  | .nzero, .fin b => if b = 0 then .nzero else toDouble (-b)
  | .fin a, .nzero => toDouble a
  | .fin a, .fin b => toDouble (a - b)

/-- The binary64 quotient `x / y`. -/
def FP.div (x y : FP) : FP :=
  match x, y with
  | .nan, _ => .nan
  | _, .nan => .nan
  | .inf _, .inf _ => .nan
  | .inf s, y => .inf (xor s y.signbit)
  | x, .inf t => FP.zero (xor x.signbit t)
  | x, y =>
    if y.isZero then (if x.isZero then .nan else .inf (xor x.signbit y.signbit))
    else if x.isZero then FP.zero (xor x.signbit y.signbit)
    else toDouble (x.toRat / y.toRat)

/-- The comparison `x < y`: false when an operand is a NaN; the two zeros are equal. -/
def FP.lt (x y : FP) : Bool :=
  match x, y with
  | .nan, _ => false
  | _, .nan => false
  | .inf s, .inf t => s && !t
  | .inf s, _ => s
  | _, .inf t => !t
  | x, y => decide (x.toRat < y.toRat)

/-- The comparison `x <= y`: false when an operand is a NaN. -/
def FP.le (x y : FP) : Bool :=
  match x, y with
  | .nan, _ => false
  | _, .nan => false
  | .inf s, .inf t => s || !t
  | .inf s, _ => s
  | _, .inf t => !t
  | x, y => decide (x.toRat ≤ y.toRat)

/-- The comparison `x == y`: false when an operand is a NaN; the two zeros are equal. -/
def FP.eq (x y : FP) : Bool :=
  match x, y with
  | .nan, _ => false
  | _, .nan => false
  | .inf s, .inf t => s == t
  | .inf _, _ => false
  | _, .inf _ => false
  | x, y => decide (x.toRat = y.toRat)

/-- A finite `float`: the negative zero, or a finite value of binary32. -/
def IsFloat (x : FP) : Prop :=
  x = .nzero ∨ ∃ q, x = .fin q ∧ Representable 24 (-149) q ∧ |q| < 2 ^ 128

/-! ## Frame geometry and the min/max scan -/

/-- The sensor frame `static float mlx90640To[768]`, read at an `int` offset. -/
abbrev Frame := ℤ → FP

/-- The index expression `32 * (23-y) + x` used by both frame loops of `main`. -/
def sampleIndex (x y : ℤ) : ℤ := 32 * (23 - y) + x

/-- The iteration order of `for(y = 0; y < 24; y++) for(x = 0; x < 32; x++)`, as pairs
`(x, y)`. -/
def cells : List (ℤ × ℤ) :=
  (List.range 24).flatMap fun (y : ℕ) => (List.range 32).map fun (x : ℕ) => ((x : ℤ), (y : ℤ))

/-- Body of the scan loop: `if(val > max_val) max_val = val; if(val < min_val) min_val = val;`.
The accumulator is `(max_val, min_val)`. -/
def scan_step (acc : FP × FP) (val : FP) : FP × FP :=
  let max_val := if FP.lt acc.1 val then val else acc.1
  let min_val := if FP.lt val acc.2 then val else acc.2
  (max_val, min_val)

/-- The "Get max/min" block of `main`: seeds `max_val = -40`, `min_val = 300`, then one pass
over the frame, reading `mlx90640To[32 * (23-y) + x]` for each `(x, y)`.  Returns
`(max_val, min_val)`. -/
def get_max_min (To : Frame) : FP × FP :=
  cells.foldl (fun acc c => scan_step acc (To (sampleIndex c.1 c.2))) (.fin (-40), .fin 300)

/-- The value of `max_val` after the scan. -/
def max_val (To : Frame) : FP := (get_max_min To).1

/-- The value of `min_val` after the scan. -/
def min_val (To : Frame) : FP := (get_max_min To).2

/-! ## Frame pacing -/

/-- The macro `FPS`. -/
def FPS : ℤ := 8

/-- The macro `FRAME_TIME_MICROS`, `1000000/FPS` in `int` arithmetic. -/
def FRAME_TIME_MICROS : ℤ := 1000000 / FPS

/-- The macro `OFFSET_MICROS`. -/
def OFFSET_MICROS : ℤ := 850

/-- The constant `frame_time` of `main`, in microseconds. -/
def frame_time : ℤ := FRAME_TIME_MICROS + OFFSET_MICROS

/-- Two's complement reading of an integer in 64 bits, the representation of
`std::chrono::microseconds`. -/
def wrapInt64 (z : ℤ) : ℤ := (z + 2 ^ 63) % 2 ^ 64 - 2 ^ 63

/-- The tick count of `frame_time - elapsed`, the duration handed to `sleep_for`, for a target
period `target` and an elapsed time `elapsed` (both in microseconds). -/
def sleep_request (target elapsed : ℤ) : ℤ := wrapInt64 (target - elapsed)

/-! ## The gradient mapper `get_grad_value` -/

/-- The constant `NUM_COLORS`. -/
def NUM_COLORS : ℤ := 5

/-- The table `static float color[NUM_COLORS][3]`: each initialiser is evaluated in `double`
and stored as `float`.  A read outside the table is undefined. -/
def color (idx : ℤ) : Option (ℚ × ℚ × ℚ) :=
  if idx = 0 then some (0, 0, 0)
  else if idx = 1 then some (rf (rd (32 / 255)), 0, rf (rd (140 / 255)))
  else if idx = 2 then some (rf (rd (204 / 255)), 0, rf (rd (119 / 255)))
  else if idx = 3 then some (1, rf (rd (215 / 255)), 0)
  else if idx = 4 then some (1, 1, 1)
  else none

/-- The conversion `(int)` of a `double`: truncation toward zero. -/
def truncToInt (w : ℚ) : ℤ := if 0 ≤ w then ⌊w⌋ else ⌈w⌉

/-- One channel of the result,
`(int)((((color[idx2][c] - color[idx1][c]) * fractBetween) + color[idx1][c]) * 255.0)`:
the difference, the product and the sum are `float` operations, the product with `255.0` is a
`double` operation. -/
def channel (c1 c2 fractBetween : ℚ) : ℤ :=
  truncToInt (rd (rf (rf (rf (c2 - c1) * fractBetween) + c1) * 255))

/-- The three assignments `*r = ...; *g = ...; *b = ...;` that end `get_grad_value`. -/
def blend (idx1 idx2 : ℤ) (fractBetween : ℚ) : Option (ℤ × ℤ × ℤ) :=
  match color idx1, color idx2 with
  | some c1, some c2 =>
    some (channel c1.1 c2.1 fractBetween, channel c1.2.1 c2.2.1 fractBetween,
      channel c1.2.2 c2.2.2 fractBetween)
  | _, _ => none

/-- The colour `get_grad_value` produces at entry `idx` of the table (both indexes equal to
`idx`, `fractBetween` zero): the 8-bit values of palette stop `idx`. -/
def stop_rgb (idx : ℤ) : Option (ℤ × ℤ × ℤ) := blend idx idx 0

/-- The channel values `u` and then `w` lie, in this order, on the way from `s` to `t`. -/
def OnTheWay (s t u w : ℤ) : Prop :=
  (s ≤ t → s ≤ u ∧ u ≤ w ∧ w ≤ t) ∧ (t ≤ s → t ≤ w ∧ w ≤ u ∧ u ≤ s)

instance (s t u w : ℤ) : Decidable (OnTheWay s t u w) := by
  unfold OnTheWay
  infer_instance

/-- The value `vrange` of `float vrange = max-min;`: a `double` difference stored as `float`. -/
def vrange (min max : FP) : FP := (FP.sub max min).narrow

/-- The value of `value` after `value -= min; value /= vrange;` (`vrange` converts to `double`
exactly). -/
def normalized (value min max : FP) : FP :=
  FP.div (FP.sub value min) (vrange min max)

/-- The branch of `get_grad_value` that sets `idx1`, `idx2` and `fractBetween`; the result is
`(idx1, idx2, fractBetween)`.  A zero or negative `value` (the negative zero and the negative
infinity included) takes the first branch, a `value` of at least 1 (the positive infinity
included) the second; a NaN fails both tests and reaches `idx1 = floor(value)`, whose
conversion to `int` is undefined: the result is `none`. -/
def grad_index (value min max : FP) : Option (ℤ × ℤ × ℚ) :=
  match normalized value min max with
  | .nan => none
  | .inf true => some (0, 0, 0)
  | .inf false => some (NUM_COLORS - 1, NUM_COLORS - 1, 0)
  | .nzero => some (0, 0, 0)
  | .fin t =>
    if t ≤ 0 then some (0, 0, 0)
    else if t ≥ 1 then some (NUM_COLORS - 1, NUM_COLORS - 1, 0)
    else
      let value4 := rd (t * (NUM_COLORS - 1))
      let idx1 : ℤ := ⌊value4⌋
      let idx2 := idx1 + 1
      let fractBetween := rf (rd (value4 - rf idx1))
      some (idx1, idx2, fractBetween)

/-- The function `get_grad_value(value, min, max, &r, &g, &b)`; the result is `(r, g, b)`, and
`none` when the behaviour is undefined. -/
def get_grad_value (value min max : FP) : Option (ℤ × ℤ × ℤ) :=
  match grad_index value min max with
  | some (idx1, idx2, fractBetween) => blend idx1 idx2 fractBetween
  | none => none

/-! ## The display and the drawing code -/

/-- Modelled from the spec: what the display collaborator of section 6 has been asked to draw
(the library `ucg` is not part of the repository): a filled rectangle, a rectangle outline or
a line, each with the colour that was set when it was drawn. -/
inductive Prim where
  | box (x y w h : ℤ) (rgb : ℤ × ℤ × ℤ)
  | frame (x y w h : ℤ) (rgb : ℤ × ℤ × ℤ)
  | line (x1 y1 x2 y2 : ℤ) (rgb : ℤ × ℤ × ℤ)
  deriving DecidableEq

/-- Modelled from the spec: the display handle `ucg` of the display collaborator (section 6),
reduced to the current draw colour and the primitives drawn so far. -/
structure Ucg where
  rgb : ℤ × ℤ × ℤ
  drawn : List Prim

/-- Modelled from the spec: the capability set-draw-color(rgb) of section 6, the library call
`ucg_SetColor(&ucg, 0, r, g, b)`. -/
def ucg_SetColor (ucg : Ucg) (r g b : ℤ) : Ucg := { ucg with rgb := (r, g, b) }

/-- Modelled from the spec: the capability fill-rectangle(x,y,w,h) of section 6, the library
call `ucg_DrawBox(&ucg, x, y, w, h)`. -/
def ucg_DrawBox (ucg : Ucg) (x y w h : ℤ) : Ucg :=
  { ucg with drawn := ucg.drawn ++ [Prim.box x y w h ucg.rgb] }

/-- Modelled from the spec: the capability draw-rectangle-outline(x,y,w,h) of section 6, the
library call `ucg_DrawFrame(&ucg, x, y, w, h)`. -/
def ucg_DrawFrame (ucg : Ucg) (x y w h : ℤ) : Ucg :=
  { ucg with drawn := ucg.drawn ++ [Prim.frame x y w h ucg.rgb] }

/-- Modelled from the spec: the line drawn for one column of the legend strip (section 4.3,
step 5), the library call `ucg_DrawLine(&ucg, x1, y1, x2, y2)`. -/
def ucg_DrawLine (ucg : Ucg) (x1 y1 x2 y2 : ℤ) : Ucg :=
  { ucg with drawn := ucg.drawn ++ [Prim.line x1 y1 x2 y2 ucg.rgb] }

/-- The macro `IMAGE_SCALE`. -/
def IMAGE_SCALE : ℤ := 5

/-- The function `draw_pixel(x, y, temp, vmin, vmax)`, acting on the display.  The arguments
`vmin` and `vmax` are `float` values (`main` passes `min_val` and `max_val`), which convert to
`double` exactly. -/
def draw_pixel (x y : ℤ) (temp vmin vmax : FP) (ucg : Ucg) : Option Ucg :=
  match get_grad_value temp vmin vmax with
  | none => none
  | some (ir, ig, ib) =>
    let ucg := ucg_SetColor ucg ir ig ib
    let ucg := ucg_DrawBox ucg (x * IMAGE_SCALE) (y * IMAGE_SCALE) IMAGE_SCALE IMAGE_SCALE
    let ucg :=
      if FP.eq temp vmin then
        ucg_DrawFrame (ucg_SetColor ucg 255 255 255) (x * IMAGE_SCALE) (y * IMAGE_SCALE)
          IMAGE_SCALE IMAGE_SCALE
      else ucg
    let ucg :=
      if FP.eq temp vmax then
        ucg_DrawFrame (ucg_SetColor ucg 0 0 0) (x * IMAGE_SCALE) (y * IMAGE_SCALE)
          IMAGE_SCALE IMAGE_SCALE
      else ucg
    some ucg

/-- The primitives one call `draw_pixel(x, y, temp, vmin, vmax)` adds when the fill colour is
`rgb`: the filled cell, then a white outline if `temp == vmin`, then a black outline if
`temp == vmax`. -/
def cell_prims (x y : ℤ) (temp vmin vmax : FP) (rgb : ℤ × ℤ × ℤ) : List Prim :=
  [Prim.box (x * IMAGE_SCALE) (y * IMAGE_SCALE) IMAGE_SCALE IMAGE_SCALE rgb] ++
    (if FP.eq temp vmin then
      [Prim.frame (x * IMAGE_SCALE) (y * IMAGE_SCALE) IMAGE_SCALE IMAGE_SCALE (255, 255, 255)]
    else []) ++
    (if FP.eq temp vmax then
      [Prim.frame (x * IMAGE_SCALE) (y * IMAGE_SCALE) IMAGE_SCALE IMAGE_SCALE (0, 0, 0)]
    else [])

/-- The "Draw image" loop of `main`: for each `(x, y)` the call
`draw_pixel(x, y, mlx90640To[32 * (23-y) + x], min_val, max_val)`. -/
def draw_image (To : Frame) (ucg : Ucg) : Option Ucg :=
  cells.foldlM
    (fun u c => draw_pixel c.1 c.2 (To (sampleIndex c.1 c.2)) (min_val To) (max_val To) u) ucg

/-- Whether a primitive is a filled rectangle. -/
def Prim.isBox : Prim → Bool
  | .box _ _ _ _ _ => true
  | _ => false

/-- Whether a primitive is a filled rectangle at the place of display cell `(x, y)`. -/
def Prim.isBoxAt (x y : ℤ) : Prim → Bool
  | .box a b _ _ _ => decide (a = x * IMAGE_SCALE ∧ b = y * IMAGE_SCALE)
  | _ => false

/-- The values of `x` in `for(int x=grad_x_start ; x <= grad_x_end ; x++)`. -/
def scale_columns (grad_x_start grad_x_end : ℤ) : List ℤ :=
  (List.range (grad_x_end + 1 - grad_x_start).toNat).map fun (i : ℕ) => grad_x_start + (i : ℤ)

/-- The body of the "Draw scale" loop of `main` for the column `x`; the three `int` arguments
of `get_grad_value` convert to `double` exactly. -/
def draw_scale_column (grad_x_start grad_x_end x : ℤ) (ucg : Ucg) : Option Ucg :=
  match get_grad_value (.fin x) (.fin grad_x_start) (.fin grad_x_end) with
  | none => none
  | some (r, g, b) => some (ucg_DrawLine (ucg_SetColor ucg r g b) x 121 x 127)

/-- The "Draw scale" loop of `main`. -/
def draw_scale (grad_x_start grad_x_end : ℤ) (ucg : Ucg) : Option Ucg :=
  (scale_columns grad_x_start grad_x_end).foldlM
    (fun u x => draw_scale_column grad_x_start grad_x_end x u) ucg

/-! ## Frames used as concrete inputs -/

/-- A frame whose samples are all -50, below the seed of `max_val`. -/
def frame_cold : Frame := fun _ => .fin (-50)

/-- A frame whose sample at offset `i` is `i` itself. -/
def frame_ramp : Frame := fun i => .fin (i : ℚ)

/-- A frame holding 40 at offset 0, the sample of display cell `(0, 23)`, and the `float`
nearest to 0.1 everywhere else. -/
def frame_warm_spot : Frame := fun i => if i = 0 then .fin 40 else .fin (13421773 / 134217728)

/-- A frame whose least reading 10 is held by two samples (offsets 0 and 1, the display cells
`(0, 23)` and `(1, 23)`), with a single greatest reading 30 and 20 elsewhere. -/
def frame_tie : Frame :=
  fun i => if i = 0 ∨ i = 1 then .fin 10 else if i = 2 then .fin 30 else .fin 20

/-- A frame with a NaN at offset 0 (the sample of display cell `(0, 23)`), the reading 30 at
offset 1 and 20 elsewhere. -/
def frame_nan_spot : Frame := fun i => if i = 0 then .nan else if i = 1 then .fin 30 else .fin 20

/-! ## Lemmas on rounding -/

/-- The result of `roundHalfEven` is within one half, and even at a tie. -/
theorem roundHalfEven_spec (m : ℚ) :
    |m - roundHalfEven m| < 1 / 2 ∨
      (|m - roundHalfEven m| = 1 / 2 ∧ roundHalfEven m % 2 = 0) := by
  have h1 : (⌊m⌋ : ℚ) ≤ m := Int.floor_le m
  have h2 : m < ⌊m⌋ + 1 := Int.lt_floor_add_one m
  unfold roundHalfEven
  dsimp only
  split_ifs with ha hb hc
  · left
    rw [abs_lt]
    constructor <;> linarith
  · left
    rw [abs_lt]
    push_cast
    constructor <;> linarith
  · right
    have : m - ⌊m⌋ = 1 / 2 := le_antisymm (not_lt.mp hb) (not_lt.mp ha)
    refine ⟨?_, hc⟩
    rw [this]
    norm_num
  · right
    have : m - ⌊m⌋ = 1 / 2 := le_antisymm (not_lt.mp hb) (not_lt.mp ha)
    refine ⟨?_, by omega⟩
    push_cast
    rw [show m - (⌊m⌋ + 1 : ℚ) = (m - ⌊m⌋) - 1 by ring, this]
    norm_num

/-- An integer within less than one half is the rounding. -/
theorem roundHalfEven_eq_of_lt {m : ℚ} {n : ℤ} (h : |m - n| < 1 / 2) :
    roundHalfEven m = n := by
  rw [abs_lt] at h
  obtain ⟨h1, h2⟩ := h
  unfold roundHalfEven
  dsimp only
  rcases le_or_lt (n : ℚ) m with hnm | hnm
  · have hf : ⌊m⌋ = n := by
      rw [Int.floor_eq_iff]
      constructor <;> linarith
    rw [hf, if_pos (by linarith)]
  · have hf : ⌊m⌋ = n - 1 := by
      rw [Int.floor_eq_iff]
      push_cast
      constructor <;> linarith
    rw [hf]
    push_cast
    rw [if_neg (by linarith), if_pos (by linarith)]
    ring

/-- An even integer within one half is the rounding. -/
theorem roundHalfEven_eq_of_le_even {m : ℚ} {n : ℤ} (h : |m - n| ≤ 1 / 2) (hn : n % 2 = 0) :
    roundHalfEven m = n := by
  rcases lt_or_eq_of_le h with h | h
  · exact roundHalfEven_eq_of_lt h
  · rcases roundHalfEven_spec m with hs | ⟨hs, he⟩
    · -- the rounding is strictly closer than `n`, so it is `n ± 1`... impossible by distance
      rw [abs_lt] at hs
      have h3 := abs_eq (by norm_num : (0 : ℚ) ≤ 1 / 2) |>.mp h
      have key : ((roundHalfEven m - n : ℤ) : ℚ) = (m - n) - (m - roundHalfEven m) := by
        push_cast; ring
      have hlt : |((roundHalfEven m - n : ℤ) : ℚ)| < 1 := by
        rw [key, abs_lt]
        rcases h3 with h3 | h3 <;> constructor <;> linarith
      have hz : |roundHalfEven m - n| < 1 := by exact_mod_cast hlt
      have := Int.abs_lt_one_iff.mp hz
      omega
    · have h3 := abs_eq (by norm_num : (0 : ℚ) ≤ 1 / 2) |>.mp h
      have h4 := abs_eq (by norm_num : (0 : ℚ) ≤ 1 / 2) |>.mp hs
      have key : ((roundHalfEven m - n : ℤ) : ℚ) = (m - n) - (m - roundHalfEven m) := by
        push_cast; ring
      have hcases : ((roundHalfEven m - n : ℤ) : ℚ) = 0 ∨ ((roundHalfEven m - n : ℤ) : ℚ) = 1 ∨
          ((roundHalfEven m - n : ℤ) : ℚ) = -1 := by
        rw [key]
        rcases h3 with h3 | h3 <;> rcases h4 with h4 | h4 <;> rw [h3, h4] <;> norm_num
      rcases hcases with hc | hc | hc
      · have : roundHalfEven m - n = 0 := by exact_mod_cast hc
        omega
      · have : roundHalfEven m - n = 1 := by exact_mod_cast hc
        omega
      · have : roundHalfEven m - n = -1 := by exact_mod_cast hc
        omega

theorem roundHalfEven_intCast (n : ℤ) : roundHalfEven (n : ℚ) = n :=
  roundHalfEven_eq_of_lt (by simp)

theorem roundHalfEven_neg (m : ℚ) : roundHalfEven (-m) = -roundHalfEven m := by
  rcases roundHalfEven_spec m with hs | ⟨hs, he⟩
  · apply roundHalfEven_eq_of_lt
    rw [show -m - ((-roundHalfEven m : ℤ) : ℚ) = -(m - roundHalfEven m) by push_cast; ring,
      abs_neg]
    exact hs
  · apply roundHalfEven_eq_of_le_even
    · rw [show -m - ((-roundHalfEven m : ℤ) : ℚ) = -(m - roundHalfEven m) by push_cast; ring,
        abs_neg]
      exact le_of_eq hs
    · omega

theorem roundHalfEven_mono {m m2 : ℚ} (h : m ≤ m2) : roundHalfEven m ≤ roundHalfEven m2 := by
  have h1 : |m - roundHalfEven m| ≤ 1 / 2 := by
    rcases roundHalfEven_spec m with hs | ⟨hs, _⟩
    · exact le_of_lt hs
    · exact le_of_eq hs
  have h2 : |m2 - roundHalfEven m2| ≤ 1 / 2 := by
    rcases roundHalfEven_spec m2 with hs | ⟨hs, _⟩
    · exact le_of_lt hs
    · exact le_of_eq hs
  rw [abs_le] at h1 h2
  by_contra hlt
  push_neg at hlt
  have h3 : roundHalfEven m2 + 1 ≤ roundHalfEven m := hlt
  have h4 : (roundHalfEven m2 : ℚ) + 1 ≤ roundHalfEven m := by exact_mod_cast h3
  have hm : m = m2 := by linarith
  rw [hm] at hlt
  exact lt_irrefl _ hlt

/-! ### Rounding to a binary format -/

theorem log_two_eq {x : ℚ} {e : ℤ} (h1 : (2 : ℚ) ^ e ≤ x) (h2 : x < 2 ^ (e + 1)) :
    Int.log 2 x = e := by
  have hx : 0 < x := lt_of_lt_of_le (by positivity) h1
  apply le_antisymm
  · have := (Int.lt_zpow_iff_log_lt (b := 2) (R := ℚ) (by norm_num) hx (x := e + 1)).mp
      (by simpa using h2)
    omega
  · exact (Int.zpow_le_iff_le_log (b := 2) (R := ℚ) (by norm_num) hx).mp (by simpa using h1)

theorem two_zpow_log_le {x : ℚ} (hx : 0 < x) : (2 : ℚ) ^ Int.log 2 x ≤ x := by
  simpa using Int.zpow_log_le_self (b := 2) (R := ℚ) (by norm_num) hx

theorem lt_two_zpow_log_succ (x : ℚ) : x < (2 : ℚ) ^ (Int.log 2 x + 1) := by
  simpa using Int.lt_zpow_succ_log_self (b := 2) (R := ℚ) (by norm_num) x

/-- The scale (exponent of the unit in the last place) used for `x`. -/
theorem roundNE_of_ne {p : ℕ} {emin : ℤ} {x : ℚ} (hx : x ≠ 0) :
    roundNE p emin x =
      (roundHalfEven (x / 2 ^ (max (Int.log 2 |x| - (p - 1)) emin)) : ℚ) *
        2 ^ (max (Int.log 2 |x| - (p - 1)) emin) := by
  unfold roundNE
  rw [if_neg hx]

/-- Evaluation of `roundNE` once the binade of `x` is known. -/
theorem roundNE_eq_of_binade {p : ℕ} {emin : ℤ} {x : ℚ} (e : ℤ) (h1 : (2 : ℚ) ^ e ≤ |x|)
    (h2 : |x| < 2 ^ (e + 1)) :
    roundNE p emin x =
      (roundHalfEven (x / 2 ^ (max (e - (p - 1)) emin)) : ℚ) * 2 ^ (max (e - (p - 1)) emin) := by
  have hx : x ≠ 0 := by
    intro h
    rw [h, abs_zero] at h1
    exact absurd h1 (not_le.mpr (by positivity))
  rw [roundNE_of_ne hx, log_two_eq h1 h2]

theorem roundNE_zero (p : ℕ) (emin : ℤ) : roundNE p emin 0 = 0 := by
  unfold roundNE
  rw [if_pos rfl]

theorem roundNE_neg (p : ℕ) (emin : ℤ) (x : ℚ) : roundNE p emin (-x) = -roundNE p emin x := by
  by_cases hx : x = 0
  · rw [hx, neg_zero, roundNE_zero, neg_zero]
  · rw [roundNE_of_ne hx, roundNE_of_ne (neg_ne_zero.mpr hx), abs_neg, neg_div,
      roundHalfEven_neg]
    push_cast
    ring

theorem roundNE_nonneg {p : ℕ} {emin : ℤ} {x : ℚ} (hx : 0 ≤ x) : 0 ≤ roundNE p emin x := by
  rcases eq_or_lt_of_le hx with h | h
  · rw [← h, roundNE_zero]
  · rw [roundNE_of_ne (ne_of_gt h)]
    apply mul_nonneg _ (by positivity)
    have : roundHalfEven 0 ≤ roundHalfEven (x / 2 ^ (max (Int.log 2 |x| - (p - 1)) emin)) :=
      roundHalfEven_mono (by positivity)
    have h0 : roundHalfEven 0 = 0 := by simpa using roundHalfEven_intCast 0
    rw [h0] at this
    exact_mod_cast this

/-- Monotonicity on positive arguments. -/
theorem roundNE_mono_pos {p : ℕ} {emin : ℤ} (hp : 1 ≤ p) {x y : ℚ} (hx : 0 < x) (hxy : x ≤ y) :
    roundNE p emin x ≤ roundNE p emin y := by
  have hy : 0 < y := lt_of_lt_of_le hx hxy
  rw [roundNE_of_ne (ne_of_gt hx), roundNE_of_ne (ne_of_gt hy), abs_of_pos hx, abs_of_pos hy]
  have hlog : Int.log 2 x ≤ Int.log 2 y := Int.log_mono_right hx hxy
  set ex := Int.log 2 x with hex
  set ey := Int.log 2 y with hey
  set sx := max (ex - (p - 1)) emin with hsx
  set sy := max (ey - (p - 1)) emin with hsy
  have hs : sx ≤ sy := max_le_max (by omega) le_rfl
  rcases eq_or_lt_of_le hs with hs | hs
  · rw [hs]
    apply mul_le_mul_of_nonneg_right _ (by positivity)
    have : roundHalfEven (x / 2 ^ sy) ≤ roundHalfEven (y / 2 ^ sy) :=
      roundHalfEven_mono (div_le_div_of_nonneg_right hxy (by positivity))
    exact_mod_cast this
  · -- different scales: the power `2 ^ ey` separates the two roundings
    have hsy2 : sy = ey - (p - 1) := by
      rcases max_cases (ey - ((p : ℤ) - 1)) emin with ⟨h, _⟩ | ⟨h, _⟩
      · exact h
      · have : emin ≤ sx := le_max_right _ _
        omega
    have hp1 : (1 : ℤ) ≤ p := by exact_mod_cast hp
    have hexy : ex + 1 ≤ ey := by
      have : ex - ((p : ℤ) - 1) ≤ sx := le_max_left _ _
      omega
    have hk : 0 ≤ ey - sx := by omega
    -- upper bound for the rounding of `x`
    have hxlt : x / 2 ^ sx ≤ ((2 ^ (ey - sx).toNat : ℤ) : ℚ) := by
      rw [div_le_iff₀ (by positivity)]
      push_cast
      rw [← zpow_natCast, Int.toNat_of_nonneg hk, ← zpow_add₀ (by norm_num : (2 : ℚ) ≠ 0)]
      have h1 : x < (2 : ℚ) ^ (ex + 1) := lt_two_zpow_log_succ x
      have h2 : (2 : ℚ) ^ (ex + 1) ≤ 2 ^ (ey - sx + sx) :=
        zpow_le_zpow_right₀ (by norm_num) (by omega)
      exact le_of_lt (lt_of_lt_of_le h1 h2)
    have hupper : roundHalfEven (x / 2 ^ sx) ≤ 2 ^ (ey - sx).toNat := by
      have := roundHalfEven_mono hxlt
      rwa [roundHalfEven_intCast] at this
    have hupper2 : (roundHalfEven (x / 2 ^ sx) : ℚ) * 2 ^ sx ≤ 2 ^ ey := by
      have h3 : (roundHalfEven (x / 2 ^ sx) : ℚ) ≤ ((2 ^ (ey - sx).toNat : ℤ) : ℚ) := by
        exact_mod_cast hupper
      have h4 : (roundHalfEven (x / 2 ^ sx) : ℚ) * 2 ^ sx ≤
          ((2 ^ (ey - sx).toNat : ℤ) : ℚ) * 2 ^ sx :=
        mul_le_mul_of_nonneg_right h3 (by positivity)
      refine le_trans h4 (le_of_eq ?_)
      push_cast
      rw [← zpow_natCast, Int.toNat_of_nonneg hk, ← zpow_add₀ (by norm_num : (2 : ℚ) ≠ 0)]
      congr 1
      ring
    -- lower bound for the rounding of `y`
    have hk2 : 0 ≤ ey - sy := by omega
    have hylt : ((2 ^ (ey - sy).toNat : ℤ) : ℚ) ≤ y / 2 ^ sy := by
      rw [le_div_iff₀ (by positivity)]
      push_cast
      rw [← zpow_natCast, Int.toNat_of_nonneg hk2, ← zpow_add₀ (by norm_num : (2 : ℚ) ≠ 0)]
      have h1 : (2 : ℚ) ^ ey ≤ y := two_zpow_log_le hy
      rwa [show ey - sy + sy = ey by ring]
    have hlower : 2 ^ (ey - sy).toNat ≤ roundHalfEven (y / 2 ^ sy) := by
      have := roundHalfEven_mono hylt
      rwa [roundHalfEven_intCast] at this
    have hlower2 : (2 : ℚ) ^ ey ≤ (roundHalfEven (y / 2 ^ sy) : ℚ) * 2 ^ sy := by
      have h3 : ((2 ^ (ey - sy).toNat : ℤ) : ℚ) ≤ (roundHalfEven (y / 2 ^ sy) : ℚ) := by
        exact_mod_cast hlower
      have h4 : ((2 ^ (ey - sy).toNat : ℤ) : ℚ) * 2 ^ sy ≤
          (roundHalfEven (y / 2 ^ sy) : ℚ) * 2 ^ sy :=
        mul_le_mul_of_nonneg_right h3 (by positivity)
      refine le_trans (le_of_eq ?_) h4
      push_cast
      rw [← zpow_natCast, Int.toNat_of_nonneg hk2, ← zpow_add₀ (by norm_num : (2 : ℚ) ≠ 0)]
      congr 1
      ring
    exact le_trans hupper2 hlower2

/-- Rounding to nearest is monotone. -/
theorem roundNE_mono {p : ℕ} {emin : ℤ} (hp : 1 ≤ p) {x y : ℚ} (hxy : x ≤ y) :
    roundNE p emin x ≤ roundNE p emin y := by
  rcases lt_trichotomy 0 x with hx | hx | hx
  · exact roundNE_mono_pos hp hx hxy
  · rw [← hx, roundNE_zero]
    exact roundNE_nonneg (hx ▸ hxy)
  · rcases le_or_lt 0 y with hy | hy
    · have h1 : roundNE p emin x ≤ 0 := by
        have := @roundNE_nonneg p emin (-x) (by linarith)
        rw [roundNE_neg] at this
        linarith
      exact le_trans h1 (roundNE_nonneg hy)
    · have := @roundNE_mono_pos p emin hp (-y) (-x) (by linarith) (by linarith)
      rw [roundNE_neg, roundNE_neg] at this
      linarith


/-- Every rounding is a value of the format. -/
theorem roundNE_representable (p : ℕ) (emin : ℤ) (x : ℚ) :
    Representable p emin (roundNE p emin x) := by
  by_cases hx : x = 0
  · exact ⟨0, emin, by positivity, le_rfl, by rw [hx, roundNE_zero]; simp⟩
  · rw [roundNE_of_ne hx]
    set e := Int.log 2 |x| with he
    set s := max (e - (p - 1)) emin with hs
    refine ⟨roundHalfEven (x / 2 ^ s), s, ?_, le_max_right _ _, rfl⟩
    have hxpos : 0 < |x| := abs_pos.mpr hx
    have h1 : |x| < (2 : ℚ) ^ (e + 1) := lt_two_zpow_log_succ |x|
    have hes : e + 1 ≤ p + s := by
      have : e - ((p : ℤ) - 1) ≤ s := le_max_left _ _
      omega
    have h2 : |x| / 2 ^ s ≤ ((2 ^ p : ℤ) : ℚ) := by
      rw [div_le_iff₀ (by positivity)]
      push_cast
      rw [← zpow_natCast, ← zpow_add₀ (by norm_num : (2 : ℚ) ≠ 0)]
      exact le_of_lt (lt_of_lt_of_le h1 (zpow_le_zpow_right₀ (by norm_num) hes))
    have habs : |x / 2 ^ s| = |x| / 2 ^ s := by
      rw [abs_div, abs_of_pos (by positivity : (0 : ℚ) < 2 ^ s)]
    rw [abs_le]
    constructor
    · have h3 : -((2 ^ p : ℤ) : ℚ) ≤ x / 2 ^ s := by
        have := neg_abs_le (x / 2 ^ s)
        rw [habs] at this
        linarith
      have := roundHalfEven_mono h3
      rw [show -((2 ^ p : ℤ) : ℚ) = ((-(2 ^ p) : ℤ) : ℚ) by push_cast; ring,
        roundHalfEven_intCast] at this
      exact this
    · have h3 : x / 2 ^ s ≤ ((2 ^ p : ℤ) : ℚ) := by
        have := le_abs_self (x / 2 ^ s)
        rw [habs] at this
        linarith
      have := roundHalfEven_mono h3
      rwa [roundHalfEven_intCast] at this

/-- Values of the format are fixed by the rounding. -/
theorem roundNE_of_representable {p : ℕ} {emin : ℤ} (hp : 1 ≤ p) {x : ℚ}
    (h : Representable p emin x) : roundNE p emin x = x := by
  obtain ⟨n, k, hn, hk, rfl⟩ := h
  by_cases hn0 : n = 0
  · rw [hn0]
    simp [roundNE_zero]
  have hx : (n : ℚ) * 2 ^ k ≠ 0 := by
    apply mul_ne_zero
    · exact_mod_cast hn0
    · positivity
  rw [roundNE_of_ne hx]
  set e := Int.log 2 |(n : ℚ) * 2 ^ k| with he
  set s := max (e - (p - 1)) emin with hs
  have hp1 : (1 : ℤ) ≤ p := by exact_mod_cast hp
  have habs : |(n : ℚ) * 2 ^ k| = |(n : ℚ)| * 2 ^ k := by
    rw [abs_mul, abs_of_pos (by positivity : (0 : ℚ) < 2 ^ k)]
  have hnq : |(n : ℚ)| ≤ 2 ^ p := by
    have : ((|n| : ℤ) : ℚ) ≤ ((2 ^ p : ℤ) : ℚ) := by exact_mod_cast hn
    simpa using this
  -- the quotient by the unit in the last place is an integer
  suffices hz : ∃ z : ℤ, (n : ℚ) * 2 ^ k / 2 ^ s = z by
    obtain ⟨z, hz⟩ := hz
    rw [hz, roundHalfEven_intCast, ← hz]
    field_simp
  rcases lt_or_eq_of_le hnq with hlt | heq
  · have h1 : |(n : ℚ) * 2 ^ k| < 2 ^ (p + k : ℤ) := by
      rw [habs, zpow_add₀ (by norm_num : (2 : ℚ) ≠ 0), zpow_natCast]
      exact mul_lt_mul_of_pos_right hlt (by positivity)
    have h2 : e < p + k := by
      have := (Int.lt_zpow_iff_log_lt (b := 2) (R := ℚ) (by norm_num) (abs_pos.mpr hx)
        (x := p + k)).mp (by simpa using h1)
      exact this
    have hsk : s ≤ k := max_le (by omega) hk
    refine ⟨n * 2 ^ (k - s).toNat, ?_⟩
    push_cast
    rw [← zpow_natCast, Int.toNat_of_nonneg (by omega), mul_div_assoc,
      ← zpow_sub₀ (by norm_num : (2 : ℚ) ≠ 0)]
  · have h1 : |(n : ℚ) * 2 ^ k| = 2 ^ (p + k : ℤ) := by
      rw [habs, heq, zpow_add₀ (by norm_num : (2 : ℚ) ≠ 0), zpow_natCast]
    have h2 : e = p + k := by
      rw [he, h1]
      simpa using Int.log_zpow (b := 2) (R := ℚ) (by norm_num) (p + k)
    have hsk : s = k + 1 := by
      rw [hs, h2]
      rw [max_eq_left (by omega)]
      ring
    obtain ⟨m, hm⟩ : ∃ m : ℕ, p = m + 1 := ⟨p - 1, by omega⟩
    rcases abs_choice (n : ℚ) with hsgn | hsgn
    · refine ⟨2 ^ m, ?_⟩
      rw [← hsgn, heq, hsk, hm]
      push_cast
      rw [zpow_add₀ (by norm_num : (2 : ℚ) ≠ 0), pow_succ]
      field_simp
      ring
    · refine ⟨-2 ^ m, ?_⟩
      have hn2 : (n : ℚ) = -2 ^ p := by
        rw [← heq, hsgn, neg_neg]
      rw [hn2, hsk, hm]
      push_cast
      rw [zpow_add₀ (by norm_num : (2 : ℚ) ≠ 0), pow_succ]
      field_simp
      ring

theorem Representable.mul_two_pow {p : ℕ} {emin : ℤ} {x : ℚ} (h : Representable p emin x)
    (j : ℕ) : Representable p emin (x * 2 ^ j) := by
  obtain ⟨n, k, hn, hk, rfl⟩ := h
  refine ⟨n, k + j, hn, by omega, ?_⟩
  rw [zpow_add₀ (by norm_num : (2 : ℚ) ≠ 0), zpow_natCast]
  ring

theorem Representable.intCast {p : ℕ} {emin : ℤ} (hemin : emin ≤ 0) {n : ℤ} (hn : |n| ≤ 2 ^ p) :
    Representable p emin (n : ℚ) :=
  ⟨n, 0, hn, hemin, by simp⟩


/-! ## Lemmas on the comparisons of floating-point data -/

theorem fp_lt_ne_nan {a b : FP} (h : FP.lt a b = true) : a ≠ .nan ∧ b ≠ .nan := by
  cases a <;> cases b <;> simp [FP.lt] at h ⊢

theorem fp_le_ne_nan {a b : FP} (h : FP.le a b = true) : a ≠ .nan ∧ b ≠ .nan := by
  cases a <;> cases b <;> simp [FP.le] at h ⊢

theorem fp_eq_ne_nan {a b : FP} (h : FP.eq a b = true) : a ≠ .nan ∧ b ≠ .nan := by
  cases a <;> cases b <;> simp [FP.eq] at h ⊢

theorem fp_le_of_lt {a b : FP} (h : FP.lt a b = true) : FP.le a b = true := by
  rcases a with a | _ | sa | _ <;> rcases b with b | _ | sb | _ <;>
    simp [FP.lt, FP.le, FP.toRat] at h ⊢ <;> first | linarith | (simp [h])

theorem fp_le_refl {a : FP} (h : a ≠ .nan) : FP.le a a = true := by
  cases a <;> simp [FP.le, FP.toRat] at h ⊢

theorem fp_le_trans {a b c : FP} (h1 : FP.le a b = true) (h2 : FP.le b c = true) :
    FP.le a c = true := by
  rcases a with a | _ | sa | _ <;> rcases b with b | _ | sb | _ <;>
    rcases c with c | _ | sc | _ <;>
    simp [FP.le, FP.toRat] at h1 h2 ⊢ <;>
    first
    | linarith
    | (cases sa <;> cases sb <;> cases sc <;> simp_all)
    | simp_all

theorem fp_le_of_not_lt {a b : FP} (ha : a ≠ .nan) (hb : b ≠ .nan) (h : FP.lt a b = false) :
    FP.le b a = true := by
  rcases a with a | _ | sa | _ <;> rcases b with b | _ | sb | _ <;>
    simp [FP.lt, FP.le, FP.toRat] at ha hb h ⊢ <;>
    first
    | linarith
    | (cases sa <;> cases sb <;> simp_all)
    | simp_all

theorem fp_not_lt_of_le {a b : FP} (h : FP.le a b = true) : FP.lt b a = false := by
  rcases a with a | _ | sa | _ <;> rcases b with b | _ | sb | _ <;>
    simp [FP.lt, FP.le, FP.toRat] at h ⊢ <;>
    first
    | linarith
    | (cases sa <;> cases sb <;> simp_all)
    | simp_all

theorem fp_eq_of_le_of_le {a b : FP} (h1 : FP.le a b = true) (h2 : FP.le b a = true) :
    FP.eq a b = true := by
  rcases a with a | _ | sa | _ <;> rcases b with b | _ | sb | _ <;>
    simp [FP.eq, FP.le, FP.toRat] at h1 h2 ⊢ <;>
    first
    | linarith
    | (cases sa <;> cases sb <;> simp_all)
    | simp_all

theorem fp_le_of_eq {a b : FP} (h : FP.eq a b = true) : FP.le a b = true ∧ FP.le b a = true := by
  rcases a with a | _ | sa | _ <;> rcases b with b | _ | sb | _ <;>
    simp [FP.eq, FP.le, FP.toRat] at h ⊢ <;>
    first
    | (constructor <;> linarith)
    | (cases sa <;> cases sb <;> simp_all)

/-- A datum that compares equal to a finite non-zero value is that value. -/
theorem fp_eq_fin {q : ℚ} {x : FP} (hq : q ≠ 0) (h : FP.eq x (.fin q) = true) : x = .fin q := by
  rcases x with a | _ | sa | _ <;> simp [FP.eq, FP.toRat] at h ⊢
  · exact h
  · exact hq h.symm

theorem fp_eq_self_fin (q : ℚ) : FP.eq (.fin q) (.fin q) = true := by
  simp [FP.eq, FP.toRat]

theorem fp_lt_fin (a b : ℚ) : FP.lt (.fin a) (.fin b) = decide (a < b) := rfl

theorem fp_le_fin (a b : ℚ) : FP.le (.fin a) (.fin b) = decide (a ≤ b) := rfl

theorem fp_eq_fin_fin (a b : ℚ) : FP.eq (.fin a) (.fin b) = decide (a = b) := rfl

/-- A datum other than the negative zero that compares equal to a finite value is that
value. -/
theorem fp_eq_fin_of_ne_nzero {q : ℚ} {x : FP} (hx : x ≠ .nzero) (h : FP.eq x (.fin q) = true) :
    x = .fin q := by
  rcases x with a | _ | sa | _ <;> simp [FP.eq, FP.toRat] at h hx ⊢
  exact h
/-! ## Lemmas on the frame geometry -/

theorem mem_cells (c : ℤ × ℤ) :
    c ∈ cells ↔ (0 ≤ c.1 ∧ c.1 < 32) ∧ (0 ≤ c.2 ∧ c.2 < 24) := by
  obtain ⟨x, y⟩ := c
  simp only [cells, List.mem_flatMap, List.mem_range, List.mem_map, Prod.mk.injEq]
  constructor
  · rintro ⟨b, hb, a, ha, rfl, rfl⟩
    omega
  · rintro ⟨⟨h1, h2⟩, h3, h4⟩
    refine ⟨y.toNat, by omega, x.toNat, by omega, by omega, by omega⟩

theorem cells_nodup : cells.Nodup := by
  unfold cells
  rw [List.nodup_flatMap]
  refine ⟨?_, ?_⟩
  · intro y _
    refine (List.nodup_range 32).map ?_
    intro a b h
    simpa using h
  · refine (List.nodup_range 24).pairwise_of_forall_ne ?_
    intro a _ b _ hab
    simp only [Function.onFun, List.disjoint_left, List.mem_map, List.mem_range, not_exists,
      not_and]
    rintro c ⟨x, _, rfl⟩ x2 _ h
    simp only [Prod.mk.injEq, Nat.cast_inj] at h
    exact hab h.2.symm

theorem sampleIndex_bounds {x y : ℤ} (hx : 0 ≤ x ∧ x < 32) (hy : 0 ≤ y ∧ y < 24) :
    0 ≤ sampleIndex x y ∧ sampleIndex x y ≤ 767 := by
  unfold sampleIndex
  omega

theorem sampleIndex_inj {x y x2 y2 : ℤ} (hx : 0 ≤ x ∧ x < 32) (hx2 : 0 ≤ x2 ∧ x2 < 32)
    (h : sampleIndex x y = sampleIndex x2 y2) : x = x2 ∧ y = y2 := by
  unfold sampleIndex at h
  omega

theorem sampleIndex_surj {i : ℤ} (hi : 0 ≤ i ∧ i ≤ 767) :
    ∃ c ∈ cells, sampleIndex c.1 c.2 = i := by
  refine ⟨(i % 32, 23 - i / 32), ?_, ?_⟩
  · rw [mem_cells]
    dsimp only
    omega
  · unfold sampleIndex
    dsimp only
    omega

theorem mem_offsets (i : ℤ) :
    i ∈ cells.map (fun c => sampleIndex c.1 c.2) ↔ 0 ≤ i ∧ i ≤ 767 := by
  rw [List.mem_map]
  constructor
  · rintro ⟨c, hc, rfl⟩
    rw [mem_cells] at hc
    exact sampleIndex_bounds hc.1 hc.2
  · intro hi
    obtain ⟨c, hc, h⟩ := sampleIndex_surj hi
    exact ⟨c, hc, h⟩

theorem offsets_nodup : (cells.map fun c => sampleIndex c.1 c.2).Nodup := by
  refine List.Nodup.map_on ?_ cells_nodup
  intro c hc d hd h
  rw [mem_cells] at hc hd
  have := sampleIndex_inj hc.1 hd.1 h
  exact Prod.ext this.1 this.2

/-- The offsets of the cells, in loop order, are a rearrangement of `0, ..., 767`. -/
theorem offsets_perm :
    (cells.map fun c => sampleIndex c.1 c.2).Perm ((List.range 768).map Int.ofNat) := by
  rw [List.perm_ext_iff_of_nodup offsets_nodup
    ((List.nodup_range 768).map Int.ofNat_injective)]
  intro i
  rw [mem_offsets]
  simp only [List.mem_map, List.mem_range]
  constructor
  · intro h
    exact ⟨i.toNat, by omega, by simp; omega⟩
  · rintro ⟨n, hn, rfl⟩
    simp only [Int.ofNat_eq_coe]
    omega

theorem cells_length : cells.length = 768 := by
  have h := offsets_perm.length_eq
  simpa using h

/-! ## Lemmas on the scan -/

/-- The scan as a fold over the list of values read. -/
theorem get_max_min_eq (To : Frame) :
    get_max_min To =
      ((cells.map fun c => sampleIndex c.1 c.2).map To).foldl scan_step (.fin (-40), .fin 300) := by
  unfold get_max_min
  rw [List.map_map, List.foldl_map]
  rfl

theorem foldl_scan_fst (l : List FP) (acc : FP × FP) (hacc : acc.1 ≠ .nan) :
    (l.foldl scan_step acc).1 ≠ .nan ∧ FP.le acc.1 (l.foldl scan_step acc).1 = true ∧
      (∀ v ∈ l, v ≠ .nan → FP.le v (l.foldl scan_step acc).1 = true) ∧
      ((l.foldl scan_step acc).1 = acc.1 ∨ (l.foldl scan_step acc).1 ∈ l) := by
  induction l generalizing acc with
  | nil => exact ⟨hacc, fp_le_refl hacc, by simp, Or.inl rfl⟩
  | cons a l ih =>
    have hstep : (scan_step acc a).1 = if FP.lt acc.1 a then a else acc.1 := rfl
    simp only [List.foldl_cons, List.mem_cons, forall_eq_or_imp]
    by_cases ha : FP.lt acc.1 a = true
    · have hs : (scan_step acc a).1 = a := by rw [hstep, if_pos ha]
      obtain ⟨h0, h1, h2, h3⟩ := ih (scan_step acc a) (by rw [hs]; exact (fp_lt_ne_nan ha).2)
      rw [hs] at h1 h3
      refine ⟨h0, fp_le_trans (fp_le_of_lt ha) h1, ⟨fun _ => h1, h2⟩, ?_⟩
      rcases h3 with h3 | h3
      · exact Or.inr (Or.inl h3)
      · exact Or.inr (Or.inr h3)
    · have hs : (scan_step acc a).1 = acc.1 := by rw [hstep, if_neg ha]
      obtain ⟨h0, h1, h2, h3⟩ := ih (scan_step acc a) (by rw [hs]; exact hacc)
      rw [hs] at h1 h3
      refine ⟨h0, h1, ⟨fun hna => ?_, h2⟩, ?_⟩
      · exact fp_le_trans (fp_le_of_not_lt hacc hna (by simpa using ha)) h1
      · rcases h3 with h3 | h3
        · exact Or.inl h3
        · exact Or.inr (Or.inr h3)

theorem foldl_scan_snd (l : List FP) (acc : FP × FP) (hacc : acc.2 ≠ .nan) :
    (l.foldl scan_step acc).2 ≠ .nan ∧ FP.le (l.foldl scan_step acc).2 acc.2 = true ∧
      (∀ v ∈ l, v ≠ .nan → FP.le (l.foldl scan_step acc).2 v = true) ∧
      ((l.foldl scan_step acc).2 = acc.2 ∨ (l.foldl scan_step acc).2 ∈ l) := by
  induction l generalizing acc with
  | nil => exact ⟨hacc, fp_le_refl hacc, by simp, Or.inl rfl⟩
  | cons a l ih =>
    have hstep : (scan_step acc a).2 = if FP.lt a acc.2 then a else acc.2 := rfl
    simp only [List.foldl_cons, List.mem_cons, forall_eq_or_imp]
    by_cases ha : FP.lt a acc.2 = true
    · have hs : (scan_step acc a).2 = a := by rw [hstep, if_pos ha]
      obtain ⟨h0, h1, h2, h3⟩ := ih (scan_step acc a) (by rw [hs]; exact (fp_lt_ne_nan ha).1)
      rw [hs] at h1 h3
      refine ⟨h0, fp_le_trans h1 (fp_le_of_lt ha), ⟨fun _ => h1, h2⟩, ?_⟩
      rcases h3 with h3 | h3
      · exact Or.inr (Or.inl h3)
      · exact Or.inr (Or.inr h3)
    · have hs : (scan_step acc a).2 = acc.2 := by rw [hstep, if_neg ha]
      obtain ⟨h0, h1, h2, h3⟩ := ih (scan_step acc a) (by rw [hs]; exact hacc)
      rw [hs] at h1 h3
      refine ⟨h0, h1, ⟨fun hna => ?_, h2⟩, ?_⟩
      · exact fp_le_trans h1 (fp_le_of_not_lt hna hacc (by simpa using ha))
      · rcases h3 with h3 | h3
        · exact Or.inl h3
        · exact Or.inr (Or.inr h3)

theorem mem_samples (To : Frame) (v : FP) :
    v ∈ (cells.map fun c => sampleIndex c.1 c.2).map To ↔ ∃ i, (0 ≤ i ∧ i ≤ 767) ∧ To i = v := by
  rw [List.mem_map]
  simp only [mem_offsets]

/-- Facts about `max_val` after the scan: it is no NaN, it is at least the seed and at least
every sample that is no NaN, and it is the seed or a sample. -/
theorem max_val_spec (To : Frame) :
    max_val To ≠ .nan ∧ FP.le (.fin (-40)) (max_val To) = true ∧
      (∀ i, 0 ≤ i ∧ i ≤ 767 → To i ≠ .nan → FP.le (To i) (max_val To) = true) ∧
      (max_val To = .fin (-40) ∨ ∃ i, (0 ≤ i ∧ i ≤ 767) ∧ To i = max_val To) := by
  unfold max_val
  rw [get_max_min_eq]
  obtain ⟨h0, h1, h2, h3⟩ :=
    foldl_scan_fst ((cells.map fun c => sampleIndex c.1 c.2).map To) (.fin (-40), .fin 300)
      (by simp)
  refine ⟨h0, h1, ?_, ?_⟩
  · intro i hi
    exact h2 _ ((mem_samples To _).2 ⟨i, hi, rfl⟩)
  · rcases h3 with h3 | h3
    · exact Or.inl h3
    · exact Or.inr ((mem_samples To _).1 h3)

/-- Facts about `min_val` after the scan. -/
theorem min_val_spec (To : Frame) :
    min_val To ≠ .nan ∧ FP.le (min_val To) (.fin 300) = true ∧
      (∀ i, 0 ≤ i ∧ i ≤ 767 → To i ≠ .nan → FP.le (min_val To) (To i) = true) ∧
      (min_val To = .fin 300 ∨ ∃ i, (0 ≤ i ∧ i ≤ 767) ∧ To i = min_val To) := by
  unfold min_val
  rw [get_max_min_eq]
  obtain ⟨h0, h1, h2, h3⟩ :=
    foldl_scan_snd ((cells.map fun c => sampleIndex c.1 c.2).map To) (.fin (-40), .fin 300)
      (by simp)
  refine ⟨h0, h1, ?_, ?_⟩
  · intro i hi
    exact h2 _ ((mem_samples To _).2 ⟨i, hi, rfl⟩)
  · rcases h3 with h3 | h3
    · exact Or.inl h3
    · exact Or.inr ((mem_samples To _).1 h3)

/-- The scan reads the frame at the offsets `0, ..., 767` only. -/
theorem get_max_min_congr {To To2 : Frame} (h : ∀ i, 0 ≤ i ∧ i ≤ 767 → To2 i = To i) :
    get_max_min To2 = get_max_min To := by
  rw [get_max_min_eq, get_max_min_eq]
  congr 1
  apply List.map_congr_left
  intro i hi
  exact h i ((mem_offsets i).1 hi)

/-- A finite value held by a sample that is at least the seed -40 and at least every sample is
`max_val`, in a frame without negative zeros. -/
theorem max_val_eq_of (To : Frame) (m : ℚ) (hm : -40 ≤ m)
    (hz : ∀ i, 0 ≤ i ∧ i ≤ 767 → To i ≠ .nzero)
    (hub : ∀ i, 0 ≤ i ∧ i ≤ 767 → To i ≠ .nan → FP.le (To i) (.fin m) = true)
    (hat : ∃ i, (0 ≤ i ∧ i ≤ 767) ∧ To i = .fin m) :
    max_val To = .fin m := by
  obtain ⟨h0, h1, h2, h3⟩ := max_val_spec To
  obtain ⟨j, hj, hjm⟩ := hat
  have hle : FP.le (max_val To) (.fin m) = true := by
    rcases h3 with h3 | ⟨i, hi, h3⟩
    · rw [h3, fp_le_fin]
      exact decide_eq_true hm
    · rw [← h3]
      exact hub i hi (by rw [h3]; exact h0)
  have hge : FP.le (.fin m) (max_val To) = true := by
    rw [← hjm]
    exact h2 j hj (by rw [hjm]; simp)
  have hnz : max_val To ≠ .nzero := by
    rcases h3 with h3 | ⟨i, hi, h3⟩
    · rw [h3]; simp
    · rw [← h3]; exact hz i hi
  exact fp_eq_fin_of_ne_nzero hnz (fp_eq_of_le_of_le hle hge)

/-- A finite value held by a sample that is at most the seed 300 and at most every sample is
`min_val`, in a frame without negative zeros. -/
theorem min_val_eq_of (To : Frame) (m : ℚ) (hm : m ≤ 300)
    (hz : ∀ i, 0 ≤ i ∧ i ≤ 767 → To i ≠ .nzero)
    (hlb : ∀ i, 0 ≤ i ∧ i ≤ 767 → To i ≠ .nan → FP.le (.fin m) (To i) = true)
    (hat : ∃ i, (0 ≤ i ∧ i ≤ 767) ∧ To i = .fin m) :
    min_val To = .fin m := by
  obtain ⟨h0, h1, h2, h3⟩ := min_val_spec To
  obtain ⟨j, hj, hjm⟩ := hat
  have hge : FP.le (.fin m) (min_val To) = true := by
    rcases h3 with h3 | ⟨i, hi, h3⟩
    · rw [h3, fp_le_fin]
      exact decide_eq_true hm
    · rw [← h3]
      exact hlb i hi (by rw [h3]; exact h0)
  have hle : FP.le (min_val To) (.fin m) = true := by
    rw [← hjm]
    exact h2 j hj (by rw [hjm]; simp)
  have hnz : min_val To ≠ .nzero := by
    rcases h3 with h3 | ⟨i, hi, h3⟩
    · rw [h3]; simp
    · rw [← h3]; exact hz i hi
  exact fp_eq_fin_of_ne_nzero hnz (fp_eq_of_le_of_le hle hge)

/-! ## Lemmas on the pacing arithmetic -/

theorem wrapInt64_of_range {z : ℤ} (h1 : -2 ^ 63 ≤ z) (h2 : z < 2 ^ 63) : wrapInt64 z = z := by
  unfold wrapInt64
  omega
/-! ## Evaluation of the floating-point operations -/

/-- Evaluation of a rounding from the binade `e`, the scale `s` and the rounded significand
`n` of the argument. -/
theorem roundNE_eval {p : ℕ} {emin : ℤ} {x : ℚ} (e s n : ℤ) (r : ℚ)
    (h1 : (2 : ℚ) ^ e ≤ |x|) (h2 : |x| < 2 ^ (e + 1)) (hs : max (e - (p - 1)) emin = s)
    (hn : ((n : ℚ) - 1 / 2 < x / 2 ^ s ∧ x / 2 ^ s < n + 1 / 2) ∨
      (((n : ℚ) - 1 / 2 ≤ x / 2 ^ s ∧ x / 2 ^ s ≤ n + 1 / 2) ∧ n % 2 = 0))
    (hr : (n : ℚ) * 2 ^ s = r) : roundNE p emin x = r := by
  rw [roundNE_eq_of_binade e h1 h2, hs, ← hr]
  congr 2
  rcases hn with ⟨ha, hb⟩ | ⟨⟨ha, hb⟩, he⟩
  · apply roundHalfEven_eq_of_lt
    rw [abs_lt]
    constructor <;> linarith
  · apply roundHalfEven_eq_of_le_even _ he
    rw [abs_le]
    constructor <;> linarith

/-- Evaluation at a positive argument that is not a tie. -/
theorem roundNE_pos {p : ℕ} {emin : ℤ} {x : ℚ} (e s n : ℤ) (r : ℚ)
    (h : ((2 : ℚ) ^ e ≤ x ∧ x < 2 ^ (e + 1)) ∧ max (e - (p - 1)) emin = s ∧
      ((n : ℚ) - 1 / 2 < x / 2 ^ s ∧ x / 2 ^ s < n + 1 / 2) ∧ (n : ℚ) * 2 ^ s = r) :
    roundNE p emin x = r := by
  obtain ⟨⟨h1, h2⟩, hs, hn, hr⟩ := h
  have hx : 0 < x := lt_of_lt_of_le (by positivity) h1
  exact roundNE_eval e s n r (by rwa [abs_of_pos hx]) (by rwa [abs_of_pos hx]) hs (Or.inl hn) hr

/-- Evaluation at a negative argument that is not a tie. -/
theorem roundNE_neg_arg {p : ℕ} {emin : ℤ} {x : ℚ} (e s n : ℤ) (r : ℚ)
    (h : ((2 : ℚ) ^ e ≤ -x ∧ -x < 2 ^ (e + 1)) ∧ max (e - (p - 1)) emin = s ∧
      ((n : ℚ) - 1 / 2 < x / 2 ^ s ∧ x / 2 ^ s < n + 1 / 2) ∧ (n : ℚ) * 2 ^ s = r) :
    roundNE p emin x = r := by
  obtain ⟨⟨h1, h2⟩, hs, hn, hr⟩ := h
  have hx : x < 0 := neg_pos.mp (lt_of_lt_of_le (by positivity) h1)
  exact roundNE_eval e s n r (by rwa [abs_of_neg hx]) (by rwa [abs_of_neg hx]) hs (Or.inl hn) hr

/-- Evaluation at a positive tie: the even neighbour `n`. -/
theorem roundNE_pos_tie {p : ℕ} {emin : ℤ} {x : ℚ} (e s n : ℤ) (r : ℚ)
    (h : ((2 : ℚ) ^ e ≤ x ∧ x < 2 ^ (e + 1)) ∧ max (e - (p - 1)) emin = s ∧
      (((n : ℚ) - 1 / 2 ≤ x / 2 ^ s ∧ x / 2 ^ s ≤ n + 1 / 2) ∧ n % 2 = 0) ∧
      (n : ℚ) * 2 ^ s = r) :
    roundNE p emin x = r := by
  obtain ⟨⟨h1, h2⟩, hs, hn, hr⟩ := h
  have hx : 0 < x := lt_of_lt_of_le (by positivity) h1
  exact roundNE_eval e s n r (by rwa [abs_of_pos hx]) (by rwa [abs_of_pos hx]) hs (Or.inr hn) hr

theorem rf_zero : rf 0 = 0 := roundNE_zero 24 (-149)

theorem rd_zero : rd 0 = 0 := roundNE_zero 53 (-1074)

theorem rf_mono {x y : ℚ} (h : x ≤ y) : rf x ≤ rf y := roundNE_mono (by norm_num) h

theorem rd_mono {x y : ℚ} (h : x ≤ y) : rd x ≤ rd y := roundNE_mono (by norm_num) h

/-- Integers of magnitude at most `2 ^ 24` are `float` values. -/
theorem rf_intCast {n : ℤ} (hn : |n| ≤ 2 ^ 24) : rf (n : ℚ) = n :=
  roundNE_of_representable (by norm_num) (Representable.intCast (by norm_num) hn)

/-- Integers of magnitude at most `2 ^ 53` are `double` values. -/
theorem rd_intCast {n : ℤ} (hn : |n| ≤ 2 ^ 53) : rd (n : ℚ) = n :=
  roundNE_of_representable (by norm_num) (Representable.intCast (by norm_num) hn)

theorem rf_one : rf 1 = 1 := by
  simpa using @rf_intCast 1 (by norm_num)

theorem rd_one : rd 1 = 1 := by
  simpa using @rd_intCast 1 (by norm_num)

/-- The product of a `double` with 4 is exact. -/
theorem rd_mul_four (x : ℚ) : rd (rd x * 4) = rd x * 4 := by
  have h := (roundNE_representable 53 (-1074) x).mul_two_pow 2
  have h4 : (2 : ℚ) ^ 2 = 4 := by norm_num
  rw [h4] at h
  exact roundNE_of_representable (by norm_num) h

theorem truncToInt_mono {x y : ℚ} (h : x ≤ y) : truncToInt x ≤ truncToInt y := by
  unfold truncToInt
  split_ifs with hx hy hy
  · exact Int.floor_le_floor h
  · exact absurd (le_trans hx h) hy
  · have h1 : ⌈x⌉ ≤ 0 := Int.ceil_le.mpr (by push_cast; linarith)
    have h2 : 0 ≤ ⌊y⌋ := Int.floor_nonneg.mpr hy
    omega
  · exact Int.ceil_le_ceil h

theorem truncToInt_eq {w : ℚ} (z : ℤ) (h0 : 0 ≤ w) (h1 : (z : ℚ) ≤ w) (h2 : w < z + 1) :
    truncToInt w = z := by
  unfold truncToInt
  rw [if_pos h0, Int.floor_eq_iff]
  exact ⟨h1, h2⟩

/-! ## Evaluation of the operations on floating-point data -/

theorem rd_nonneg {x : ℚ} (h : 0 ≤ x) : 0 ≤ rd x := roundNE_nonneg h

theorem rf_nonneg {x : ℚ} (h : 0 ≤ x) : 0 ≤ rf x := roundNE_nonneg h

theorem rd_neg (x : ℚ) : rd (-x) = -rd x := roundNE_neg 53 (-1074) x

theorem rf_neg (x : ℚ) : rf (-x) = -rf x := roundNE_neg 24 (-149) x

/-- The binary64 result of an operation with a non-negative exact result, overflow aside. -/
theorem toDouble_of_nonneg {x r : ℚ} (h0 : 0 ≤ x) (hr : rd x = r) (h2 : |r| < 2 ^ 1024) :
    toDouble x = .fin r := by
  unfold toDouble
  rw [hr, if_pos h2]
  by_cases h : r = 0
  · rw [if_pos h, h]
    simp [FP.zero, not_lt.mpr h0]
  · rw [if_neg h]

/-- The binary32 result of an operation with a non-negative exact result, overflow aside. -/
theorem toFloat_of_nonneg {x r : ℚ} (h0 : 0 ≤ x) (hr : rf x = r) (h2 : |r| < 2 ^ 128) :
    toFloat x = .fin r := by
  unfold toFloat
  rw [hr, if_pos h2]
  by_cases h : r = 0
  · rw [if_pos h, h]
    simp [FP.zero, not_lt.mpr h0]
  · rw [if_neg h]

/-- The shapes of a binary64 result: the rounded value, the negative zero for a negative exact
result that rounds to zero, or an infinity. -/
theorem toDouble_cases (x : ℚ) :
    toDouble x = .fin (rd x) ∨ (toDouble x = .nzero ∧ x < 0 ∧ rd x = 0) ∨
      ∃ s, toDouble x = .inf s := by
  unfold toDouble
  split_ifs with h1 h2
  · by_cases hx : x < 0
    · exact Or.inr (Or.inl ⟨by simp [FP.zero, hx], hx, h2⟩)
    · left
      rw [h2]
      simp [FP.zero, hx]
  · exact Or.inl rfl
  · exact Or.inr (Or.inr ⟨_, rfl⟩)

theorem toFloat_cases (x : ℚ) :
    toFloat x = .fin (rf x) ∨ (toFloat x = .nzero ∧ x < 0 ∧ rf x = 0) ∨
      ∃ s, toFloat x = .inf s := by
  unfold toFloat
  split_ifs with h1 h2
  · by_cases hx : x < 0
    · exact Or.inr (Or.inl ⟨by simp [FP.zero, hx], hx, h2⟩)
    · left
      rw [h2]
      simp [FP.zero, hx]
  · exact Or.inl rfl
  · exact Or.inr (Or.inr ⟨_, rfl⟩)

theorem toDouble_fin_inv {x r : ℚ} (h : toDouble x = .fin r) : r = rd x ∧ |rd x| < 2 ^ 1024 := by
  unfold toDouble at h
  split_ifs at h with h1 h2
  · unfold FP.zero at h
    split_ifs at h
    rw [h2]
    exact ⟨(FP.fin.inj h).symm, by rw [← h2]; exact h1⟩
  · exact ⟨(FP.fin.inj h).symm, h1⟩

theorem toFloat_fin_inv {x r : ℚ} (h : toFloat x = .fin r) : r = rf x ∧ |rf x| < 2 ^ 128 := by
  unfold toFloat at h
  split_ifs at h with h1 h2
  · unfold FP.zero at h
    split_ifs at h
    rw [h2]
    exact ⟨(FP.fin.inj h).symm, by rw [← h2]; exact h1⟩
  · exact ⟨(FP.fin.inj h).symm, h1⟩

theorem toDouble_zero : toDouble 0 = .fin 0 :=
  toDouble_of_nonneg le_rfl rd_zero (by norm_num)

theorem toDouble_one : toDouble 1 = .fin 1 :=
  toDouble_of_nonneg zero_le_one rd_one (by norm_num)

/-- The quotient of a finite value by a positive finite value. -/
theorem div_fin_pos (a : ℚ) {b : ℚ} (hb : 0 < b) :
    FP.div (.fin a) (.fin b) = toDouble (a / b) := by
  have hb0 : b ≠ 0 := ne_of_gt hb
  by_cases ha : a = 0
  · rw [ha, zero_div, toDouble_zero]
    simp [FP.div, FP.isZero, FP.signbit, FP.zero, hb0, not_lt.mpr (le_of_lt hb)]
  · simp [FP.div, FP.isZero, FP.toRat, hb0, ha]

theorem div_nzero_pos {b : ℚ} (hb : 0 < b) : FP.div .nzero (.fin b) = .nzero := by
  simp [FP.div, FP.isZero, FP.signbit, FP.zero, ne_of_gt hb, not_lt.mpr (le_of_lt hb)]

theorem div_inf_pos (s : Bool) {b : ℚ} (hb : 0 < b) : FP.div (.inf s) (.fin b) = .inf s := by
  simp [FP.div, FP.signbit, not_lt.mpr (le_of_lt hb)]

theorem sub_fin_fin (a b : ℚ) : FP.sub (.fin a) (.fin b) = toDouble (a - b) := rfl

/-- Evaluation of `vrange` from its two roundings. -/
theorem vrange_eq_fin {min max d b : ℚ} (hmm : min ≤ max) (hd : rd (max - min) = d)
    (hd2 : |d| < 2 ^ 1024) (hb : rf d = b) (hb2 : |b| < 2 ^ 128) :
    vrange (.fin min) (.fin max) = .fin b := by
  have h0 : 0 ≤ d := by rw [← hd]; exact rd_nonneg (by linarith)
  unfold vrange
  rw [sub_fin_fin, toDouble_of_nonneg (by linarith) hd hd2]
  exact toFloat_of_nonneg h0 hb hb2

/-- Evaluation of `value` after the two assignments, for a finite positive `vrange`. -/
theorem normalized_eq_fin {value min max b a t : ℚ} (hvm : min ≤ value)
    (hv : vrange (.fin min) (.fin max) = .fin b)
    (hb : 0 < b) (ha : rd (value - min) = a) (ha2 : |a| < 2 ^ 1024) (ht : rd (a / b) = t)
    (ht2 : |t| < 2 ^ 1024) : normalized (.fin value) (.fin min) (.fin max) = .fin t := by
  have h0 : 0 ≤ a := by rw [← ha]; exact rd_nonneg (by linarith)
  unfold normalized
  rw [hv, sub_fin_fin, toDouble_of_nonneg (by linarith) ha ha2, div_fin_pos a hb]
  exact toDouble_of_nonneg (div_nonneg h0 (le_of_lt hb)) ht ht2

/-- Evaluation of the interpolating branch. -/
theorem grad_index_eq_interp {value min max : FP} {t w g f : ℚ} {i : ℤ}
    (hn : normalized value min max = .fin t) (h0 : 0 < t) (h1 : t < 1)
    (h4 : rd (t * 4) = w) (hi : (i : ℚ) ≤ w ∧ w < i + 1) (hi2 : |i| ≤ 2 ^ 24)
    (hg : rd (w - i) = g) (hf : rf g = f) :
    grad_index value min max = some (i, i + 1, f) := by
  unfold grad_index
  rw [hn]
  simp only [not_le.mpr h0, ge_iff_le, not_le.mpr h1, if_false]
  have hN : ((NUM_COLORS : ℤ) : ℚ) - 1 = 4 := by norm_num [NUM_COLORS]
  rw [hN, h4]
  have hfl : ⌊w⌋ = i := Int.floor_eq_iff.mpr hi
  rw [hfl, rf_intCast hi2, hg, hf]

/-- Evaluation of the lower clamp. -/
theorem grad_index_eq_low {value min max : FP} {t : ℚ} (hn : normalized value min max = .fin t)
    (h0 : t ≤ 0) : grad_index value min max = some (0, 0, 0) := by
  unfold grad_index
  rw [hn]
  simp only [h0, if_true]

/-- Evaluation of the upper clamp. -/
theorem grad_index_eq_high {value min max : FP} {t : ℚ} (hn : normalized value min max = .fin t)
    (h1 : 1 ≤ t) : grad_index value min max = some (4, 4, 0) := by
  unfold grad_index
  rw [hn]
  have h0 : ¬ t ≤ 0 := not_le.mpr (lt_of_lt_of_le one_pos h1)
  simp only [h0, ge_iff_le, h1, if_true, if_false, NUM_COLORS]
  norm_num

/-- The lower clamp at a negative zero. -/
theorem grad_index_eq_nzero {value min max : FP} (hn : normalized value min max = .nzero) :
    grad_index value min max = some (0, 0, 0) := by
  unfold grad_index
  rw [hn]

/-- The clamps at the infinities. -/
theorem grad_index_eq_inf {value min max : FP} {s : Bool}
    (hn : normalized value min max = .inf s) :
    grad_index value min max = some (if s then (0, 0, 0) else (4, 4, 0)) := by
  unfold grad_index
  rw [hn]
  cases s
  · simp only [NUM_COLORS]
    norm_num
  · rfl

/-- Evaluation of one channel from its four roundings. -/
theorem channel_eq {c1 c2 f : ℚ} (d m s w : ℚ) (z : ℤ) (hd : rf (c2 - c1) = d)
    (hm : rf (d * f) = m) (hs : rf (m + c1) = s) (hw : rd (s * 255) = w)
    (hz : 0 ≤ w ∧ (z : ℚ) ≤ w ∧ w < z + 1) : channel c1 c2 f = z := by
  unfold channel
  rw [hd, hm, hs, hw]
  exact truncToInt_eq z hz.1 hz.2.1 hz.2.2

theorem get_grad_value_eq {value min max : FP} {f : ℚ} {i1 i2 : ℤ}
    (h : grad_index value min max = some (i1, i2, f)) :
    get_grad_value value min max = blend i1 i2 f := by
  unfold get_grad_value
  rw [h]

/-- A NaN `value` makes the behaviour undefined. -/
theorem get_grad_value_eq_none {value min max : FP} (h : normalized value min max = .nan) :
    get_grad_value value min max = none := by
  unfold get_grad_value grad_index
  rw [h]

/-- The quotient `0 / 0` is a NaN. -/
theorem normalized_eq_nan {value min max : ℚ} (hvm : min ≤ value)
    (hv : vrange (.fin min) (.fin max) = .fin 0)
    (ha : rd (value - min) = 0) : normalized (.fin value) (.fin min) (.fin max) = .nan := by
  unfold normalized
  rw [hv, sub_fin_fin, toDouble_of_nonneg (by linarith) ha (by norm_num)]
  simp [FP.div, FP.isZero]

/-- A NaN argument `value` gives a NaN quotient. -/
theorem normalized_nan (min max : FP) : normalized .nan min max = .nan := by
  unfold normalized
  cases min <;> simp [FP.sub, FP.div]

/-! ## The palette table, evaluated -/

theorem rf_rd_32 : rf (rd (32 / 255)) = 8421505 / 67108864 := by
  rw [show rd ((32 : ℚ) / 255) = 282578800148737 / 2251799813685248 from
    (roundNE_pos (-3) (-55) 4521260802379792 _ (by norm_num))]
  exact (roundNE_pos (-3) (-26) 8421505 _ (by norm_num))

theorem rf_rd_140 : rf (rd (140 / 255)) = 9211021 / 16777216 := by
  rw [show rd ((140 : ℚ) / 255) = 2472564501301449 / 4503599627370496 from
    (roundNE_pos (-1) (-53) 4945129002602898 _ (by norm_num))]
  exact (roundNE_pos (-1) (-24) 9211021 _ (by norm_num))

theorem rf_rd_204 : rf (rd (204 / 255)) = 13421773 / 16777216 := by
  rw [show rd ((204 : ℚ) / 255) = 3602879701896397 / 4503599627370496 from
    (roundNE_pos (-1) (-53) 7205759403792794 _ (by norm_num))]
  exact (roundNE_pos (-1) (-24) 13421773 _ (by norm_num))

theorem rf_rd_119 : rf (rd (119 / 255)) = 15658735 / 33554432 := by
  rw [show rd ((119 : ℚ) / 255) = 4203359652212463 / 9007199254740992 from
    (roundNE_pos (-2) (-54) 8406719304424926 _ (by norm_num))]
  exact (roundNE_pos (-2) (-25) 15658735 _ (by norm_num))

theorem rf_rd_215 : rf (rd (215 / 255)) = 1768187 / 2097152 := by
  rw [show rd ((215 : ℚ) / 255) = 7594305253997307 / 9007199254740992 from
    (roundNE_pos (-1) (-53) 7594305253997307 _ (by norm_num))]
  exact (roundNE_pos (-1) (-24) 14145496 _ (by norm_num))

theorem color_zero : color 0 = some (0, 0, 0) := rfl

theorem color_one : color 1 = some (8421505 / 67108864, 0, 9211021 / 16777216) := by
  unfold color
  rw [rf_rd_32, rf_rd_140]
  rfl

theorem color_two : color 2 = some (13421773 / 16777216, 0, 15658735 / 33554432) := by
  unfold color
  rw [rf_rd_204, rf_rd_119]
  rfl

theorem color_three : color 3 = some (1, 1768187 / 2097152, 0) := by
  unfold color
  rw [rf_rd_215]
  rfl

theorem color_four : color 4 = some (1, 1, 1) := rfl

/-! ## Monotonicity of one channel -/

theorem channel_mono {c1 c2 f f2 : ℚ} (hc : c1 ≤ c2) (hf : f ≤ f2) :
    channel c1 c2 f ≤ channel c1 c2 f2 := by
  unfold channel
  have hd : 0 ≤ rf (c2 - c1) := by
    have := rf_mono (show (0 : ℚ) ≤ c2 - c1 by linarith)
    rwa [rf_zero] at this
  apply truncToInt_mono
  apply rd_mono
  apply mul_le_mul_of_nonneg_right _ (by norm_num)
  apply rf_mono
  apply add_le_add_right
  apply rf_mono
  exact mul_le_mul_of_nonneg_left hf hd

theorem channel_anti {c1 c2 f f2 : ℚ} (hc : c2 ≤ c1) (hf : f ≤ f2) :
    channel c1 c2 f2 ≤ channel c1 c2 f := by
  unfold channel
  have hd : rf (c2 - c1) ≤ 0 := by
    have := rf_mono (show c2 - c1 ≤ (0 : ℚ) by linarith)
    rwa [rf_zero] at this
  apply truncToInt_mono
  apply rd_mono
  apply mul_le_mul_of_nonneg_right _ (by norm_num)
  apply rf_mono
  apply add_le_add_right
  apply rf_mono
  exact mul_le_mul_of_nonpos_left hf hd

/-- Both reads of the table are defined for indexes in `0..4`. -/
theorem blend_isSome {i1 i2 : ℤ} (h1 : 0 ≤ i1 ∧ i1 ≤ 4) (h2 : 0 ≤ i2 ∧ i2 ≤ 4) (f : ℚ) :
    ∃ rgb, blend i1 i2 f = some rgb := by
  have hc : ∀ i : ℤ, 0 ≤ i ∧ i ≤ 4 → ∃ c, color i = some c := by
    intro i hi
    have : i = 0 ∨ i = 1 ∨ i = 2 ∨ i = 3 ∨ i = 4 := by omega
    rcases this with h | h | h | h | h <;> rw [h] <;> exact ⟨_, rfl⟩
  obtain ⟨c1, hc1⟩ := hc i1 h1
  obtain ⟨c2, hc2⟩ := hc i2 h2
  unfold blend
  rw [hc1, hc2]
  exact ⟨_, rfl⟩

/-! ## The palette segments, evaluated -/

theorem channel_chain_up {c1 c2 f f2 : ℚ} {s t : ℤ} (hc : c1 ≤ c2) (h0 : 0 ≤ f)
    (hf : f ≤ f2) (h1 : f2 ≤ 1) (hs : channel c1 c2 0 = s) (ht : channel c1 c2 1 = t) :
    OnTheWay s t (channel c1 c2 f) (channel c1 c2 f2) := by
  have a1 : s ≤ channel c1 c2 f := hs ▸ channel_mono hc h0
  have a2 : channel c1 c2 f ≤ channel c1 c2 f2 := channel_mono hc hf
  have a3 : channel c1 c2 f2 ≤ t := ht ▸ channel_mono hc h1
  unfold OnTheWay
  constructor
  · intro _
    exact ⟨a1, a2, a3⟩
  · intro h
    omega

theorem channel_chain_down {c1 c2 f f2 : ℚ} {s t : ℤ} (hc : c2 ≤ c1) (h0 : 0 ≤ f)
    (hf : f ≤ f2) (h1 : f2 ≤ 1) (hs : channel c1 c2 0 = s) (ht : channel c1 c2 1 = t) :
    OnTheWay s t (channel c1 c2 f) (channel c1 c2 f2) := by
  have a1 : channel c1 c2 f ≤ s := hs ▸ channel_anti hc h0
  have a2 : channel c1 c2 f2 ≤ channel c1 c2 f := channel_anti hc hf
  have a3 : t ≤ channel c1 c2 f2 := ht ▸ channel_anti hc h1
  unfold OnTheWay
  constructor
  · intro h
    omega
  · intro _
    exact ⟨a3, a2, a1⟩

theorem channel_zero_zero_at_zero : channel 0 0 0 = 0 :=
  channel_eq 0 0 0 0 0
    (by norm_num [rf_zero])
    (by norm_num [rf_zero])
    (by norm_num [rf_zero])
    (by norm_num [rd_zero]) (by norm_num)

theorem stop_rgb_zero : stop_rgb 0 = some (0, 0, 0) := by
  unfold stop_rgb blend
  rw [color_zero]
  simp only
  simp only [channel_zero_zero_at_zero]

theorem channel_c32_c32_at_zero : channel (8421505 / 67108864) (8421505 / 67108864) 0 = 32 :=
  channel_eq 0 0 (8421505 / 67108864) (2147483775 / 67108864) 32
    (by norm_num [rf_zero])
    (by norm_num [rf_zero])
    (roundNE_pos (-3) (-26) 8421505 _ (by norm_num))
    (roundNE_pos 5 (-47) 4503599893708800 _ (by norm_num)) (by norm_num)

theorem channel_c140_c140_at_zero : channel (9211021 / 16777216) (9211021 / 16777216) 0 = 140 :=
  channel_eq 0 0 (9211021 / 16777216) (2348810355 / 16777216) 140
    (by norm_num [rf_zero])
    (by norm_num [rf_zero])
    (roundNE_pos (-1) (-24) 9211021 _ (by norm_num))
    (roundNE_pos 7 (-45) 4925812333608960 _ (by norm_num)) (by norm_num)

theorem stop_rgb_one : stop_rgb 1 = some (32, 0, 140) := by
  unfold stop_rgb blend
  rw [color_one]
  simp only
  simp only [channel_c32_c32_at_zero, channel_zero_zero_at_zero, channel_c140_c140_at_zero]

theorem channel_c204_c204_at_zero : channel (13421773 / 16777216) (13421773 / 16777216) 0 = 204 :=
  channel_eq 0 0 (13421773 / 16777216) (3422552115 / 16777216) 204
    (by norm_num [rf_zero])
    (by norm_num [rf_zero])
    (roundNE_pos (-1) (-24) 13421773 _ (by norm_num))
    (roundNE_pos 7 (-45) 7177612013076480 _ (by norm_num)) (by norm_num)

theorem channel_c119_c119_at_zero : channel (15658735 / 33554432) (15658735 / 33554432) 0 = 119 :=
  channel_eq 0 0 (15658735 / 33554432) (3992977425 / 33554432) 119
    (by norm_num [rf_zero])
    (by norm_num [rf_zero])
    (roundNE_pos (-2) (-25) 15658735 _ (by norm_num))
    (roundNE_pos 6 (-46) 8373880592793600 _ (by norm_num)) (by norm_num)

theorem stop_rgb_two : stop_rgb 2 = some (204, 0, 119) := by
  unfold stop_rgb blend
  rw [color_two]
  simp only
  simp only [channel_c204_c204_at_zero, channel_zero_zero_at_zero, channel_c119_c119_at_zero]

theorem channel_one_one_at_zero : channel 1 1 0 = 255 :=
  channel_eq 0 0 1 255 255
    (by norm_num [rf_zero])
    (by norm_num [rf_zero])
    (roundNE_pos 0 (-23) 8388608 _ (by norm_num))
    (roundNE_pos 7 (-45) 8972014882652160 _ (by norm_num)) (by norm_num)

theorem channel_c215_c215_at_zero : channel (1768187 / 2097152) (1768187 / 2097152) 0 = 215 :=
  channel_eq 0 0 (1768187 / 2097152) (450887685 / 2097152) 215
    (by norm_num [rf_zero])
    (by norm_num [rf_zero])
    (roundNE_pos (-1) (-24) 14145496 _ (by norm_num))
    (roundNE_pos 7 (-45) 7564640082984960 _ (by norm_num)) (by norm_num)

theorem stop_rgb_three : stop_rgb 3 = some (255, 215, 0) := by
  unfold stop_rgb blend
  rw [color_three]
  simp only
  simp only [channel_one_one_at_zero, channel_c215_c215_at_zero, channel_zero_zero_at_zero]

theorem stop_rgb_four : stop_rgb 4 = some (255, 255, 255) := by
  unfold stop_rgb blend
  rw [color_four]
  simp only
  simp only [channel_one_one_at_zero]

theorem channel_zero_c32_at_zero : channel 0 (8421505 / 67108864) 0 = 0 :=
  channel_eq (8421505 / 67108864) 0 0 0 0
    (roundNE_pos (-3) (-26) 8421505 _ (by norm_num))
    (by norm_num [rf_zero])
    (by norm_num [rf_zero])
    (by norm_num [rd_zero]) (by norm_num)

theorem channel_zero_c140_at_zero : channel 0 (9211021 / 16777216) 0 = 0 :=
  channel_eq (9211021 / 16777216) 0 0 0 0
    (roundNE_pos (-1) (-24) 9211021 _ (by norm_num))
    (by norm_num [rf_zero])
    (by norm_num [rf_zero])
    (by norm_num [rd_zero]) (by norm_num)

theorem channel_zero_c32_at_one : channel 0 (8421505 / 67108864) 1 = 32 :=
  channel_eq (8421505 / 67108864) (8421505 / 67108864)
    (8421505 / 67108864) (2147483775 / 67108864) 32
    (roundNE_pos (-3) (-26) 8421505 _ (by norm_num))
    (roundNE_pos (-3) (-26) 8421505 _ (by norm_num))
    (roundNE_pos (-3) (-26) 8421505 _ (by norm_num))
    (roundNE_pos 5 (-47) 4503599893708800 _ (by norm_num)) (by norm_num)

theorem channel_zero_zero_at_one : channel 0 0 1 = 0 :=
  channel_eq 0 0 0 0 0
    (by norm_num [rf_zero])
    (by norm_num [rf_zero])
    (by norm_num [rf_zero])
    (by norm_num [rd_zero]) (by norm_num)

theorem channel_zero_c140_at_one : channel 0 (9211021 / 16777216) 1 = 140 :=
  channel_eq (9211021 / 16777216) (9211021 / 16777216)
    (9211021 / 16777216) (2348810355 / 16777216) 140
    (roundNE_pos (-1) (-24) 9211021 _ (by norm_num))
    (roundNE_pos (-1) (-24) 9211021 _ (by norm_num))
    (roundNE_pos (-1) (-24) 9211021 _ (by norm_num))
    (roundNE_pos 7 (-45) 4925812333608960 _ (by norm_num)) (by norm_num)

theorem blend_segment_zero {f f2 : ℚ} (h0 : 0 ≤ f) (hf : f ≤ f2) (h1 : f2 ≤ 1) :
    ∃ u w : ℤ × ℤ × ℤ, blend 0 1 f = some u ∧ blend 0 1 f2 = some w ∧
      OnTheWay 0 32 u.1 w.1 ∧
      OnTheWay 0 0 u.2.1 w.2.1 ∧
      OnTheWay 0 140 u.2.2 w.2.2 := by
  have hb : ∀ g : ℚ, blend 0 1 g = some (channel 0 (8421505 / 67108864) g,
      channel 0 0 g,
      channel 0 (9211021 / 16777216) g) := by
    intro g
    unfold blend
    rw [color_zero, color_one]
  refine ⟨_, _, hb f, hb f2, ?_, ?_, ?_⟩
  · exact channel_chain_up (by norm_num) h0 hf h1 channel_zero_c32_at_zero
      channel_zero_c32_at_one
  · exact channel_chain_up (by norm_num) h0 hf h1 channel_zero_zero_at_zero
      channel_zero_zero_at_one
  · exact channel_chain_up (by norm_num) h0 hf h1 channel_zero_c140_at_zero
      channel_zero_c140_at_one

theorem channel_c32_c204_at_zero : channel (8421505 / 67108864) (13421773 / 16777216) 0 = 32 :=
  channel_eq (11316397 / 16777216) 0 (8421505 / 67108864) (2147483775 / 67108864) 32
    (roundNE_pos (-1) (-24) 11316397 _ (by norm_num))
    (by norm_num [rf_zero])
    (roundNE_pos (-3) (-26) 8421505 _ (by norm_num))
    (roundNE_pos 5 (-47) 4503599893708800 _ (by norm_num)) (by norm_num)

theorem channel_c140_c119_at_zero : channel (9211021 / 16777216) (15658735 / 33554432) 0 = 140 :=
  channel_eq (-2763307 / 33554432) 0 (9211021 / 16777216) (2348810355 / 16777216) 140
    (roundNE_neg_arg (-4) (-27) (-11053228) _ (by norm_num))
    (by norm_num [rf_zero])
    (roundNE_pos (-1) (-24) 9211021 _ (by norm_num))
    (roundNE_pos 7 (-45) 4925812333608960 _ (by norm_num)) (by norm_num)

theorem channel_c32_c204_at_one : channel (8421505 / 67108864) (13421773 / 16777216) 1 = 204 :=
  channel_eq (11316397 / 16777216) (11316397 / 16777216)
    (13421773 / 16777216) (3422552115 / 16777216) 204
    (roundNE_pos (-1) (-24) 11316397 _ (by norm_num))
    (roundNE_pos (-1) (-24) 11316397 _ (by norm_num))
    (roundNE_pos (-1) (-24) 13421773 _ (by norm_num))
    (roundNE_pos 7 (-45) 7177612013076480 _ (by norm_num)) (by norm_num)

theorem channel_c140_c119_at_one : channel (9211021 / 16777216) (15658735 / 33554432) 1 = 119 :=
  channel_eq (-2763307 / 33554432) (-2763307 / 33554432)
    (15658735 / 33554432) (3992977425 / 33554432) 119
    (roundNE_neg_arg (-4) (-27) (-11053228) _ (by norm_num))
    (roundNE_neg_arg (-4) (-27) (-11053228) _ (by norm_num))
    (roundNE_pos (-2) (-25) 15658735 _ (by norm_num))
    (roundNE_pos 6 (-46) 8373880592793600 _ (by norm_num)) (by norm_num)

theorem blend_segment_one {f f2 : ℚ} (h0 : 0 ≤ f) (hf : f ≤ f2) (h1 : f2 ≤ 1) :
    ∃ u w : ℤ × ℤ × ℤ, blend 1 2 f = some u ∧ blend 1 2 f2 = some w ∧
      OnTheWay 32 204 u.1 w.1 ∧
      OnTheWay 0 0 u.2.1 w.2.1 ∧
      OnTheWay 140 119 u.2.2 w.2.2 := by
  have hb : ∀ g : ℚ, blend 1 2 g = some (channel (8421505 / 67108864) (13421773 / 16777216) g,
      channel 0 0 g,
      channel (9211021 / 16777216) (15658735 / 33554432) g) := by
    intro g
    unfold blend
    rw [color_one, color_two]
  refine ⟨_, _, hb f, hb f2, ?_, ?_, ?_⟩
  · exact channel_chain_up (by norm_num) h0 hf h1 channel_c32_c204_at_zero
      channel_c32_c204_at_one
  · exact channel_chain_up (by norm_num) h0 hf h1 channel_zero_zero_at_zero
      channel_zero_zero_at_one
  · exact channel_chain_down (by norm_num) h0 hf h1 channel_c140_c119_at_zero
      channel_c140_c119_at_one

theorem channel_c204_one_at_zero : channel (13421773 / 16777216) 1 0 = 204 :=
  channel_eq (3355443 / 16777216) 0 (13421773 / 16777216) (3422552115 / 16777216) 204
    (roundNE_pos (-3) (-26) 13421772 _ (by norm_num))
    (by norm_num [rf_zero])
    (roundNE_pos (-1) (-24) 13421773 _ (by norm_num))
    (roundNE_pos 7 (-45) 7177612013076480 _ (by norm_num)) (by norm_num)

theorem channel_zero_c215_at_zero : channel 0 (1768187 / 2097152) 0 = 0 :=
  channel_eq (1768187 / 2097152) 0 0 0 0
    (roundNE_pos (-1) (-24) 14145496 _ (by norm_num))
    (by norm_num [rf_zero])
    (by norm_num [rf_zero])
    (by norm_num [rd_zero]) (by norm_num)

theorem channel_c119_zero_at_zero : channel (15658735 / 33554432) 0 0 = 119 :=
  channel_eq (-15658735 / 33554432) 0 (15658735 / 33554432) (3992977425 / 33554432) 119
    (roundNE_neg_arg (-2) (-25) (-15658735) _ (by norm_num))
    (by norm_num [rf_zero])
    (roundNE_pos (-2) (-25) 15658735 _ (by norm_num))
    (roundNE_pos 6 (-46) 8373880592793600 _ (by norm_num)) (by norm_num)

theorem channel_c204_one_at_one : channel (13421773 / 16777216) 1 1 = 255 :=
  channel_eq (3355443 / 16777216) (3355443 / 16777216) 1 255 255
    (roundNE_pos (-3) (-26) 13421772 _ (by norm_num))
    (roundNE_pos (-3) (-26) 13421772 _ (by norm_num))
    (roundNE_pos 0 (-23) 8388608 _ (by norm_num))
    (roundNE_pos 7 (-45) 8972014882652160 _ (by norm_num)) (by norm_num)

theorem channel_zero_c215_at_one : channel 0 (1768187 / 2097152) 1 = 215 :=
  channel_eq (1768187 / 2097152) (1768187 / 2097152) (1768187 / 2097152) (450887685 / 2097152) 215
    (roundNE_pos (-1) (-24) 14145496 _ (by norm_num))
    (roundNE_pos (-1) (-24) 14145496 _ (by norm_num))
    (roundNE_pos (-1) (-24) 14145496 _ (by norm_num))
    (roundNE_pos 7 (-45) 7564640082984960 _ (by norm_num)) (by norm_num)

theorem channel_c119_zero_at_one : channel (15658735 / 33554432) 0 1 = 0 :=
  channel_eq (-15658735 / 33554432) (-15658735 / 33554432) 0 0 0
    (roundNE_neg_arg (-2) (-25) (-15658735) _ (by norm_num))
    (roundNE_neg_arg (-2) (-25) (-15658735) _ (by norm_num))
    (by norm_num [rf_zero])
    (by norm_num [rd_zero]) (by norm_num)

theorem blend_segment_two {f f2 : ℚ} (h0 : 0 ≤ f) (hf : f ≤ f2) (h1 : f2 ≤ 1) :
    ∃ u w : ℤ × ℤ × ℤ, blend 2 3 f = some u ∧ blend 2 3 f2 = some w ∧
      OnTheWay 204 255 u.1 w.1 ∧
      OnTheWay 0 215 u.2.1 w.2.1 ∧
      OnTheWay 119 0 u.2.2 w.2.2 := by
  have hb : ∀ g : ℚ, blend 2 3 g = some (channel (13421773 / 16777216) 1 g,
      channel 0 (1768187 / 2097152) g,
      channel (15658735 / 33554432) 0 g) := by
    intro g
    unfold blend
    rw [color_two, color_three]
  refine ⟨_, _, hb f, hb f2, ?_, ?_, ?_⟩
  · exact channel_chain_up (by norm_num) h0 hf h1 channel_c204_one_at_zero
      channel_c204_one_at_one
  · exact channel_chain_up (by norm_num) h0 hf h1 channel_zero_c215_at_zero
      channel_zero_c215_at_one
  · exact channel_chain_down (by norm_num) h0 hf h1 channel_c119_zero_at_zero
      channel_c119_zero_at_one

theorem channel_c215_one_at_zero : channel (1768187 / 2097152) 1 0 = 215 :=
  channel_eq (328965 / 2097152) 0 (1768187 / 2097152) (450887685 / 2097152) 215
    (roundNE_pos (-3) (-26) 10526880 _ (by norm_num))
    (by norm_num [rf_zero])
    (roundNE_pos (-1) (-24) 14145496 _ (by norm_num))
    (roundNE_pos 7 (-45) 7564640082984960 _ (by norm_num)) (by norm_num)

theorem channel_zero_one_at_zero : channel 0 1 0 = 0 :=
  channel_eq 1 0 0 0 0
    (roundNE_pos 0 (-23) 8388608 _ (by norm_num))
    (by norm_num [rf_zero])
    (by norm_num [rf_zero])
    (by norm_num [rd_zero]) (by norm_num)

theorem channel_one_one_at_one : channel 1 1 1 = 255 :=
  channel_eq 0 0 1 255 255
    (by norm_num [rf_zero])
    (by norm_num [rf_zero])
    (roundNE_pos 0 (-23) 8388608 _ (by norm_num))
    (roundNE_pos 7 (-45) 8972014882652160 _ (by norm_num)) (by norm_num)

theorem channel_c215_one_at_one : channel (1768187 / 2097152) 1 1 = 255 :=
  channel_eq (328965 / 2097152) (328965 / 2097152) 1 255 255
    (roundNE_pos (-3) (-26) 10526880 _ (by norm_num))
    (roundNE_pos (-3) (-26) 10526880 _ (by norm_num))
    (roundNE_pos 0 (-23) 8388608 _ (by norm_num))
    (roundNE_pos 7 (-45) 8972014882652160 _ (by norm_num)) (by norm_num)

theorem channel_zero_one_at_one : channel 0 1 1 = 255 :=
  channel_eq 1 1 1 255 255
    (roundNE_pos 0 (-23) 8388608 _ (by norm_num))
    (roundNE_pos 0 (-23) 8388608 _ (by norm_num))
    (roundNE_pos 0 (-23) 8388608 _ (by norm_num))
    (roundNE_pos 7 (-45) 8972014882652160 _ (by norm_num)) (by norm_num)

theorem blend_segment_three {f f2 : ℚ} (h0 : 0 ≤ f) (hf : f ≤ f2) (h1 : f2 ≤ 1) :
    ∃ u w : ℤ × ℤ × ℤ, blend 3 4 f = some u ∧ blend 3 4 f2 = some w ∧
      OnTheWay 255 255 u.1 w.1 ∧
      OnTheWay 215 255 u.2.1 w.2.1 ∧
      OnTheWay 0 255 u.2.2 w.2.2 := by
  have hb : ∀ g : ℚ, blend 3 4 g = some (channel 1 1 g,
      channel (1768187 / 2097152) 1 g,
      channel 0 1 g) := by
    intro g
    unfold blend
    rw [color_three, color_four]
  refine ⟨_, _, hb f, hb f2, ?_, ?_, ?_⟩
  · exact channel_chain_up (by norm_num) h0 hf h1 channel_one_one_at_zero
      channel_one_one_at_one
  · exact channel_chain_up (by norm_num) h0 hf h1 channel_c215_one_at_zero
      channel_c215_one_at_one
  · exact channel_chain_up (by norm_num) h0 hf h1 channel_zero_one_at_zero
      channel_zero_one_at_one

/-! ## Lemmas on the arithmetic of `get_grad_value` -/

theorem fp_lt_toRat {x y : FP} (hx : x.isFinite = true) (hy : y.isFinite = true) :
    FP.lt x y = decide (x.toRat < y.toRat) := by
  cases x <;> cases y <;> simp [FP.isFinite] at hx hy <;> rfl

theorem fp_le_toRat {x y : FP} (hx : x.isFinite = true) (hy : y.isFinite = true) :
    FP.le x y = decide (x.toRat ≤ y.toRat) := by
  cases x <;> cases y <;> simp [FP.isFinite] at hx hy <;> rfl

theorem toDouble_ne_nan (x : ℚ) : toDouble x ≠ .nan := by
  rcases toDouble_cases x with h | ⟨h, -⟩ | ⟨s, h⟩ <;> rw [h] <;> simp

/-- A finite non-zero difference has finite operands and is the rounded difference of their
values. -/
theorem sub_fin_inv {x y : FP} {d : ℚ} (h : FP.sub x y = .fin d) (hd : d ≠ 0) :
    x.isFinite = true ∧ y.isFinite = true ∧ d = rd (x.toRat - y.toRat) := by
  rcases x with a | _ | sa | _ <;> rcases y with b | _ | sb | _ <;>
    simp only [FP.sub, FP.isFinite, FP.toRat, and_self, true_and, sub_zero, zero_sub] at h ⊢
  · exact (toDouble_fin_inv h).1
  · exact (toDouble_fin_inv h).1
  · cases h
  · cases h
  · split_ifs at h
    exact (toDouble_fin_inv h).1
  · exact absurd (FP.fin.inj h).symm hd
  · cases h
  · cases h
  · cases h
  · cases h
  · split_ifs at h
  · cases h
  · cases h
  · cases h
  · cases h
  · cases h

/-- The difference of two finite data with distinct values. -/
theorem sub_finite_eq {x y : FP} (hx : x.isFinite = true) (hy : y.isFinite = true)
    (hne : x.toRat ≠ y.toRat) : FP.sub x y = toDouble (x.toRat - y.toRat) := by
  rcases x with a | _ | sa | _ <;> rcases y with b | _ | sb | _ <;>
    simp only [FP.isFinite, FP.toRat, Bool.false_eq_true] at hx hy hne ⊢
  · rfl
  · rw [sub_zero]; rfl
  · rw [zero_sub]
    simp [FP.sub, Ne.symm hne]
  · exact absurd rfl hne

/-- A difference with a finite subtrahend is a NaN only for a NaN minuend. -/
theorem sub_ne_nan {x y : FP} (hx : x ≠ .nan) (hy : y.isFinite = true) : FP.sub x y ≠ .nan := by
  rcases x with a | _ | sa | _ <;> rcases y with b | _ | sb | _ <;>
    simp only [FP.isFinite, Bool.false_eq_true, ne_eq, not_true_eq_false] at hx hy ⊢
  · exact toDouble_ne_nan _
  · exact toDouble_ne_nan _
  · simp only [FP.sub]
    split_ifs
    · simp
    · exact toDouble_ne_nan _
  · simp [FP.sub]
  · simp [FP.sub]
  · simp [FP.sub]

/-- A finite non-zero `vrange` comes from finite `min` and `max`, and is their twice rounded
difference. -/
theorem vrange_fin_inv {min max : FP} {b : ℚ} (h : vrange min max = .fin b) (hb : b ≠ 0) :
    min.isFinite = true ∧ max.isFinite = true ∧ b = rf (rd (max.toRat - min.toRat)) ∧
      |b| < 2 ^ 128 := by
  unfold vrange at h
  cases hs : FP.sub max min with
  | fin d =>
    rw [hs] at h
    have h2 : toFloat d = .fin b := h
    obtain ⟨e1, e2⟩ := toFloat_fin_inv h2
    have hd : d ≠ 0 := by
      intro h0
      rw [h0, rf_zero] at e1
      exact hb e1
    obtain ⟨f1, f2, f3⟩ := sub_fin_inv hs hd
    exact ⟨f2, f1, by rw [e1, f3], by rw [e1]; exact e2⟩
  | nzero =>
    rw [hs] at h
    cases h
  | inf s =>
    rw [hs] at h
    cases h
  | nan =>
    rw [hs] at h
    cases h

/-- With `min <= max` a finite non-zero `vrange` is positive. -/
theorem vrange_pos {min max : FP} {b : ℚ} (hmm : FP.le min max = true)
    (h : vrange min max = .fin b) (hb : b ≠ 0) : 0 < b := by
  obtain ⟨h1, h2, h3, -⟩ := vrange_fin_inv h hb
  rw [fp_le_toRat h1 h2, decide_eq_true_eq] at hmm
  have h4 : 0 ≤ b := by
    rw [h3]
    exact rf_nonneg (rd_nonneg (by linarith))
  exact lt_of_le_of_ne h4 (Ne.symm hb)

/-- The shapes of a quotient by a positive finite divisor: a rounded value, a negative zero or
an infinity, and no NaN unless the dividend is one. -/
theorem div_pos_cases {x : FP} {b : ℚ} (hx : x ≠ .nan) (hb : 0 < b) :
    (∃ q, FP.div x (.fin b) = .fin (rd q)) ∨ FP.div x (.fin b) = .nzero ∨
      ∃ s, FP.div x (.fin b) = .inf s := by
  rcases x with a | _ | sa | _
  · rw [div_fin_pos a hb]
    rcases toDouble_cases (a / b) with h | ⟨h, -⟩ | h
    · exact Or.inl ⟨_, h⟩
    · exact Or.inr (Or.inl h)
    · exact Or.inr (Or.inr h)
  · exact Or.inr (Or.inl (div_nzero_pos hb))
  · exact Or.inr (Or.inr ⟨sa, div_inf_pos sa hb⟩)
  · exact absurd rfl hx

/-- A finite positive normalised value comes from a finite non-zero `vrange` and a finite
non-zero difference `value - min`. -/
theorem normalized_fin_pos_inv {value min max : FP} {t : ℚ}
    (h : normalized value min max = .fin t) (ht : 0 < t) :
    ∃ a b, vrange min max = .fin b ∧ b ≠ 0 ∧ FP.sub value min = .fin a ∧ a ≠ 0 ∧
      t = rd (a / b) := by
  unfold normalized at h
  have hz : ∀ s : Bool, FP.zero s ≠ .fin t := by
    intro s
    cases s
    · simp only [FP.zero, Bool.false_eq_true, if_false, ne_eq, FP.fin.injEq]
      exact ne_of_lt ht
    · simp [FP.zero]
  rcases hx : FP.sub value min with a | _ | sa | _ <;>
    rcases hy : vrange min max with b | _ | sb | _ <;> rw [hx, hy] at h
  · by_cases hb : b = 0
    · simp [FP.div, FP.isZero, hb] at h
      split_ifs at h
    · by_cases ha : a = 0
      · simp only [FP.div, FP.isZero, hb, ha, decide_False, decide_True, Bool.false_eq_true,
          if_false, if_true] at h
        exact absurd h (hz _)
      · refine ⟨a, b, rfl, hb, rfl, ha, ?_⟩
        simp only [FP.div, FP.isZero, hb, ha, decide_False, Bool.false_eq_true, if_false,
          FP.toRat] at h
        exact (toDouble_fin_inv h).1
  · simp [FP.div, FP.isZero] at h
    split_ifs at h
  · exact absurd h (hz _)
  · cases h
  · by_cases hb : b = 0
    · simp [FP.div, FP.isZero, hb] at h
    · simp only [FP.div, FP.isZero, hb, decide_False, decide_True, Bool.false_eq_true,
        if_false, if_true] at h
      exact absurd h (hz _)
  · simp [FP.div, FP.isZero] at h
  · exact absurd h (hz _)
  · cases h
  · cases h
  · cases h
  · cases h
  · cases h
  · cases h
  · cases h
  · cases h
  · cases h

/-- The interpolating branch: what `idx1`, `idx2` and `fractBetween` are. -/
theorem grad_index_interp {value min max : FP} {t : ℚ} (hn : normalized value min max = .fin t)
    (h0 : 0 < t) (h1 : t < 1) :
    grad_index value min max =
      some (⌊rd (t * 4)⌋, ⌊rd (t * 4)⌋ + 1, rf (rd (rd (t * 4) - rf ⌊rd (t * 4)⌋))) := by
  unfold grad_index
  rw [hn]
  simp only [not_le.mpr h0, ge_iff_le, not_le.mpr h1, if_false]
  have hN : ((NUM_COLORS : ℤ) : ℚ) - 1 = 4 := by norm_num [NUM_COLORS]
  rw [hN]

/-- The three shapes of a result of `grad_index`. -/
theorem grad_index_shape {value min max : FP} {r : ℤ × ℤ × ℚ}
    (h : grad_index value min max = some r) :
    r = (0, 0, 0) ∨ r = (4, 4, 0) ∨
      ∃ t, normalized value min max = .fin t ∧ 0 < t ∧ t < 1 ∧
        r = (⌊rd (t * 4)⌋, ⌊rd (t * 4)⌋ + 1, rf (rd (rd (t * 4) - rf ⌊rd (t * 4)⌋))) := by
  cases hn : normalized value min max with
  | nan =>
    unfold grad_index at h
    rw [hn] at h
    cases h
  | nzero =>
    left
    rw [grad_index_eq_nzero hn] at h
    exact (Option.some.inj h).symm
  | inf s =>
    rw [grad_index_eq_inf hn] at h
    cases s
    · right; left
      exact (Option.some.inj h).symm
    · left
      exact (Option.some.inj h).symm
  | fin t =>
    by_cases h0 : t ≤ 0
    · left
      rw [grad_index_eq_low hn h0] at h
      exact (Option.some.inj h).symm
    · by_cases h1 : 1 ≤ t
      · right; left
        rw [grad_index_eq_high hn h1] at h
        exact (Option.some.inj h).symm
      · right; right
        push_neg at h0 h1
        rw [grad_index_interp hn h0 h1] at h
        exact ⟨t, rfl, h0, h1, (Option.some.inj h).symm⟩

/-- In the interpolating branch over a rounded `t`: `idx1` is in `0..3` and `fractBetween`
in `[0, 1]`. -/
theorem interp_bounds {x : ℚ} (h0 : 0 < rd x) (h1 : rd x < 1) :
    (0 ≤ ⌊rd (rd x * 4)⌋ ∧ ⌊rd (rd x * 4)⌋ ≤ 3) ∧
      0 ≤ rf (rd (rd (rd x * 4) - rf ⌊rd (rd x * 4)⌋)) ∧
      rf (rd (rd (rd x * 4) - rf ⌊rd (rd x * 4)⌋)) ≤ 1 := by
  rw [rd_mul_four]
  have hi0 : 0 ≤ ⌊rd x * 4⌋ := Int.floor_nonneg.mpr (by linarith)
  have hi3 : ⌊rd x * 4⌋ ≤ 3 := by
    have : ⌊rd x * 4⌋ < 4 := Int.floor_lt.mpr (by push_cast; linarith)
    omega
  refine ⟨⟨hi0, hi3⟩, ?_⟩
  have hcast : rf (⌊rd x * 4⌋ : ℚ) = ⌊rd x * 4⌋ :=
    rf_intCast (by rw [abs_of_nonneg hi0]; omega)
  rw [hcast]
  have hfl : (⌊rd x * 4⌋ : ℚ) ≤ rd x * 4 := Int.floor_le _
  have hfl2 : rd x * 4 < ⌊rd x * 4⌋ + 1 := Int.lt_floor_add_one _
  constructor
  · have h2 : rd 0 ≤ rd (rd x * 4 - ⌊rd x * 4⌋) := rd_mono (by linarith)
    rw [rd_zero] at h2
    have h3 := rf_mono h2
    rwa [rf_zero] at h3
  · have h2 : rd (rd x * 4 - ⌊rd x * 4⌋) ≤ rd 1 := rd_mono (by linarith)
    rw [rd_one] at h2
    have h3 := rf_mono h2
    rwa [rf_one] at h3

/-- When the normalised value is a rounded value, a negative zero or an infinity, `grad_index`
returns, and its result is a clamp or an interpolation between two adjacent entries of the
table. -/
theorem grad_index_of_cases {value min max : FP}
    (h : (∃ q, normalized value min max = .fin (rd q)) ∨ normalized value min max = .nzero ∨
      ∃ s, normalized value min max = .inf s) :
    ∃ i1 i2 f, grad_index value min max = some (i1, i2, f) ∧
      ((i1 = 0 ∧ i2 = 0 ∧ f = 0) ∨ (i1 = 4 ∧ i2 = 4 ∧ f = 0) ∨
        ((0 ≤ i1 ∧ i1 ≤ 3) ∧ i2 = i1 + 1 ∧ 0 ≤ f ∧ f ≤ 1)) := by
  rcases h with ⟨q, hn⟩ | hn | ⟨s, hn⟩
  · by_cases h0 : rd q ≤ 0
    · exact ⟨0, 0, 0, grad_index_eq_low hn h0, Or.inl ⟨rfl, rfl, rfl⟩⟩
    · by_cases h1 : 1 ≤ rd q
      · exact ⟨4, 4, 0, grad_index_eq_high hn h1, Or.inr (Or.inl ⟨rfl, rfl, rfl⟩)⟩
      · push_neg at h0 h1
        obtain ⟨hi, hf0, hf1⟩ := interp_bounds h0 h1
        exact ⟨_, _, _, grad_index_interp hn h0 h1, Or.inr (Or.inr ⟨hi, rfl, hf0, hf1⟩)⟩
  · exact ⟨0, 0, 0, grad_index_eq_nzero hn, Or.inl ⟨rfl, rfl, rfl⟩⟩
  · cases s
    · exact ⟨4, 4, 0, grad_index_eq_inf hn, Or.inr (Or.inl ⟨rfl, rfl, rfl⟩)⟩
    · exact ⟨0, 0, 0, grad_index_eq_inf hn, Or.inl ⟨rfl, rfl, rfl⟩⟩

/-- Over a finite positive `vrange` and for a `value` that is no NaN, the normalised value is
a rounded value, a negative zero or an infinity. -/
theorem normalized_cases {value min max : FP} {b : ℚ} (hval : value ≠ .nan)
    (hmm : FP.le min max = true) (hv : vrange min max = .fin b) (hb : b ≠ 0) :
    (∃ q, normalized value min max = .fin (rd q)) ∨ normalized value min max = .nzero ∨
      ∃ s, normalized value min max = .inf s := by
  unfold normalized
  rw [hv]
  exact div_pos_cases (sub_ne_nan hval (vrange_fin_inv hv hb).1) (vrange_pos hmm hv hb)

/-- Over a finite non-zero `vrange` of `min <= max` and for a `value` that is no NaN,
`grad_index` returns a clamp or an interpolation between two adjacent entries of the table. -/
theorem grad_index_total {value min max : FP} {b : ℚ} (hval : value ≠ .nan)
    (hmm : FP.le min max = true) (hv : vrange min max = .fin b) (hb : b ≠ 0) :
    ∃ i1 i2 f, grad_index value min max = some (i1, i2, f) ∧
      ((i1 = 0 ∧ i2 = 0 ∧ f = 0) ∨ (i1 = 4 ∧ i2 = 4 ∧ f = 0) ∨
        ((0 ≤ i1 ∧ i1 ≤ 3) ∧ i2 = i1 + 1 ∧ 0 ≤ f ∧ f ≤ 1)) :=
  grad_index_of_cases (normalized_cases hval hmm hv hb)

/-- A result of `grad_index` of one of the three shapes gives a colour. -/
theorem get_grad_value_of_shape {value min max : FP}
    (h : ∃ i1 i2 f, grad_index value min max = some (i1, i2, f) ∧
      ((i1 = 0 ∧ i2 = 0 ∧ f = 0) ∨ (i1 = 4 ∧ i2 = 4 ∧ f = 0) ∨
        ((0 ≤ i1 ∧ i1 ≤ 3) ∧ i2 = i1 + 1 ∧ 0 ≤ f ∧ f ≤ 1))) :
    ∃ rgb, get_grad_value value min max = some rgb := by
  obtain ⟨i1, i2, f, h, hshape⟩ := h
  rw [get_grad_value_eq h]
  rcases hshape with ⟨h1, h2, -⟩ | ⟨h1, h2, -⟩ | ⟨h1, h2, -⟩
  · exact blend_isSome (by omega) (by omega) f
  · exact blend_isSome (by omega) (by omega) f
  · exact blend_isSome (by omega) (by omega) f

/-- Over a finite non-zero `vrange` of `min <= max` the mapper returns a colour for every
`value` that is no NaN. -/
theorem get_grad_value_total {value min max : FP} {b : ℚ} (hval : value ≠ .nan)
    (hmm : FP.le min max = true) (hv : vrange min max = .fin b) (hb : b ≠ 0) :
    ∃ rgb, get_grad_value value min max = some rgb :=
  get_grad_value_of_shape (grad_index_total hval hmm hv hb)

/-- In a common segment the normalised value, hence `fractBetween`, grows with `value`. -/
theorem fract_mono {v1 v2 min max : FP} {t1 t2 : ℚ} (hmm : FP.le min max = true)
    (hv : FP.le v1 v2 = true)
    (h1 : normalized v1 min max = .fin t1) (h2 : normalized v2 min max = .fin t2)
    (ht1 : 0 < t1) (ht2 : 0 < t2) (hi : ⌊rd (t1 * 4)⌋ = ⌊rd (t2 * 4)⌋) :
    rf (rd (rd (t1 * 4) - rf ⌊rd (t1 * 4)⌋)) ≤ rf (rd (rd (t2 * 4) - rf ⌊rd (t2 * 4)⌋)) := by
  obtain ⟨a1, b, hb, hb0, hs1, ha1, e1⟩ := normalized_fin_pos_inv h1 ht1
  obtain ⟨a2, b2, hb2, -, hs2, ha2, e2⟩ := normalized_fin_pos_inv h2 ht2
  have hbb : b2 = b := by
    rw [hb] at hb2
    exact (FP.fin.inj hb2).symm
  subst hbb
  have hbpos : 0 < b2 := vrange_pos hmm hb hb0
  obtain ⟨f1, -, g1⟩ := sub_fin_inv hs1 ha1
  obtain ⟨f2, -, g2⟩ := sub_fin_inv hs2 ha2
  rw [fp_le_toRat f1 f2, decide_eq_true_eq] at hv
  have ht : t1 ≤ t2 := by
    rw [e1, e2, g1, g2]
    apply rd_mono
    apply div_le_div_of_nonneg_right _ (le_of_lt hbpos)
    exact rd_mono (by linarith)
  rw [hi]
  apply rf_mono
  apply rd_mono
  apply sub_le_sub_right
  apply rd_mono
  linarith

/-- The mapper depends on its arguments through the normalised value only. -/
theorem get_grad_value_congr {v min max v2 min2 max2 : FP}
    (h : normalized v min max = normalized v2 min2 max2) :
    get_grad_value v min max = get_grad_value v2 min2 max2 := by
  unfold get_grad_value grad_index
  rw [h]

/-! ## Evaluations at concrete arguments -/

theorem vrange_tenth_forty :
    vrange (.fin (13421773 / 134217728)) (.fin 40) = .fin (5229773 / 131072) :=
  vrange_eq_fin (d := (5355287347 / 134217728)) (by norm_num)
    (roundNE_pos 5 (-47) 5615425785167872 _ (by norm_num)) (by rw [abs_lt]; norm_num)
    (roundNE_pos 5 (-18) 10459546 _ (by norm_num)) (by rw [abs_lt]; norm_num)

theorem normalized_forty :
    normalized (.fin 40) (.fin (13421773 / 134217728)) (.fin 40) =
      .fin (4503599454973045 / 4503599627370496) :=
  normalized_eq_fin (a := (5355287347 / 134217728)) (by norm_num) vrange_tenth_forty (by norm_num)
    (roundNE_pos 5 (-47) 5615425785167872 _ (by norm_num)) (by rw [abs_lt]; norm_num)
    (roundNE_pos (-1) (-53) 9007198909946090 _ (by norm_num)) (by rw [abs_lt]; norm_num)

theorem grad_index_forty :
    grad_index (.fin 40) (.fin (13421773 / 134217728)) (.fin 40) =
      some (3, 3 + 1, (16777213 / 16777216)) :=
  grad_index_eq_interp (w := (4503599454973045 / 1125899906842624))
    (g := (1125899734445173 / 1125899906842624)) normalized_forty
    (by norm_num) (by norm_num) (roundNE_pos 1 (-51) 9007198909946090 _ (by norm_num))
    (by norm_num) (by decide) (roundNE_pos (-1) (-53) 9007197875561384 _ (by norm_num))
    (roundNE_pos (-1) (-24) 16777213 _ (by norm_num))

theorem channel_forty_r : channel 1 1 (16777213 / 16777216) = 255 :=
  channel_eq 0 0 1 255 255
    (by norm_num [rf_zero])
    (by norm_num [rf_zero])
    (roundNE_pos 0 (-23) 8388608 _ (by norm_num))
    (roundNE_pos 7 (-45) 8972014882652160 _ (by norm_num)) (by norm_num)

theorem channel_forty_g : channel (1768187 / 2097152) 1 (16777213 / 16777216) = 255 :=
  channel_eq (328965 / 2097152) (5263439 / 33554432) 1 255 255
    (roundNE_pos (-3) (-26) 10526880 _ (by norm_num))
    (roundNE_pos (-3) (-26) 10526878 _ (by norm_num))
    (roundNE_pos_tie (-1) (-24) 16777216 _ (by norm_num))
    (roundNE_pos 7 (-45) 8972014882652160 _ (by norm_num)) (by norm_num)

theorem channel_forty_b : channel 0 1 (16777213 / 16777216) = 254 :=
  channel_eq 1 (16777213 / 16777216) (16777213 / 16777216) (4278189315 / 16777216) 254
    (roundNE_pos 0 (-23) 8388608 _ (by norm_num))
    (roundNE_pos (-1) (-24) 16777213 _ (by norm_num))
    (roundNE_pos (-1) (-24) 16777213 _ (by norm_num))
    (roundNE_pos 7 (-45) 8972013278330880 _ (by norm_num)) (by norm_num)

theorem get_grad_value_forty :
    get_grad_value (.fin 40) (.fin (13421773 / 134217728)) (.fin 40) = some (255, 255, 254) := by
  rw [get_grad_value_eq grad_index_forty]
  unfold blend
  rw [color_three, show (3 : ℤ) + 1 = 4 from rfl, color_four]
  simp only [channel_forty_r, channel_forty_g, channel_forty_b]

theorem vrange_ten_thirty : vrange (.fin 10) (.fin 30) = .fin 20 :=
  vrange_eq_fin (d := 20) (by norm_num)
    (roundNE_pos 4 (-48) 5629499534213120 _ (by norm_num)) (by rw [abs_lt]; norm_num)
    (roundNE_pos 4 (-19) 10485760 _ (by norm_num)) (by rw [abs_lt]; norm_num)

theorem vrange_twenty_forty : vrange (.fin 20) (.fin 40) = .fin 20 :=
  vrange_eq_fin (d := 20) (by norm_num)
    (roundNE_pos 4 (-48) 5629499534213120 _ (by norm_num)) (by rw [abs_lt]; norm_num)
    (roundNE_pos 4 (-19) 10485760 _ (by norm_num)) (by rw [abs_lt]; norm_num)

theorem normalized_twenty_one :
    normalized (.fin 21) (.fin 20) (.fin 40) = .fin (3602879701896397 / 72057594037927936) :=
  normalized_eq_fin (a := 1) (by norm_num) vrange_twenty_forty (by norm_num)
    (roundNE_pos 0 (-52) 4503599627370496 _ (by norm_num)) (by rw [abs_lt]; norm_num)
    (roundNE_pos (-5) (-57) 7205759403792794 _ (by norm_num)) (by rw [abs_lt]; norm_num)

theorem grad_index_twenty_one :
    grad_index (.fin 21) (.fin 20) (.fin 40) = some (0, 0 + 1, (13421773 / 67108864)) :=
  grad_index_eq_interp (w := (3602879701896397 / 18014398509481984))
    (g := (3602879701896397 / 18014398509481984)) normalized_twenty_one
    (by norm_num) (by norm_num) (roundNE_pos (-3) (-55) 7205759403792794 _ (by norm_num))
    (by norm_num) (by decide) (roundNE_pos (-3) (-55) 7205759403792794 _ (by norm_num))
    (roundNE_pos (-3) (-26) 13421773 _ (by norm_num))

theorem normalized_twenty_two :
    normalized (.fin 22) (.fin 20) (.fin 40) = .fin (3602879701896397 / 36028797018963968) :=
  normalized_eq_fin (a := 2) (by norm_num) vrange_twenty_forty (by norm_num)
    (roundNE_pos 1 (-51) 4503599627370496 _ (by norm_num)) (by rw [abs_lt]; norm_num)
    (roundNE_pos (-4) (-56) 7205759403792794 _ (by norm_num)) (by rw [abs_lt]; norm_num)

theorem grad_index_twenty_two :
    grad_index (.fin 22) (.fin 20) (.fin 40) = some (0, 0 + 1, (13421773 / 33554432)) :=
  grad_index_eq_interp (w := (3602879701896397 / 9007199254740992))
    (g := (3602879701896397 / 9007199254740992)) normalized_twenty_two
    (by norm_num) (by norm_num) (roundNE_pos (-2) (-54) 7205759403792794 _ (by norm_num))
    (by norm_num) (by decide) (roundNE_pos (-2) (-54) 7205759403792794 _ (by norm_num))
    (roundNE_pos (-2) (-25) 13421773 _ (by norm_num))

theorem vrange_small_three_hundred : vrange (.fin (1 / 524288)) (.fin 300) = .fin 300 :=
  vrange_eq_fin (d := (157286399 / 524288)) (by norm_num)
    (roundNE_pos 8 (-44) 5277655779770368 _ (by norm_num)) (by rw [abs_lt]; norm_num)
    (roundNE_pos 8 (-15) 9830400 _ (by norm_num)) (by rw [abs_lt]; norm_num)

theorem normalized_seventy_five :
    normalized (.fin 75) (.fin (1 / 524288)) (.fin 300) =
      .fin (4503599512838035 / 18014398509481984) :=
  normalized_eq_fin (a := (39321599 / 524288))
    (by norm_num) vrange_small_three_hundred (by norm_num)
    (roundNE_pos 6 (-46) 5277655679107072 _ (by norm_num)) (by rw [abs_lt]; norm_num)
    (roundNE_pos (-3) (-55) 9007199025676070 _ (by norm_num)) (by rw [abs_lt]; norm_num)

theorem grad_index_seventy_five :
    grad_index (.fin 75) (.fin (1 / 524288)) (.fin 300) = some (0, 0 + 1, 1) :=
  grad_index_eq_interp (w := (4503599512838035 / 4503599627370496))
    (g := (4503599512838035 / 4503599627370496)) normalized_seventy_five
    (by norm_num) (by norm_num) (roundNE_pos (-1) (-53) 9007199025676070 _ (by norm_num))
    (by norm_num) (by decide) (roundNE_pos (-1) (-53) 9007199025676070 _ (by norm_num))
    (roundNE_pos (-1) (-24) 16777216 _ (by norm_num))

theorem vrange_thirty : vrange (.fin (-5 / 2097152)) (.fin 40) = .fin (10485761 / 262144) :=
  vrange_eq_fin (d := (83886085 / 2097152)) (by norm_num)
    (roundNE_pos 5 (-47) 5629499869757440 _ (by norm_num)) (by rw [abs_lt]; norm_num)
    (roundNE_pos 5 (-18) 10485761 _ (by norm_num)) (by rw [abs_lt]; norm_num)

theorem normalized_thirty :
    normalized (.fin 30) (.fin (-5 / 2097152)) (.fin 40) =
      .fin (1688849833420393 / 2251799813685248) :=
  normalized_eq_fin (a := (62914565 / 2097152)) (by norm_num) vrange_thirty (by norm_num)
    (roundNE_pos 4 (-48) 8444249972408320 _ (by norm_num)) (by rw [abs_lt]; norm_num)
    (roundNE_pos (-1) (-53) 6755399333681572 _ (by norm_num)) (by rw [abs_lt]; norm_num)

theorem grad_index_thirty :
    grad_index (.fin 30) (.fin (-5 / 2097152)) (.fin 40) = some (2, 2 + 1, (16777215 / 16777216)) :=
  grad_index_eq_interp (w := (1688849833420393 / 562949953421312))
    (g := (562949926577769 / 562949953421312)) normalized_thirty
    (by norm_num) (by norm_num) (roundNE_pos 1 (-51) 6755399333681572 _ (by norm_num))
    (by norm_num) (by decide) (roundNE_pos (-1) (-53) 9007198825244304 _ (by norm_num))
    (roundNE_pos (-1) (-24) 16777215 _ (by norm_num))

theorem channel_thirty_r : channel (13421773 / 16777216) 1 (16777215 / 16777216) = 255 :=
  channel_eq (3355443 / 16777216) (13421771 / 67108864) 1 255 255
    (roundNE_pos (-3) (-26) 13421772 _ (by norm_num))
    (roundNE_pos (-3) (-26) 13421771 _ (by norm_num))
    (roundNE_pos (-1) (-24) 16777216 _ (by norm_num))
    (roundNE_pos 7 (-45) 8972014882652160 _ (by norm_num)) (by norm_num)

theorem channel_thirty_g : channel 0 (1768187 / 2097152) (16777215 / 16777216) = 214 :=
  channel_eq (1768187 / 2097152) (14145495 / 16777216)
    (14145495 / 16777216) (3607101225 / 16777216) 214
    (roundNE_pos (-1) (-24) 14145496 _ (by norm_num))
    (roundNE_pos (-1) (-24) 14145495 _ (by norm_num))
    (roundNE_pos (-1) (-24) 14145495 _ (by norm_num))
    (roundNE_pos 7 (-45) 7564639548211200 _ (by norm_num)) (by norm_num)

theorem channel_thirty_b : channel (15658735 / 33554432) 0 (16777215 / 16777216) = 0 :=
  channel_eq (-15658735 / 33554432) (-7829367 / 16777216) (1 / 33554432) (255 / 33554432) 0
    (roundNE_neg_arg (-2) (-25) (-15658735) _ (by norm_num))
    (roundNE_neg_arg (-2) (-25) (-15658734) _ (by norm_num))
    (roundNE_pos (-25) (-48) 8388608 _ (by norm_num))
    (roundNE_pos (-18) (-70) 8972014882652160 _ (by norm_num)) (by norm_num)

theorem get_grad_value_thirty :
    get_grad_value (.fin 30) (.fin (-5 / 2097152)) (.fin 40) = some (255, 214, 0) := by
  rw [get_grad_value_eq grad_index_thirty]
  unfold blend
  rw [color_two, show (2 : ℤ) + 1 = 3 from rfl, color_three]
  simp only [channel_thirty_r, channel_thirty_g, channel_thirty_b]

theorem vrange_tiny : vrange (.fin 0) (.fin (1 / 2 ^ 200)) = .fin 0 :=
  vrange_eq_fin (d := (1 / 2 ^ 200)) (by norm_num)
    (roundNE_pos (-200) (-252) 4503599627370496 _ (by norm_num)) (by rw [abs_lt]; norm_num)
    (roundNE_pos (-200) (-149) 0 _ (by norm_num)) (by rw [abs_lt]; norm_num)

theorem vrange_twenty_thirty : vrange (.fin 20) (.fin 30) = .fin 10 :=
  vrange_eq_fin (d := 10) (by norm_num)
    (roundNE_pos 3 (-49) 5629499534213120 _ (by norm_num)) (by rw [abs_lt]; norm_num)
    (roundNE_pos 3 (-20) 10485760 _ (by norm_num)) (by rw [abs_lt]; norm_num)

/-- The sum `2 ^ 1023 + 2 ^ 1023` overflows `double`. -/
theorem toDouble_overflow : toDouble (2 ^ 1023 - -(2 ^ 1023)) = .inf false := by
  have e : (2 : ℚ) ^ 1023 - -(2 ^ 1023) = 2 ^ (1024 : ℤ) := by norm_num
  have hr : rd ((2 : ℚ) ^ (1024 : ℤ)) = 2 ^ (1024 : ℤ) :=
    roundNE_of_representable (by norm_num) ⟨1, 1024, by norm_num, by norm_num, by norm_num⟩
  unfold toDouble
  rw [e, hr, if_neg (by norm_num), decide_eq_false (by norm_num)]

/-- For a range whose difference overflows `double`, `vrange` and `value - min` at
`value = max` are both infinite and their quotient is a NaN. -/
theorem get_grad_value_overflow :
    vrange (.fin (-(2 ^ 1023))) (.fin (2 ^ 1023)) = .inf false ∧
      get_grad_value (.fin (2 ^ 1023)) (.fin (-(2 ^ 1023))) (.fin (2 ^ 1023)) = none := by
  have hv : vrange (.fin (-(2 ^ 1023))) (.fin (2 ^ 1023)) = .inf false := by
    unfold vrange
    rw [sub_fin_fin, toDouble_overflow]
    rfl
  refine ⟨hv, get_grad_value_eq_none ?_⟩
  unfold normalized
  rw [hv, sub_fin_fin, toDouble_overflow]
  rfl

/-! ## The mapper on `float` data -/

/-- A `float` is an integer multiple of the least subnormal `2 ^ (-149)`. -/
theorem Representable.scaled {a : ℚ} (ha : Representable 24 (-149) a) :
    ∃ A : ℤ, a = A * 2 ^ (-149 : ℤ) := by
  obtain ⟨n, k, -, hk, rfl⟩ := ha
  refine ⟨n * 2 ^ (k + 149).toNat, ?_⟩
  push_cast
  rw [← zpow_natCast, Int.toNat_of_nonneg (by omega), mul_assoc,
    ← zpow_add₀ (by norm_num : (2 : ℚ) ≠ 0)]
  congr 2
  ring

theorem isFloat_finite {x : FP} (h : IsFloat x) : x.isFinite = true := by
  rcases h with rfl | ⟨q, rfl, -⟩ <;> rfl

theorem isFloat_ne_nan {x : FP} (h : IsFloat x) : x ≠ .nan := by
  rcases h with rfl | ⟨q, rfl, -⟩ <;> simp

theorem isFloat_toRat {x : FP} (h : IsFloat x) :
    Representable 24 (-149) x.toRat ∧ |x.toRat| < 2 ^ 128 := by
  rcases h with rfl | ⟨q, rfl, h1, h2⟩
  · exact ⟨⟨0, 0, by norm_num, by norm_num, by simp [FP.toRat]⟩, by simp [FP.toRat]⟩
  · exact ⟨h1, h2⟩

theorem isFloat_fin_int {n : ℤ} (hn : |n| ≤ 2 ^ 24) : IsFloat (.fin (n : ℚ)) := by
  refine Or.inr ⟨_, rfl, Representable.intCast (by norm_num) hn, ?_⟩
  have h1 : |(n : ℚ)| ≤ 2 ^ 24 := by exact_mod_cast hn
  exact lt_of_le_of_lt h1 (by norm_num)

/-- Rounding to `double` keeps a bound that is a power of two. -/
theorem abs_rd_le {x : ℚ} {k : ℤ} (hk : -1074 ≤ k) (h : |x| ≤ 2 ^ k) : |rd x| ≤ 2 ^ k := by
  have hB : rd ((2 : ℚ) ^ k) = 2 ^ k :=
    roundNE_of_representable (by norm_num) ⟨1, k, by norm_num, hk, by simp⟩
  rw [abs_le] at h ⊢
  constructor
  · have := rd_mono h.1
    rwa [rd_neg, hB] at this
  · have := rd_mono h.2
    rwa [hB] at this

/-- A `double` operation whose exact result is of magnitude at most `2 ^ 1023` has a finite
result. -/
theorem toDouble_finite {x : ℚ} (h : |x| ≤ 2 ^ (1023 : ℤ)) : (toDouble x).isFinite = true := by
  have h1 : |rd x| < 2 ^ 1024 :=
    lt_of_le_of_lt (abs_rd_le (by norm_num) h) (by norm_num)
  unfold toDouble
  rw [if_pos h1]
  split_ifs
  · unfold FP.zero
    split_ifs <;> rfl
  · rfl

/-- The difference of two finite `float` values is finite. -/
theorem sub_floats_finite {v m : FP} (hv : IsFloat v) (hm : IsFloat m) :
    (FP.sub v m).isFinite = true := by
  have h1 := (isFloat_toRat hv).2
  have h2 := (isFloat_toRat hm).2
  have hsum : ∀ a b : ℚ, |a| < 2 ^ 128 → |b| < 2 ^ 128 → |a - b| ≤ 2 ^ (1023 : ℤ) := by
    intro a b ha hb
    have h3 := abs_sub a b
    have h4 : (2 : ℚ) ^ 128 + 2 ^ 128 ≤ 2 ^ (1023 : ℤ) := by norm_num
    linarith
  rcases hv with rfl | ⟨a, rfl, -⟩ <;> rcases hm with rfl | ⟨b, rfl, -⟩ <;>
    simp only [FP.toRat] at h1 h2
  · rfl
  · simp only [FP.sub]
    split_ifs
    · rfl
    · have := hsum 0 b (by norm_num) h2
      rw [zero_sub] at this
      exact toDouble_finite this
  · have := hsum a 0 h1 (by norm_num)
    rw [sub_zero] at this
    exact toDouble_finite this
  · exact toDouble_finite (hsum a b h1 h2)

/-- For two finite `float` values `a < b` the variable `vrange` is finite and positive, or it
is the positive infinity (when the difference overflows `float`). -/
theorem vrange_of_floats {a b : FP} (ha : IsFloat a) (hb : IsFloat b)
    (hab : FP.lt a b = true) :
    (∃ r, vrange a b = .fin r ∧ 0 < r) ∨ vrange a b = .inf false := by
  have hfa := isFloat_finite ha
  have hfb := isFloat_finite hb
  rw [fp_lt_toRat hfa hfb, decide_eq_true_eq] at hab
  obtain ⟨ra, ba⟩ := isFloat_toRat ha
  obtain ⟨rb, bb⟩ := isFloat_toRat hb
  have hsub : FP.sub b a = toDouble (b.toRat - a.toRat) :=
    sub_finite_eq hfb hfa (ne_of_gt hab)
  generalize a.toRat = p at hab ra ba hsub
  generalize b.toRat = q at hab rb bb hsub
  obtain ⟨A, rfl⟩ := ra.scaled
  obtain ⟨B, rfl⟩ := rb.scaled
  have hu : (0 : ℚ) < 2 ^ (-149 : ℤ) := by positivity
  have hAB : A < B := by
    have := lt_of_mul_lt_mul_right hab (le_of_lt hu)
    exact_mod_cast this
  have hlow : (2 : ℚ) ^ (-149 : ℤ) ≤ B * 2 ^ (-149 : ℤ) - A * 2 ^ (-149 : ℤ) := by
    have h1 : (1 : ℚ) ≤ (B : ℚ) - A := by exact_mod_cast (by omega : 1 ≤ B - A)
    nlinarith
  have hhigh : |(B : ℚ) * 2 ^ (-149 : ℤ) - A * 2 ^ (-149 : ℤ)| ≤ 2 ^ (129 : ℤ) := by
    have h3 := abs_sub ((B : ℚ) * 2 ^ (-149 : ℤ)) (A * 2 ^ (-149 : ℤ))
    have h4 : (2 : ℚ) ^ 128 + 2 ^ 128 = 2 ^ (129 : ℤ) := by norm_num
    linarith
  have rlow : Representable 53 (-1074) ((2 : ℚ) ^ (-149 : ℤ)) :=
    ⟨1, -149, by norm_num, by norm_num, by norm_num⟩
  have flow : Representable 24 (-149) ((2 : ℚ) ^ (-149 : ℤ)) :=
    ⟨1, -149, by norm_num, by norm_num, by norm_num⟩
  have d1 : (2 : ℚ) ^ (-149 : ℤ) ≤ rd (B * 2 ^ (-149 : ℤ) - A * 2 ^ (-149 : ℤ)) := by
    have := rd_mono hlow
    rwa [show rd ((2 : ℚ) ^ (-149 : ℤ)) = 2 ^ (-149 : ℤ) from
      roundNE_of_representable (by norm_num) rlow] at this
  have d2 : |rd (B * 2 ^ (-149 : ℤ) - A * 2 ^ (-149 : ℤ))| < 2 ^ 1024 :=
    lt_of_le_of_lt (abs_rd_le (by norm_num) hhigh) (by norm_num)
  have f1 : (2 : ℚ) ^ (-149 : ℤ) ≤ rf (rd (B * 2 ^ (-149 : ℤ) - A * 2 ^ (-149 : ℤ))) := by
    have := rf_mono d1
    rwa [show rf ((2 : ℚ) ^ (-149 : ℤ)) = 2 ^ (-149 : ℤ) from
      roundNE_of_representable (by norm_num) flow] at this
  have hd0 : 0 ≤ rd (B * 2 ^ (-149 : ℤ) - A * 2 ^ (-149 : ℤ)) := le_trans (le_of_lt hu) d1
  have hv : vrange a b = toFloat (rd ((B : ℚ) * 2 ^ (-149 : ℤ) - A * 2 ^ (-149 : ℤ))) := by
    unfold vrange
    rw [hsub, toDouble_of_nonneg (by linarith) rfl d2]
    rfl
  by_cases hov : |rf (rd ((B : ℚ) * 2 ^ (-149 : ℤ) - A * 2 ^ (-149 : ℤ)))| < 2 ^ 128
  · left
    refine ⟨_, ?_, lt_of_lt_of_le hu f1⟩
    rw [hv]
    exact toFloat_of_nonneg hd0 rfl hov
  · right
    rw [hv]
    unfold toFloat
    rw [if_neg hov, decide_eq_false (not_lt.mpr hd0)]

theorem div_finite_inf {x : FP} (hx : x.isFinite = true) (t : Bool) :
    FP.div x (.inf t) = FP.zero (xor x.signbit t) := by
  cases x <;> simp [FP.isFinite] at hx <;> rfl

/-- A zero quotient takes the lower clamp. -/
theorem grad_index_of_zero {value min max : FP} {s : Bool}
    (h : normalized value min max = FP.zero s) : grad_index value min max = some (0, 0, 0) := by
  cases s
  · exact grad_index_eq_low h le_rfl
  · exact grad_index_eq_nzero h

/-- For finite `float` arguments with `min < max` the mapper returns a colour. -/
theorem get_grad_value_of_floats {value min max : FP} (hv : IsFloat value) (hmin : IsFloat min)
    (hmax : IsFloat max) (hlt : FP.lt min max = true) :
    ∃ rgb, get_grad_value value min max = some rgb := by
  rcases vrange_of_floats hmin hmax hlt with ⟨r, hr, hr0⟩ | hinf
  · exact get_grad_value_total (isFloat_ne_nan hv) (fp_le_of_lt hlt) hr (ne_of_gt hr0)
  · have hn : normalized value min max = FP.zero (xor (FP.sub value min).signbit false) := by
      unfold normalized
      rw [hinf]
      exact div_finite_inf (sub_floats_finite hv hmin) false
    rw [get_grad_value_eq (grad_index_of_zero hn)]
    exact blend_isSome (by norm_num) (by norm_num) 0

/-- In a frame of finite `float` samples `min_val` and `max_val` are finite `float` values. -/
theorem extremes_float {To : Frame} (hfl : ∀ i, 0 ≤ i ∧ i ≤ 767 → IsFloat (To i)) :
    IsFloat (min_val To) ∧ IsFloat (max_val To) := by
  constructor
  · rcases (min_val_spec To).2.2.2 with h | ⟨i, hi, h⟩
    · rw [h]
      exact @isFloat_fin_int 300 (by norm_num)
    · rw [← h]
      exact hfl i hi
  · rcases (max_val_spec To).2.2.2 with h | ⟨i, hi, h⟩
    · rw [h]
      have := @isFloat_fin_int (-40) (by norm_num)
      exact_mod_cast this
    · rw [← h]
      exact hfl i hi

/-! ## Lemmas on lists -/

theorem filter_flatMap_eq {α β : Type} (l : List α) (f : α → List β) (p : β → Bool) :
    (l.flatMap f).filter p = l.flatMap fun a => (f a).filter p := by
  induction l with
  | nil => rfl
  | cons a l ih => rw [List.flatMap_cons, List.filter_append, ih, List.flatMap_cons]

theorem flatMap_eq_of_nodup {α β : Type} {l : List α} (hnd : l.Nodup) {a : α} (ha : a ∈ l)
    (f : α → List β) (hf : ∀ b ∈ l, b ≠ a → f b = []) : l.flatMap f = f a := by
  induction l with
  | nil => simp at ha
  | cons b l ih =>
    rw [List.nodup_cons] at hnd
    rw [List.flatMap_cons]
    by_cases hb : b = a
    · subst hb
      have hnil : l.flatMap f = [] := by
        rw [List.flatMap_eq_nil_iff]
        intro c hc
        exact hf c (List.mem_cons_of_mem _ hc) (fun h => hnd.1 (h ▸ hc))
      rw [hnil, List.append_nil]
    · rw [hf b (List.mem_cons_self b l) hb, List.nil_append]
      rcases List.mem_cons.1 ha with h | h
      · exact absurd h.symm hb
      · exact ih hnd.2 h (fun c hc => hf c (List.mem_cons_of_mem _ hc))

theorem length_flatMap_of_length_one {α β : Type} (l : List α) (f : α → List β)
    (hf : ∀ a ∈ l, (f a).length = 1) : (l.flatMap f).length = l.length := by
  induction l with
  | nil => rfl
  | cons a l ih =>
    rw [List.flatMap_cons, List.length_append, hf a (List.mem_cons_self a l),
      ih (fun b hb => hf b (List.mem_cons_of_mem _ hb)), List.length_cons]
    omega

/-! ## Lemmas on the drawing loops -/

/-- A loop whose every step adds primitives to the display adds their concatenation. -/
theorem foldlM_drawn {α : Type} (step : Ucg → α → Option Ucg) (prims : α → List Prim)
    (l : List α)
    (h : ∀ a ∈ l, ∀ u, ∃ u2, step u a = some u2 ∧ u2.drawn = u.drawn ++ prims a) (u : Ucg) :
    ∃ u2, l.foldlM step u = some u2 ∧ u2.drawn = u.drawn ++ l.flatMap prims := by
  induction l generalizing u with
  | nil => exact ⟨u, rfl, by simp⟩
  | cons a l ih =>
    obtain ⟨u1, h1, h2⟩ := h a (List.mem_cons_self a l) u
    obtain ⟨u2, h3, h4⟩ := ih (fun b hb => h b (List.mem_cons_of_mem a hb)) u1
    refine ⟨u2, ?_, ?_⟩
    · rw [List.foldlM_cons, h1]
      exact h3
    · rw [h4, h2, List.flatMap_cons, List.append_assoc]

/-- A loop that returns has returned at each of its steps. -/
theorem foldlM_some_inv {α : Type} (step : Ucg → α → Option Ucg) (l : List α) (u u2 : Ucg)
    (h : l.foldlM step u = some u2) : ∀ a ∈ l, ∃ v v2, step v a = some v2 := by
  induction l generalizing u with
  | nil => simp
  | cons b l ih =>
    rw [List.foldlM_cons] at h
    cases hb : step u b with
    | none =>
      rw [hb] at h
      cases h
    | some u1 =>
      rw [hb] at h
      intro a ha
      rcases List.mem_cons.1 ha with rfl | ha
      · exact ⟨u, u1, hb⟩
      · exact ih u1 h a ha

/-- The effect of one call of `draw_pixel` when the mapper returns `rgb`. -/
theorem draw_pixel_drawn {temp vmin vmax : FP} {rgb : ℤ × ℤ × ℤ}
    (h : get_grad_value temp vmin vmax = some rgb) (x y : ℤ) (u : Ucg) :
    ∃ u2, draw_pixel x y temp vmin vmax u = some u2 ∧
      u2.drawn = u.drawn ++ cell_prims x y temp vmin vmax rgb := by
  obtain ⟨r, g, b⟩ := rgb
  unfold draw_pixel
  rw [h]
  refine ⟨_, rfl, ?_⟩
  unfold cell_prims
  by_cases h1 : FP.eq temp vmin = true <;> by_cases h2 : FP.eq temp vmax = true
  · simp only [if_pos h1, if_pos h2, ucg_DrawFrame, ucg_DrawBox, ucg_SetColor,
      List.append_assoc]
  · simp only [if_pos h1, if_neg h2, ucg_DrawFrame, ucg_DrawBox, ucg_SetColor,
      List.append_assoc, List.append_nil]
  · simp only [if_neg h1, if_pos h2, ucg_DrawFrame, ucg_DrawBox, ucg_SetColor,
      List.append_assoc, List.append_nil]
  · simp only [if_neg h1, if_neg h2, ucg_DrawFrame, ucg_DrawBox, ucg_SetColor,
      List.append_nil]

/-- A call of `draw_pixel` that returns has got a colour from the mapper. -/
theorem draw_pixel_some_inv {x y : ℤ} {temp vmin vmax : FP} {u u2 : Ucg}
    (h : draw_pixel x y temp vmin vmax u = some u2) :
    ∃ rgb, get_grad_value temp vmin vmax = some rgb := by
  cases hg : get_grad_value temp vmin vmax with
  | none =>
    unfold draw_pixel at h
    rw [hg] at h
    cases h
  | some rgb => exact ⟨rgb, rfl⟩

/-- When the mapper returns a colour for the sample of every cell, the image loop returns and
adds the primitives of its calls of `draw_pixel`, in order. -/
theorem draw_image_drawn {To : Frame}
    (hall : ∀ c ∈ cells, ∃ rgb,
      get_grad_value (To (sampleIndex c.1 c.2)) (min_val To) (max_val To) = some rgb)
    (u : Ucg) :
    ∃ u2, draw_image To u = some u2 ∧
      u2.drawn = u.drawn ++ cells.flatMap fun c =>
        cell_prims c.1 c.2 (To (sampleIndex c.1 c.2)) (min_val To) (max_val To)
          ((get_grad_value (To (sampleIndex c.1 c.2)) (min_val To) (max_val To)).getD
            (0, 0, 0)) := by
  unfold draw_image
  refine foldlM_drawn _ _ cells ?_ u
  intro c hc u
  obtain ⟨rgb, hrgb⟩ := hall c hc
  rw [hrgb]
  exact draw_pixel_drawn hrgb c.1 c.2 u

/-- An image loop that returns has got a colour from the mapper for the sample of every
cell. -/
theorem draw_image_some_inv {To : Frame} {u u2 : Ucg} (h : draw_image To u = some u2) :
    ∀ c ∈ cells, ∃ rgb,
      get_grad_value (To (sampleIndex c.1 c.2)) (min_val To) (max_val To) = some rgb := by
  intro c hc
  obtain ⟨v, v2, hv⟩ := foldlM_some_inv _ cells u u2 h c hc
  exact draw_pixel_some_inv hv

/-- For a frame of finite `float` samples with `min_val < max_val` the mapper returns a colour
for the sample of every cell. -/
theorem image_colours_of_floats {To : Frame} (hfl : ∀ i, 0 ≤ i ∧ i ≤ 767 → IsFloat (To i))
    (hlt : FP.lt (min_val To) (max_val To) = true) :
    ∀ c ∈ cells, ∃ rgb,
      get_grad_value (To (sampleIndex c.1 c.2)) (min_val To) (max_val To) = some rgb := by
  intro c hc
  rw [mem_cells] at hc
  obtain ⟨h1, h2⟩ := extremes_float hfl
  exact get_grad_value_of_floats (hfl _ (sampleIndex_bounds hc.1 hc.2)) h1 h2 hlt

/-- The image loop reads the frame at the offsets `0, ..., 767` only. -/
theorem draw_image_congr {To To2 : Frame} (h : ∀ i, 0 ≤ i ∧ i ≤ 767 → To2 i = To i) (u : Ucg) :
    draw_image To2 u = draw_image To u := by
  have hmm : get_max_min To2 = get_max_min To := get_max_min_congr h
  have hcell : ∀ c ∈ cells, To2 (sampleIndex c.1 c.2) = To (sampleIndex c.1 c.2) := by
    intro c hc
    rw [mem_cells] at hc
    exact h _ (sampleIndex_bounds hc.1 hc.2)
  unfold draw_image min_val max_val
  rw [hmm]
  generalize cells = l at hcell
  induction l generalizing u with
  | nil => rfl
  | cons c l ih =>
    rw [List.foldlM_cons, List.foldlM_cons, hcell c (List.mem_cons_self c l)]
    cases draw_pixel c.1 c.2 (To (sampleIndex c.1 c.2)) (get_max_min To).2 (get_max_min To).1 u
      with
    | none => rfl
    | some u1 => exact ih u1 (fun d hd => hcell d (List.mem_cons_of_mem _ hd))

theorem mem_cell_prims_frame (x y a b : ℤ) (temp vmin vmax : FP) (rgb c : ℤ × ℤ × ℤ) :
    Prim.frame (x * 5) (y * 5) 5 5 c ∈ cell_prims a b temp vmin vmax rgb ↔
      (a = x ∧ b = y) ∧ ((c = (255, 255, 255) ∧ FP.eq temp vmin = true) ∨
        (c = (0, 0, 0) ∧ FP.eq temp vmax = true)) := by
  unfold cell_prims IMAGE_SCALE
  rw [List.mem_append, List.mem_append, List.mem_singleton]
  constructor
  · rintro ((h | h) | h)
    · cases h
    · split_ifs at h with h1
      · rw [List.mem_singleton, Prim.frame.injEq] at h
        exact ⟨⟨by omega, by omega⟩, Or.inl ⟨h.2.2.2.2, h1⟩⟩
      · cases h
    · split_ifs at h with h1
      · rw [List.mem_singleton, Prim.frame.injEq] at h
        exact ⟨⟨by omega, by omega⟩, Or.inr ⟨h.2.2.2.2, h1⟩⟩
      · cases h
  · rintro ⟨⟨rfl, rfl⟩, ⟨rfl, h⟩ | ⟨rfl, h⟩⟩
    · left; right
      rw [if_pos h]
      exact List.mem_singleton.2 rfl
    · right
      rw [if_pos h]
      exact List.mem_singleton.2 rfl

/-- Which outlines the image loop draws: an outline at the place of a cell is drawn by the call
for that cell. -/
theorem mem_image_frame (To : Frame) (col : ℤ × ℤ → ℤ × ℤ × ℤ) {x y : ℤ} (hx : 0 ≤ x ∧ x < 32)
    (hy : 0 ≤ y ∧ y < 24) (c : ℤ × ℤ × ℤ) :
    Prim.frame (x * 5) (y * 5) 5 5 c ∈ cells.flatMap (fun cell =>
        cell_prims cell.1 cell.2 (To (sampleIndex cell.1 cell.2)) (min_val To) (max_val To)
          (col cell)) ↔
      (c = (255, 255, 255) ∧ FP.eq (To (sampleIndex x y)) (min_val To) = true) ∨
        (c = (0, 0, 0) ∧ FP.eq (To (sampleIndex x y)) (max_val To) = true) := by
  rw [List.mem_flatMap]
  constructor
  · rintro ⟨cell, -, hmem⟩
    obtain ⟨⟨e1, e2⟩, h⟩ := (mem_cell_prims_frame _ _ _ _ _ _ _ _ _).1 hmem
    rw [e1, e2] at h
    exact h
  · intro h
    refine ⟨(x, y), (mem_cells (x, y)).2 ⟨hx, hy⟩, ?_⟩
    exact (mem_cell_prims_frame _ _ _ _ _ _ _ _ _).2 ⟨⟨rfl, rfl⟩, h⟩

/-- One call of `draw_pixel` fills one rectangle. -/
theorem filter_isBox_cell_prims (a b : ℤ) (temp vmin vmax : FP) (rgb : ℤ × ℤ × ℤ) :
    (cell_prims a b temp vmin vmax rgb).filter Prim.isBox =
      [Prim.box (a * IMAGE_SCALE) (b * IMAGE_SCALE) IMAGE_SCALE IMAGE_SCALE rgb] := by
  unfold cell_prims
  split_ifs <;> simp [Prim.isBox]

/-- The rectangle one call of `draw_pixel` fills is at the place of its cell. -/
theorem filter_isBoxAt_cell_prims (x y a b : ℤ) (temp vmin vmax : FP) (rgb : ℤ × ℤ × ℤ) :
    (cell_prims a b temp vmin vmax rgb).filter (Prim.isBoxAt x y) =
      if (a, b) = (x, y) then
        [Prim.box (a * IMAGE_SCALE) (b * IMAGE_SCALE) IMAGE_SCALE IMAGE_SCALE rgb]
      else [] := by
  have hiff : (a * IMAGE_SCALE = x * IMAGE_SCALE ∧ b * IMAGE_SCALE = y * IMAGE_SCALE) ↔
      (a, b) = (x, y) := by
    unfold IMAGE_SCALE
    rw [Prod.mk.injEq]
    constructor <;> intro h <;> constructor <;> omega
  have hfr : ∀ c : ℤ × ℤ × ℤ, Prim.isBoxAt x y
      (Prim.frame (a * IMAGE_SCALE) (b * IMAGE_SCALE) IMAGE_SCALE IMAGE_SCALE c) = false :=
    fun _ => rfl
  unfold cell_prims
  by_cases hab : (a, b) = (x, y)
  · rw [if_pos hab]
    have hbox : Prim.isBoxAt x y
        (Prim.box (a * IMAGE_SCALE) (b * IMAGE_SCALE) IMAGE_SCALE IMAGE_SCALE rgb) = true :=
      decide_eq_true (hiff.2 hab)
    split_ifs <;> simp [hbox, hfr]
  · rw [if_neg hab]
    have hbox : Prim.isBoxAt x y
        (Prim.box (a * IMAGE_SCALE) (b * IMAGE_SCALE) IMAGE_SCALE IMAGE_SCALE rgb) = false :=
      decide_eq_false (fun h => hab (hiff.1 h))
    split_ifs <;> simp [hbox, hfr]

/-- The filled rectangles of one rendering cycle: one per cell, and at the place of the cell
`(x, y)` the one whose colour the call for that cell has set. -/
theorem image_boxes (To : Frame) (col : ℤ × ℤ → ℤ × ℤ × ℤ) {x y : ℤ} (hx : 0 ≤ x ∧ x < 32)
    (hy : 0 ≤ y ∧ y < 24) :
    ((cells.flatMap fun cell =>
        cell_prims cell.1 cell.2 (To (sampleIndex cell.1 cell.2)) (min_val To) (max_val To)
          (col cell)).filter Prim.isBox).length = 768 ∧
      (cells.flatMap fun cell =>
        cell_prims cell.1 cell.2 (To (sampleIndex cell.1 cell.2)) (min_val To) (max_val To)
          (col cell)).filter (Prim.isBoxAt x y) = [Prim.box (x * 5) (y * 5) 5 5 (col (x, y))] := by
  constructor
  · rw [filter_flatMap_eq, length_flatMap_of_length_one, cells_length]
    intro c _
    rw [filter_isBox_cell_prims]
    rfl
  · rw [filter_flatMap_eq,
      flatMap_eq_of_nodup cells_nodup ((mem_cells (x, y)).2 ⟨hx, hy⟩)]
    · rw [filter_isBoxAt_cell_prims, if_pos rfl]
      rfl
    · intro c _ hc
      rw [filter_isBoxAt_cell_prims, if_neg]
      exact hc

/-- When the mapper returns a colour for the sample of every cell, the image loop returns, and
the outlines among the primitives it adds are those of the cells whose sample compares equal
to `min_val` (white) or to `max_val` (black). -/
theorem draw_image_frames {To : Frame}
    (hall : ∀ c ∈ cells, ∃ rgb,
      get_grad_value (To (sampleIndex c.1 c.2)) (min_val To) (max_val To) = some rgb)
    (u : Ucg) :
    ∃ u2 added, draw_image To u = some u2 ∧ u2.drawn = u.drawn ++ added ∧
      ∀ x y : ℤ, 0 ≤ x ∧ x < 32 → 0 ≤ y ∧ y < 24 → ∀ c : ℤ × ℤ × ℤ,
        (Prim.frame (x * 5) (y * 5) 5 5 c ∈ added ↔
          (c = (255, 255, 255) ∧ FP.eq (To (sampleIndex x y)) (min_val To) = true) ∨
            (c = (0, 0, 0) ∧ FP.eq (To (sampleIndex x y)) (max_val To) = true)) := by
  obtain ⟨u2, h1, h2⟩ := draw_image_drawn hall u
  exact ⟨u2, _, h1, h2, fun x y hx hy c => mem_image_frame To _ hx hy c⟩

/-- What an image loop that returns has drawn: 768 filled rectangles, at the place of each
cell exactly one, in the colour the mapper gives to the sample of that cell, and at the place
of each cell the outlines that the sample of that cell calls for. -/
theorem draw_image_of_some {To : Frame} {u u2 : Ucg} (h : draw_image To u = some u2) :
    ∃ added, u2.drawn = u.drawn ++ added ∧ (added.filter Prim.isBox).length = 768 ∧
      ∀ x y : ℤ, 0 ≤ x ∧ x < 32 → 0 ≤ y ∧ y < 24 →
        (∃ rgb, get_grad_value (To (sampleIndex x y)) (min_val To) (max_val To) = some rgb ∧
          added.filter (Prim.isBoxAt x y) = [Prim.box (x * 5) (y * 5) 5 5 rgb]) ∧
        ∀ c : ℤ × ℤ × ℤ, (Prim.frame (x * 5) (y * 5) 5 5 c ∈ added ↔
          (c = (255, 255, 255) ∧ FP.eq (To (sampleIndex x y)) (min_val To) = true) ∨
            (c = (0, 0, 0) ∧ FP.eq (To (sampleIndex x y)) (max_val To) = true)) := by
  have hall := draw_image_some_inv h
  obtain ⟨u3, h1, h2⟩ := draw_image_drawn hall u
  have hu : u3 = u2 := Option.some.inj (h1.symm.trans h)
  subst hu
  refine ⟨_, h2, ?_, ?_⟩
  · exact (image_boxes To _ (x := 0) (y := 0) ⟨by norm_num, by norm_num⟩
      ⟨by norm_num, by norm_num⟩).1
  · intro x y hx hy
    refine ⟨?_, fun c => mem_image_frame To _ hx hy c⟩
    obtain ⟨rgb, hrgb⟩ := hall (x, y) ((mem_cells (x, y)).2 ⟨hx, hy⟩)
    refine ⟨rgb, hrgb, ?_⟩
    have hb := (image_boxes To (fun c => (get_grad_value (To (sampleIndex c.1 c.2)) (min_val To)
      (max_val To)).getD (0, 0, 0)) hx hy).2
    dsimp only at hb hrgb
    rw [hrgb] at hb
    exact hb

/-! ## Lemmas on the legend loop -/

theorem mem_scale_columns (gs ge x : ℤ) : x ∈ scale_columns gs ge ↔ gs ≤ x ∧ x ≤ ge := by
  unfold scale_columns
  rw [List.mem_map]
  constructor
  · rintro ⟨i, hi, rfl⟩
    rw [List.mem_range] at hi
    omega
  · intro h
    refine ⟨(x - gs).toNat, ?_, by omega⟩
    rw [List.mem_range]
    omega

theorem abs_intCast_lt {n : ℤ} (h : |n| ≤ 2 ^ 24) : |(n : ℚ)| < 2 ^ 1024 := by
  have h1 : |(n : ℚ)| ≤ 2 ^ 24 := by exact_mod_cast h
  exact lt_of_le_of_lt h1 (by norm_num)

/-- For integer boundaries `vrange` is their exact difference. -/
theorem vrange_int {gs ge : ℤ} (h1 : gs < ge) (h2 : ge - gs ≤ 2 ^ 24) :
    vrange (.fin gs) (.fin ge) = .fin ((ge - gs : ℤ) : ℚ) := by
  have habs : |ge - gs| ≤ 2 ^ 24 := by rw [abs_of_pos (by omega)]; exact h2
  have hd : rd ((ge : ℚ) - gs) = ((ge - gs : ℤ) : ℚ) := by
    rw [← Int.cast_sub]
    exact rd_intCast (le_trans habs (by norm_num))
  have hle : (gs : ℚ) ≤ ge := by exact_mod_cast le_of_lt h1
  refine vrange_eq_fin hle hd (abs_intCast_lt habs) (rf_intCast habs) ?_
  have h3 : |((ge - gs : ℤ) : ℚ)| ≤ 2 ^ 24 := by exact_mod_cast habs
  exact lt_of_le_of_lt h3 (by norm_num)

/-- For integer arguments the normalised value is the rounded quotient of the exact
differences. -/
theorem normalized_int {x gs ge : ℤ} (h1 : gs < ge) (h2 : ge - gs ≤ 2 ^ 24)
    (hx : gs ≤ x ∧ x ≤ ge) :
    normalized (.fin x) (.fin gs) (.fin ge) =
      toDouble (((x - gs : ℤ) : ℚ) / ((ge - gs : ℤ) : ℚ)) := by
  have habs : |x - gs| ≤ 2 ^ 24 := by rw [abs_of_nonneg (by omega)]; omega
  have ha : rd ((x : ℚ) - gs) = ((x - gs : ℤ) : ℚ) := by
    rw [← Int.cast_sub]
    exact rd_intCast (le_trans habs (by norm_num))
  have hb : (0 : ℚ) < ((ge - gs : ℤ) : ℚ) := by exact_mod_cast (by omega : 0 < ge - gs)
  have hle : (0 : ℚ) ≤ (x : ℚ) - gs := by
    have : (gs : ℚ) ≤ x := by exact_mod_cast hx.1
    linarith
  unfold normalized
  rw [vrange_int h1 h2, sub_fin_fin, toDouble_of_nonneg hle ha (abs_intCast_lt habs),
    div_fin_pos _ hb]

/-- The left boundary of the legend gets the first stop. -/
theorem legend_low {gs ge : ℤ} (h1 : gs < ge) (h2 : ge - gs ≤ 2 ^ 24) :
    get_grad_value (.fin gs) (.fin gs) (.fin ge) = stop_rgb 0 := by
  have hn : normalized (.fin gs) (.fin gs) (.fin ge) = .fin 0 := by
    rw [normalized_int h1 h2 ⟨le_rfl, le_of_lt h1⟩, sub_self, Int.cast_zero, zero_div,
      toDouble_zero]
  rw [get_grad_value_eq (grad_index_eq_low hn le_rfl)]
  rfl

/-- The right boundary of the legend gets the last stop. -/
theorem legend_high {gs ge : ℤ} (h1 : gs < ge) (h2 : ge - gs ≤ 2 ^ 24) :
    get_grad_value (.fin ge) (.fin gs) (.fin ge) = stop_rgb 4 := by
  have hb : ((ge - gs : ℤ) : ℚ) ≠ 0 := by
    have : ge - gs ≠ 0 := by omega
    exact_mod_cast this
  have hn : normalized (.fin ge) (.fin gs) (.fin ge) = .fin 1 := by
    rw [normalized_int h1 h2 ⟨le_of_lt h1, le_rfl⟩, div_self hb, toDouble_one]
  rw [get_grad_value_eq (grad_index_eq_high hn le_rfl)]
  rfl

/-- The legend loop returns and draws one line per column, in the colour the mapper gives to
the column. -/
theorem draw_scale_drawn {gs ge : ℤ} (h1 : gs < ge) (h2 : ge - gs ≤ 2 ^ 24) (u : Ucg) :
    ∃ u2, draw_scale gs ge u = some u2 ∧
      u2.drawn = u.drawn ++ (scale_columns gs ge).flatMap fun x =>
        [Prim.line x 121 x 127
          ((get_grad_value (.fin x) (.fin gs) (.fin ge)).getD (0, 0, 0))] := by
  have hb : ((ge - gs : ℤ) : ℚ) ≠ 0 := by
    have : ge - gs ≠ 0 := by omega
    exact_mod_cast this
  have hle : FP.le (.fin (gs : ℚ)) (.fin (ge : ℚ)) = true := by
    rw [fp_le_fin]
    exact decide_eq_true (by exact_mod_cast le_of_lt h1)
  refine foldlM_drawn _ _ (scale_columns gs ge) ?_ u
  intro x _ u
  obtain ⟨rgb, hrgb⟩ := @get_grad_value_total (.fin x) _ _ _ (by simp) hle (vrange_int h1 h2) hb
  obtain ⟨r, g, b⟩ := rgb
  refine ⟨_, by unfold draw_scale_column; rw [hrgb], ?_⟩
  rw [hrgb]
  rfl

/-! ## The concrete frames, scanned -/

theorem min_val_warm_spot : min_val frame_warm_spot = .fin (13421773 / 134217728) := by
  refine min_val_eq_of _ _ (by norm_num) ?_ ?_ ⟨1, ⟨by norm_num, by norm_num⟩, ?_⟩
  · intro i _
    unfold frame_warm_spot
    split_ifs <;> simp
  · intro i _ _
    unfold frame_warm_spot
    split_ifs <;> rw [fp_le_fin] <;> exact decide_eq_true (by norm_num)
  · unfold frame_warm_spot
    norm_num

theorem max_val_warm_spot : max_val frame_warm_spot = .fin 40 := by
  refine max_val_eq_of _ _ (by norm_num) ?_ ?_ ⟨0, ⟨by norm_num, by norm_num⟩, ?_⟩
  · intro i _
    unfold frame_warm_spot
    split_ifs <;> simp
  · intro i _ _
    unfold frame_warm_spot
    split_ifs <;> rw [fp_le_fin] <;> exact decide_eq_true (by norm_num)
  · unfold frame_warm_spot
    norm_num

theorem min_val_tie : min_val frame_tie = .fin 10 := by
  refine min_val_eq_of _ _ (by norm_num) ?_ ?_ ⟨0, ⟨by norm_num, by norm_num⟩, ?_⟩
  · intro i _
    unfold frame_tie
    split_ifs <;> simp
  · intro i _ _
    unfold frame_tie
    split_ifs <;> rw [fp_le_fin] <;> exact decide_eq_true (by norm_num)
  · unfold frame_tie
    norm_num

theorem max_val_tie : max_val frame_tie = .fin 30 := by
  refine max_val_eq_of _ _ (by norm_num) ?_ ?_ ⟨2, ⟨by norm_num, by norm_num⟩, ?_⟩
  · intro i _
    unfold frame_tie
    split_ifs <;> simp
  · intro i _ _
    unfold frame_tie
    split_ifs <;> rw [fp_le_fin] <;> exact decide_eq_true (by norm_num)
  · unfold frame_tie
    norm_num

theorem min_val_nan_spot : min_val frame_nan_spot = .fin 20 := by
  refine min_val_eq_of _ _ (by norm_num) ?_ ?_ ⟨2, ⟨by norm_num, by norm_num⟩, ?_⟩
  · intro i _
    unfold frame_nan_spot
    split_ifs <;> simp
  · intro i _ hi
    unfold frame_nan_spot at hi ⊢
    split_ifs at hi ⊢
    · exact absurd rfl hi
    · rw [fp_le_fin]; exact decide_eq_true (by norm_num)
    · rw [fp_le_fin]; exact decide_eq_true (by norm_num)
  · unfold frame_nan_spot
    norm_num

theorem max_val_nan_spot : max_val frame_nan_spot = .fin 30 := by
  refine max_val_eq_of _ _ (by norm_num) ?_ ?_ ⟨1, ⟨by norm_num, by norm_num⟩, ?_⟩
  · intro i _
    unfold frame_nan_spot
    split_ifs <;> simp
  · intro i _ hi
    unfold frame_nan_spot at hi ⊢
    split_ifs at hi ⊢
    · exact absurd rfl hi
    · rw [fp_le_fin]; exact decide_eq_true (by norm_num)
    · rw [fp_le_fin]; exact decide_eq_true (by norm_num)
  · unfold frame_nan_spot
    norm_num

theorem max_val_cold : max_val frame_cold = .fin (-40) := by
  obtain ⟨-, h1, -, h3⟩ := max_val_spec frame_cold
  rcases h3 with h3 | ⟨i, -, h3⟩
  · exact h3
  · rw [← h3] at h1
    unfold frame_cold at h1
    rw [fp_le_fin] at h1
    norm_num at h1

theorem min_val_ramp : min_val frame_ramp = .fin 0 := by
  refine min_val_eq_of _ _ (by norm_num) ?_ ?_ ⟨0, ⟨by norm_num, by norm_num⟩, ?_⟩
  · intro i _
    simp [frame_ramp]
  · intro i hi _
    unfold frame_ramp
    rw [fp_le_fin]
    exact decide_eq_true (by exact_mod_cast hi.1)
  · simp [frame_ramp]

theorem max_val_ramp : max_val frame_ramp = .fin 767 := by
  refine max_val_eq_of _ _ (by norm_num) ?_ ?_ ⟨767, ⟨by norm_num, by norm_num⟩, ?_⟩
  · intro i _
    simp [frame_ramp]
  · intro i hi _
    unfold frame_ramp
    rw [fp_le_fin]
    exact decide_eq_true (by exact_mod_cast hi.2)
  · simp [frame_ramp]

theorem lt_ramp : FP.lt (min_val frame_ramp) (max_val frame_ramp) = true := by
  rw [min_val_ramp, max_val_ramp, fp_lt_fin]
  exact decide_eq_true (by norm_num)

/-- The readings of `frame_ramp` are finite `float` values. -/
theorem frame_ramp_floats : ∀ i, 0 ≤ i ∧ i ≤ 767 → IsFloat (frame_ramp i) := by
  intro i hi
  unfold frame_ramp
  exact isFloat_fin_int (by rw [abs_of_nonneg hi.1]; omega)

theorem min_lt_max_warm_spot :
    FP.lt (min_val frame_warm_spot) (max_val frame_warm_spot) = true := by
  rw [min_val_warm_spot, max_val_warm_spot, fp_lt_fin]
  exact decide_eq_true (by norm_num)

/-- The readings of `frame_warm_spot` are finite `float` values. -/
theorem frame_warm_spot_floats : ∀ i, 0 ≤ i ∧ i ≤ 767 → IsFloat (frame_warm_spot i) := by
  intro i _
  unfold frame_warm_spot
  split_ifs
  · exact_mod_cast @isFloat_fin_int 40 (by norm_num)
  · refine Or.inr ⟨_, rfl, ⟨13421773, -27, by norm_num, by norm_num, by norm_num⟩, ?_⟩
    rw [abs_of_nonneg (by norm_num)]
    norm_num

theorem lt_tie : FP.lt (min_val frame_tie) (max_val frame_tie) = true := by
  rw [min_val_tie, max_val_tie, fp_lt_fin]
  exact decide_eq_true (by norm_num)

/-- The readings of `frame_tie` are finite `float` values. -/
theorem frame_tie_floats : ∀ i, 0 ≤ i ∧ i ≤ 767 → IsFloat (frame_tie i) := by
  intro i _
  unfold frame_tie
  split_ifs
  · exact_mod_cast @isFloat_fin_int 10 (by norm_num)
  · exact_mod_cast @isFloat_fin_int 30 (by norm_num)
  · exact_mod_cast @isFloat_fin_int 20 (by norm_num)

/-- The frames drawn for `frame_tie`. -/
theorem frame_tie_outlines (u : Ucg) :
    ∃ u2, draw_image frame_tie u = some u2 ∧
      Prim.frame 0 115 5 5 (255, 255, 255) ∈ u2.drawn ∧
      Prim.frame 5 115 5 5 (255, 255, 255) ∈ u2.drawn ∧
      Prim.frame 10 115 5 5 (0, 0, 0) ∈ u2.drawn := by
  obtain ⟨u2, added, h1, h2, h3⟩ :=
    draw_image_frames (image_colours_of_floats frame_tie_floats lt_tie) u
  refine ⟨u2, h1, ?_, ?_, ?_⟩
  · have h := (h3 0 23 ⟨by norm_num, by norm_num⟩ ⟨by norm_num, by norm_num⟩ (255, 255, 255)).2
      (Or.inl ⟨rfl, by rw [min_val_tie]; unfold frame_tie sampleIndex; norm_num [fp_eq_fin_fin]⟩)
    rw [show (0 : ℤ) * 5 = 0 from rfl, show (23 : ℤ) * 5 = 115 from rfl] at h
    rw [h2]
    exact List.mem_append_right _ h
  · have h := (h3 1 23 ⟨by norm_num, by norm_num⟩ ⟨by norm_num, by norm_num⟩ (255, 255, 255)).2
      (Or.inl ⟨rfl, by rw [min_val_tie]; unfold frame_tie sampleIndex; norm_num [fp_eq_fin_fin]⟩)
    rw [show (1 : ℤ) * 5 = 5 from rfl, show (23 : ℤ) * 5 = 115 from rfl] at h
    rw [h2]
    exact List.mem_append_right _ h
  · have h := (h3 2 23 ⟨by norm_num, by norm_num⟩ ⟨by norm_num, by norm_num⟩ (0, 0, 0)).2
      (Or.inr ⟨rfl, by rw [max_val_tie]; unfold frame_tie sampleIndex; norm_num [fp_eq_fin_fin]⟩)
    rw [show (2 : ℤ) * 5 = 10 from rfl, show (23 : ℤ) * 5 = 115 from rfl] at h
    rw [h2]
    exact List.mem_append_right _ h

/-! ## Claims on the scan, the pacing and the frame geometry -/

/-- C2, counterexample: on `frame_cold`, whose samples are all -50, the seed -40 survives the
scan: `max_val` is -40, which is no sample of the frame. -/
theorem C2_seed_survives :
    max_val frame_cold = .fin (-40) ∧
      ¬ ∃ i : ℤ, (0 ≤ i ∧ i ≤ 767) ∧ frame_cold i = max_val frame_cold := by
  refine ⟨max_val_cold, ?_⟩
  rintro ⟨i, -, hi⟩
  rw [max_val_cold] at hi
  unfold frame_cold at hi
  norm_num at hi

/-- C2, amended: after the scan `max_val` equals some sample of the frame exactly when some
sample is at least the seed -40, and `min_val` equals some sample exactly when some sample is
at most the seed 300; otherwise the seed survives.  So both are samples for every frame with
a reading within the range -40..300. -/
theorem C2_extremes_are_samples (To : Frame) :
    ((∃ i, (0 ≤ i ∧ i ≤ 767) ∧ To i = max_val To) ↔
        ∃ i, (0 ≤ i ∧ i ≤ 767) ∧ FP.le (.fin (-40)) (To i) = true) ∧
      ((∃ i, (0 ≤ i ∧ i ≤ 767) ∧ To i = min_val To) ↔
        ∃ i, (0 ≤ i ∧ i ≤ 767) ∧ FP.le (To i) (.fin 300) = true) ∧
      (max_val To = .fin (-40) ∨ ∃ i, (0 ≤ i ∧ i ≤ 767) ∧ To i = max_val To) ∧
      (min_val To = .fin 300 ∨ ∃ i, (0 ≤ i ∧ i ≤ 767) ∧ To i = min_val To) := by
  obtain ⟨-, a1, a2, a3⟩ := max_val_spec To
  obtain ⟨-, b1, b2, b3⟩ := min_val_spec To
  refine ⟨⟨?_, ?_⟩, ⟨?_, ?_⟩, a3, b3⟩
  · rintro ⟨i, hi, h⟩
    exact ⟨i, hi, by rw [h]; exact a1⟩
  · rintro ⟨i, hi, h⟩
    rcases a3 with a3 | a3
    · refine ⟨i, hi, ?_⟩
      have hle := a2 i hi (fp_le_ne_nan h).2
      rw [a3] at hle ⊢
      exact fp_eq_fin (by norm_num) (fp_eq_of_le_of_le hle h)
    · exact a3
  · rintro ⟨i, hi, h⟩
    exact ⟨i, hi, by rw [h]; exact b1⟩
  · rintro ⟨i, hi, h⟩
    rcases b3 with b3 | b3
    · refine ⟨i, hi, ?_⟩
      have hge := b2 i hi (fp_le_ne_nan h).1
      rw [b3] at hge ⊢
      exact fp_eq_fin (by norm_num) (fp_eq_of_le_of_le h hge)
    · exact b3

/-- C3, counterexample: in `frame_nan_spot` the sample at offset 0 is a NaN; the two
comparisons of the scan are false for it, the scan ends with `min_val = 20` and
`max_val = 30`, and for that sample `s` neither `min_val <= s` nor `s <= max_val` holds. -/
theorem C3_nan_sample_unbounded :
    frame_nan_spot 0 = .nan ∧ min_val frame_nan_spot = .fin 20 ∧
      max_val frame_nan_spot = .fin 30 ∧
      FP.le (min_val frame_nan_spot) (frame_nan_spot 0) = false ∧
      FP.le (frame_nan_spot 0) (max_val frame_nan_spot) = false := by
  refine ⟨rfl, min_val_nan_spot, max_val_nan_spot, ?_, ?_⟩
  · rw [min_val_nan_spot]
    rfl
  · rw [max_val_nan_spot]
    rfl

/-- C3, amended: after the scan `min_val` and `max_val` are no NaN, and every sample `s` of the
frame that is no NaN (an infinite one included) satisfies `min_val <= s` and
`s <= max_val`. -/
theorem C3_range_bounds_samples (To : Frame) (i : ℤ) (hi : 0 ≤ i ∧ i ≤ 767)
    (hs : To i ≠ .nan) :
    (min_val To ≠ .nan ∧ max_val To ≠ .nan) ∧
      FP.le (min_val To) (To i) = true ∧ FP.le (To i) (max_val To) = true :=
  ⟨⟨(min_val_spec To).1, (max_val_spec To).1⟩, (min_val_spec To).2.2.1 i hi hs,
    (max_val_spec To).2.2.1 i hi hs⟩

/-- C3, witness: the sample at offset 5 of `frame_nan_spot`, a frame that holds a NaN
elsewhere. -/
theorem C3_range_bounds_samples_witness :
    frame_nan_spot 5 ≠ .nan ∧
      (min_val frame_nan_spot ≠ .nan ∧ max_val frame_nan_spot ≠ .nan) ∧
      FP.le (min_val frame_nan_spot) (frame_nan_spot 5) = true ∧
      FP.le (frame_nan_spot 5) (max_val frame_nan_spot) = true :=
  ⟨by simp [frame_nan_spot],
    C3_range_bounds_samples frame_nan_spot 5 ⟨by decide, by decide⟩ (by simp [frame_nan_spot])⟩

/-- C4, counterexample: with a target period of 125000 us and 130000 us elapsed the duration
computed and handed to `sleep_for` is -5000 us, not zero. -/
theorem C4_overrun_is_negative :
    sleep_request 125000 130000 = -5000 ∧ sleep_request 125000 130000 ≠ 0 := by
  have h : sleep_request 125000 130000 = -5000 := by
    unfold sleep_request wrapInt64
    norm_num
  exact ⟨h, by rw [h]; norm_num⟩

/-- C4, amended: for a target period `0 ≤ target` and an elapsed time `target ≤ elapsed`
(below `2 ^ 63` us), the duration handed to `sleep_for` is the signed difference
`target - elapsed` without wrap-around: it is never positive, and it is zero only when
`elapsed = target`. -/
theorem C4_overrun_request (target elapsed : ℤ) (h0 : 0 ≤ target) (h1 : target ≤ elapsed)
    (h2 : elapsed < 2 ^ 63) :
    sleep_request target elapsed = target - elapsed ∧ sleep_request target elapsed ≤ 0 ∧
      (sleep_request target elapsed = 0 ↔ elapsed = target) := by
  have h : sleep_request target elapsed = target - elapsed :=
    wrapInt64_of_range (by omega) (by omega)
  rw [h]
  refine ⟨rfl, by omega, by omega⟩

/-- C4, witness: the period `frame_time` of `main` (125850 us) and 130000 us elapsed. -/
theorem C4_overrun_request_witness :
    sleep_request frame_time 130000 = frame_time - 130000 ∧
      sleep_request frame_time 130000 ≤ 0 ∧
      (sleep_request frame_time 130000 = 0 ↔ (130000 : ℤ) = frame_time) :=
  C4_overrun_request frame_time 130000 (by decide) (by decide) (by decide)

/-- C8: the display cells are the pairs `(x, y)` with `0 ≤ x < 32` and `0 ≤ y < 24`, each
visited once by the two frame loops; for such a cell the offset `32 * (23 - y) + x` lies in
`0..767`, in stored row `23 - y` and stored column `x` (display row 0 is stored row 23), and
the offsets of the cells are a rearrangement of `0, ..., 767`.  An image loop that returns has
filled 768 rectangles, exactly one of them at the place of the cell `(x, y)`, in the colour
that `get_grad_value` gives to the stored sample at offset `32 * (23 - y) + x`, and the
outlines it has drawn at that place are those this sample calls for; the image loop returns
for every frame of finite `float` samples with `min_val < max_val`, and it reads the frame at
the offsets `0, ..., 767` only.  The scan is the pass of its loop body over the samples at the
offsets of the cells, in the same order; it reads the frame at these offsets only, and its
result takes the sample at offset `32 * (23 - y) + x` into account: that sample, unless it is
a NaN, lies between `min_val` and `max_val`. -/
theorem C8_cell_offsets (To : Frame) (u : Ucg) (x y : ℤ) (hx : 0 ≤ x ∧ x < 32)
    (hy : 0 ≤ y ∧ y < 24) :
    ((cells.Nodup ∧ ∀ c : ℤ × ℤ, c ∈ cells ↔ (0 ≤ c.1 ∧ c.1 < 32) ∧ (0 ≤ c.2 ∧ c.2 < 24)) ∧
        (0 ≤ 32 * (23 - y) + x ∧ 32 * (23 - y) + x ≤ 767) ∧
        ((32 * (23 - y) + x) / 32 = 23 - y ∧ (32 * (23 - y) + x) % 32 = x) ∧
        sampleIndex x 0 = 32 * 23 + x ∧
        (cells.map fun c => 32 * (23 - c.2) + c.1).Perm ((List.range 768).map Int.ofNat)) ∧
      (∀ u2, draw_image To u = some u2 →
        ∃ added, u2.drawn = u.drawn ++ added ∧ (added.filter Prim.isBox).length = 768 ∧
          (∃ rgb, get_grad_value (To (32 * (23 - y) + x)) (min_val To) (max_val To) = some rgb ∧
            added.filter (Prim.isBoxAt x y) = [Prim.box (x * 5) (y * 5) 5 5 rgb]) ∧
          (Prim.frame (x * 5) (y * 5) 5 5 (255, 255, 255) ∈ added ↔
            FP.eq (To (32 * (23 - y) + x)) (min_val To) = true) ∧
          (Prim.frame (x * 5) (y * 5) 5 5 (0, 0, 0) ∈ added ↔
            FP.eq (To (32 * (23 - y) + x)) (max_val To) = true)) ∧
      ((∀ i, 0 ≤ i ∧ i ≤ 767 → IsFloat (To i)) → FP.lt (min_val To) (max_val To) = true →
        ∃ u2, draw_image To u = some u2) ∧
      (∀ To2 : Frame, (∀ i, 0 ≤ i ∧ i ≤ 767 → To2 i = To i) →
        draw_image To2 u = draw_image To u ∧ get_max_min To2 = get_max_min To) ∧
      get_max_min To =
        (cells.map fun c => To (32 * (23 - c.2) + c.1)).foldl scan_step (.fin (-40), .fin 300) ∧
      (To (32 * (23 - y) + x) ≠ .nan →
        FP.le (min_val To) (To (32 * (23 - y) + x)) = true ∧
          FP.le (To (32 * (23 - y) + x)) (max_val To) = true) := by
  have hidx := sampleIndex_bounds hx hy
  refine ⟨⟨⟨cells_nodup, mem_cells⟩, hidx, ⟨by omega, by omega⟩, by unfold sampleIndex; ring,
    offsets_perm⟩, ?_, ?_, ?_, ?_, ?_⟩
  · intro u2 h
    obtain ⟨added, h1, h2, h3⟩ := draw_image_of_some h
    obtain ⟨h4, h5⟩ := h3 x y hx hy
    refine ⟨added, h1, h2, h4, ?_, ?_⟩
    · refine (h5 _).trans ⟨?_, fun h => Or.inl ⟨rfl, h⟩⟩
      rintro (⟨-, h⟩ | ⟨h, -⟩)
      · exact h
      · exact absurd h (by decide)
    · refine (h5 _).trans ⟨?_, fun h => Or.inr ⟨rfl, h⟩⟩
      rintro (⟨h, -⟩ | ⟨-, h⟩)
      · exact absurd h (by decide)
      · exact h
  · intro hfl hlt
    obtain ⟨u2, h, -⟩ := draw_image_drawn (image_colours_of_floats hfl hlt) u
    exact ⟨u2, h⟩
  · intro To2 h
    exact ⟨draw_image_congr h u, get_max_min_congr h⟩
  · rw [get_max_min_eq, List.map_map]
    rfl
  · intro hs
    exact ⟨(min_val_spec To).2.2.1 _ hidx hs, (max_val_spec To).2.2.1 _ hidx hs⟩

/-- C8, witness: the display cell `(3, 0)` of the top row on the frame `frame_ramp`, whose
sample at offset `i` is `i`: the image loop returns, and the rectangle it fills at the place
of the cell has the colour of the sample 739 = 32 * 23 + 3 of stored row 23, which lies
between `min_val = 0` and `max_val = 767` and equals neither, so that no outline is drawn. -/
theorem C8_cell_offsets_witness :
    ((0 : ℤ) ≤ 3 ∧ (3 : ℤ) < 32) ∧ ((0 : ℤ) ≤ 0 ∧ (0 : ℤ) < 24) ∧
      (32 * (23 - 0) + 3 : ℤ) = 739 ∧ frame_ramp 739 = .fin 739 ∧
      min_val frame_ramp = .fin 0 ∧ max_val frame_ramp = .fin 767 ∧
      (∃ u2 added rgb, draw_image frame_ramp (Ucg.mk (0, 0, 0) []) = some u2 ∧
        u2.drawn = (Ucg.mk (0, 0, 0) []).drawn ++ added ∧
        (added.filter Prim.isBox).length = 768 ∧
        get_grad_value (.fin 739) (.fin 0) (.fin 767) = some rgb ∧
        added.filter (Prim.isBoxAt 3 0) = [Prim.box 15 0 5 5 rgb] ∧
        Prim.frame 15 0 5 5 (255, 255, 255) ∉ added ∧ Prim.frame 15 0 5 5 (0, 0, 0) ∉ added) ∧
      FP.le (.fin 0) (.fin 739) = true ∧ FP.le (.fin 739) (.fin 767) = true := by
  obtain ⟨-, h2, h3, -, -, h5⟩ := C8_cell_offsets frame_ramp (Ucg.mk (0, 0, 0) []) 3 0
    ⟨by decide, by decide⟩ ⟨by decide, by decide⟩
  have e : frame_ramp (32 * (23 - 0) + 3) = .fin 739 := by
    unfold frame_ramp
    norm_num
  obtain ⟨u2, hu2⟩ := h3 frame_ramp_floats lt_ramp
  obtain ⟨added, a1, a2, ⟨rgb, a3, a4⟩, a5, a6⟩ := h2 u2 hu2
  rw [e, min_val_ramp, max_val_ramp] at a3 h5
  rw [e, min_val_ramp] at a5
  rw [e, max_val_ramp] at a6
  refine ⟨⟨by decide, by decide⟩, ⟨by decide, by decide⟩, by norm_num, ?_, min_val_ramp,
    max_val_ramp, ⟨u2, added, rgb, hu2, a1, a2, a3, a4, ?_, ?_⟩, (h5 (by simp)).1,
    (h5 (by simp)).2⟩
  · unfold frame_ramp
    norm_num
  · intro h
    have := a5.1 h
    norm_num [fp_eq_fin_fin] at this
  · intro h
    have := a6.1 h
    norm_num [fp_eq_fin_fin] at this

/-! ## Claims on the gradient mapper and the drawing code -/

/-- C1, failing input: with `min` the `float` nearest to 0.1 and `value = max = 40` (so
`min < max` and `value ≥ max`) the `float` `vrange` is rounded up above `max - min`, the
interpolating branch is taken with `idx1 = 3`, `idx2 = 4` and `fractBetween` below 1, and
`get_grad_value` returns (255, 255, 254), which is not the last palette stop
(255, 255, 255). -/
theorem C1_last_stop_missed :
    (13421773 / 134217728 : ℚ) < 40 ∧
      vrange (.fin (13421773 / 134217728)) (.fin 40) = .fin (5229773 / 131072) ∧
      (40 - 13421773 / 134217728 : ℚ) < 5229773 / 131072 ∧
      grad_index (.fin 40) (.fin (13421773 / 134217728)) (.fin 40) =
        some (3, 4, 16777213 / 16777216) ∧
      get_grad_value (.fin 40) (.fin (13421773 / 134217728)) (.fin 40) = some (255, 255, 254) ∧
      stop_rgb 4 = some (255, 255, 255) :=
  ⟨by norm_num, vrange_tenth_forty, by norm_num, grad_index_forty, get_grad_value_forty,
    stop_rgb_four⟩

/-- C5, failing input: on `frame_warm_spot` the scan gives `min_val < max_val = 40`, the cell
`(0, 23)` holds `max_val`, and `draw_pixel` fills it with (255, 255, 254) instead of the last
stop (255, 255, 255), before outlining it in black; the image loop returns, and the one
rectangle it fills at the place of that cell has this colour. -/
theorem C5_max_cell_not_last_stop :
    FP.lt (min_val frame_warm_spot) (max_val frame_warm_spot) = true ∧
      frame_warm_spot (sampleIndex 0 23) = max_val frame_warm_spot ∧
      draw_pixel 0 23 (frame_warm_spot (sampleIndex 0 23)) (min_val frame_warm_spot)
          (max_val frame_warm_spot) (Ucg.mk (0, 0, 0) []) =
        some (Ucg.mk (0, 0, 0)
          [Prim.box 0 115 5 5 (255, 255, 254), Prim.frame 0 115 5 5 (0, 0, 0)]) ∧
      ∃ u2 added, draw_image frame_warm_spot (Ucg.mk (0, 0, 0) []) = some u2 ∧
        u2.drawn = (Ucg.mk (0, 0, 0) []).drawn ++ added ∧
        added.filter (Prim.isBoxAt 0 23) = [Prim.box 0 115 5 5 (255, 255, 254)] := by
  have hcell : frame_warm_spot (sampleIndex 0 23) = .fin 40 := by
    unfold frame_warm_spot sampleIndex
    norm_num
  refine ⟨min_lt_max_warm_spot, by rw [hcell, max_val_warm_spot], ?_, ?_⟩
  · rw [hcell, min_val_warm_spot, max_val_warm_spot]
    unfold draw_pixel
    rw [get_grad_value_forty]
    norm_num [ucg_SetColor, ucg_DrawBox, ucg_DrawFrame, IMAGE_SCALE, fp_eq_fin_fin]
  · obtain ⟨u2, hu2, -⟩ := draw_image_drawn
      (image_colours_of_floats frame_warm_spot_floats min_lt_max_warm_spot) (Ucg.mk (0, 0, 0) [])
    obtain ⟨added, h1, -, h3⟩ := draw_image_of_some hu2
    obtain ⟨⟨rgb, h4, h5⟩, -⟩ := h3 0 23 ⟨by norm_num, by norm_num⟩ ⟨by norm_num, by norm_num⟩
    rw [hcell, min_val_warm_spot, max_val_warm_spot, get_grad_value_forty] at h4
    rw [← Option.some.inj h4] at h5
    exact ⟨u2, added, hu2, h1, h5⟩

/-- C7, counterexample: on `frame_tie`, whose least reading is held by the two cells `(0, 23)`
and `(1, 23)`, one rendering cycle outlines both cells in white. -/
theorem C7_two_cells_outlined :
    ∃ u2, draw_image frame_tie (Ucg.mk (0, 0, 0) []) = some u2 ∧
      Prim.frame 0 115 5 5 (255, 255, 255) ∈ u2.drawn ∧
      Prim.frame 5 115 5 5 (255, 255, 255) ∈ u2.drawn := by
  obtain ⟨u2, h1, h2, h3, -⟩ := frame_tie_outlines (Ucg.mk (0, 0, 0) [])
  exact ⟨u2, h1, h2, h3⟩

/-- C7, amended: in one rendering cycle over a frame of finite `float` samples with
`min_val < max_val`, the image loop returns, and among the primitives it adds the cells
outlined in white are exactly the cells whose sample compares equal to `min_val` and the cells
outlined in black are exactly the cells whose sample compares equal to `max_val`; so one cell
is outlined in a colour only when a single sample holds that extreme. -/
theorem C7_outlined_cells (To : Frame) (u : Ucg)
    (hfl : ∀ i, 0 ≤ i ∧ i ≤ 767 → IsFloat (To i))
    (hlt : FP.lt (min_val To) (max_val To) = true) :
    ∃ u2 added, draw_image To u = some u2 ∧ u2.drawn = u.drawn ++ added ∧
      ∀ x y : ℤ, 0 ≤ x ∧ x < 32 → 0 ≤ y ∧ y < 24 →
        (Prim.frame (x * 5) (y * 5) 5 5 (255, 255, 255) ∈ added ↔
          FP.eq (To (sampleIndex x y)) (min_val To) = true) ∧
        (Prim.frame (x * 5) (y * 5) 5 5 (0, 0, 0) ∈ added ↔
          FP.eq (To (sampleIndex x y)) (max_val To) = true) := by
  obtain ⟨u2, added, h1, h2, h3⟩ := draw_image_frames (image_colours_of_floats hfl hlt) u
  refine ⟨u2, added, h1, h2, ?_⟩
  intro x y hx hy
  constructor
  · refine (h3 x y hx hy _).trans ?_
    constructor
    · rintro (⟨-, h⟩ | ⟨h, -⟩)
      · exact h
      · exact absurd h (by decide)
    · exact fun h => Or.inl ⟨rfl, h⟩
  · refine (h3 x y hx hy _).trans ?_
    constructor
    · rintro (⟨h, -⟩ | ⟨-, h⟩)
      · exact absurd h (by decide)
      · exact h
    · exact fun h => Or.inr ⟨rfl, h⟩

/-- C7, witness: the frame `frame_tie`, with readings 10, 20 and 30. -/
theorem C7_outlined_cells_witness :
    ((∀ i, 0 ≤ i ∧ i ≤ 767 → IsFloat (frame_tie i)) ∧
        FP.lt (min_val frame_tie) (max_val frame_tie) = true) ∧
      ∃ u2 added, draw_image frame_tie (Ucg.mk (0, 0, 0) []) = some u2 ∧
        u2.drawn = (Ucg.mk (0, 0, 0) []).drawn ++ added ∧
        ∀ x y : ℤ, 0 ≤ x ∧ x < 32 → 0 ≤ y ∧ y < 24 →
          (Prim.frame (x * 5) (y * 5) 5 5 (255, 255, 255) ∈ added ↔
            FP.eq (frame_tie (sampleIndex x y)) (min_val frame_tie) = true) ∧
          (Prim.frame (x * 5) (y * 5) 5 5 (0, 0, 0) ∈ added ↔
            FP.eq (frame_tie (sampleIndex x y)) (max_val frame_tie) = true) :=
  ⟨⟨frame_tie_floats, lt_tie⟩,
    C7_outlined_cells frame_tie (Ucg.mk (0, 0, 0) []) frame_tie_floats lt_tie⟩

/-- C9, failing input: with the legend boundaries 33 and 119 the legend loop returns and draws
the column 119 in the last stop (255, 255, 255), the colour `get_grad_value` gives to the
column; for the temperature range from the `float` nearest to 0.1 to 40 the temperature that
corresponds to that column is 40, and `get_grad_value` maps it to (255, 255, 254). -/
theorem C9_legend_differs_from_mapper :
    (∃ u2, draw_scale 33 119 (Ucg.mk (0, 0, 0) []) = some u2 ∧
        Prim.line 119 121 119 127 (255, 255, 255) ∈ u2.drawn) ∧
      get_grad_value (.fin 119) (.fin 33) (.fin 119) = some (255, 255, 255) ∧
      (13421773 / 134217728 : ℚ) < 40 ∧
      (13421773 / 134217728 + (119 - 33) * (40 - 13421773 / 134217728) / (119 - 33) : ℚ)
        = 40 ∧
      get_grad_value
          (.fin (13421773 / 134217728 + (119 - 33) * (40 - 13421773 / 134217728) / (119 - 33)))
          (.fin (13421773 / 134217728)) (.fin 40) = some (255, 255, 254) := by
  have hcol : get_grad_value (.fin ((119 : ℤ) : ℚ)) (.fin ((33 : ℤ) : ℚ))
      (.fin ((119 : ℤ) : ℚ)) = some (255, 255, 255) := by
    rw [@legend_high 33 119 (by norm_num) (by norm_num), stop_rgb_four]
  refine ⟨?_, by exact_mod_cast hcol, by norm_num, by norm_num, ?_⟩
  · obtain ⟨u2, h1, h2⟩ := @draw_scale_drawn 33 119 (by norm_num) (by norm_num)
      (Ucg.mk (0, 0, 0) [])
    refine ⟨u2, h1, ?_⟩
    rw [h2]
    apply List.mem_append_right
    rw [List.mem_flatMap]
    refine ⟨119, (mem_scale_columns 33 119 119).2 ⟨by norm_num, by norm_num⟩, ?_⟩
    rw [hcol]
    exact List.mem_singleton.2 rfl
  · rw [show (13421773 / 134217728 + (119 - 33) * (40 - 13421773 / 134217728) / (119 - 33) : ℚ)
      = 40 by norm_num]
    exact get_grad_value_forty

/-- C10, counterexample: (a) for `min = 0 < max = 2 ^ (-200)` the `float` `vrange` is zero, and
with `value = 0` the division is `0 / 0`, a NaN whose conversion to `int` is undefined;
(b) for `min = 2 ^ (-19) < max = 300` and `value = 75` the interpolating branch is taken with
`idx1 = 0`, `idx2 = 1` and `fractBetween` equal to 1, outside `[0, 1)`; (c) for
`min = 20 < max = 30`, whose `vrange` is 10, a NaN `value` fails both tests of the clamps and
its conversion to `int` is undefined; (d) for `min = -2 ^ 1023 < max = 2 ^ 1023` the difference
`max - min` overflows, `vrange` is infinite, and with `value = max` the division is
`inf / inf`, a NaN again. -/
theorem C10_zero_range_and_fract_one :
    ((0 : ℚ) < 1 / 2 ^ 200 ∧ vrange (.fin 0) (.fin (1 / 2 ^ 200)) = .fin 0 ∧
        get_grad_value (.fin 0) (.fin 0) (.fin (1 / 2 ^ 200)) = none) ∧
      ((1 / 524288 : ℚ) < 300 ∧
        grad_index (.fin 75) (.fin (1 / 524288)) (.fin 300) = some (0, 1, 1)) ∧
      (FP.lt (.fin 20) (.fin 30) = true ∧ vrange (.fin 20) (.fin 30) = .fin 10 ∧
        normalized .nan (.fin 20) (.fin 30) = .nan ∧
        get_grad_value .nan (.fin 20) (.fin 30) = none) ∧
      ((-(2 ^ 1023) : ℚ) < 2 ^ 1023 ∧
        vrange (.fin (-(2 ^ 1023))) (.fin (2 ^ 1023)) = .inf false ∧
        get_grad_value (.fin (2 ^ 1023)) (.fin (-(2 ^ 1023))) (.fin (2 ^ 1023)) = none) := by
  refine ⟨⟨by norm_num, vrange_tiny, ?_⟩, ⟨by norm_num, grad_index_seventy_five⟩,
    ⟨by norm_num [fp_lt_fin], vrange_twenty_thirty, normalized_nan _ _,
      get_grad_value_eq_none (normalized_nan _ _)⟩,
    by norm_num, get_grad_value_overflow.1, get_grad_value_overflow.2⟩
  exact get_grad_value_eq_none
    (normalized_eq_nan le_rfl vrange_tiny (by rw [sub_zero, rd_zero]))

/-- C10, amended: for every `value` that is no NaN and every `min < max` whose `vrange` (the
difference `max - min` stored as `float`) is finite and not zero, `get_grad_value` divides by
a positive range, returns a colour, and reads the table at indexes within 0..4: either both
indexes are 0 or both are 4 with `fractBetween = 0` (the clamps), or `idx1` lies in 0..3,
`idx2 = idx1 + 1` and `fractBetween` lies in `[0, 1]` (the value 1 included). -/
theorem C10_indexes_in_bounds (value min max : FP) (b : ℚ) (hval : value ≠ .nan)
    (hmm : FP.lt min max = true) (hv : vrange min max = .fin b) (hb : b ≠ 0) :
    0 < b ∧ (∃ rgb, get_grad_value value min max = some rgb) ∧
      ∃ idx1 idx2 f, grad_index value min max = some (idx1, idx2, f) ∧
        ((idx1 = 0 ∧ idx2 = 0 ∧ f = 0) ∨ (idx1 = 4 ∧ idx2 = 4 ∧ f = 0) ∨
          ((0 ≤ idx1 ∧ idx1 ≤ 3) ∧ idx2 = idx1 + 1 ∧ 0 ≤ f ∧ f ≤ 1)) :=
  ⟨vrange_pos (fp_le_of_lt hmm) hv hb, get_grad_value_total hval (fp_le_of_lt hmm) hv hb,
    grad_index_total hval (fp_le_of_lt hmm) hv hb⟩

/-- C10, witness: the value 30 in the range 20..40, whose `vrange` is 20. -/
theorem C10_indexes_in_bounds_witness :
    ((FP.fin 30 ≠ .nan ∧ FP.lt (.fin 20) (.fin 40) = true) ∧
        vrange (.fin 20) (.fin 40) = .fin 20 ∧ (20 : ℚ) ≠ 0) ∧
      (0 : ℚ) < 20 ∧ (∃ rgb, get_grad_value (.fin 30) (.fin 20) (.fin 40) = some rgb) ∧
      ∃ idx1 idx2 f, grad_index (.fin 30) (.fin 20) (.fin 40) = some (idx1, idx2, f) ∧
        ((idx1 = 0 ∧ idx2 = 0 ∧ f = 0) ∨ (idx1 = 4 ∧ idx2 = 4 ∧ f = 0) ∨
          ((0 ≤ idx1 ∧ idx1 ≤ 3) ∧ idx2 = idx1 + 1 ∧ 0 ≤ f ∧ f ≤ 1)) :=
  ⟨⟨⟨by simp, by norm_num [fp_lt_fin]⟩, vrange_twenty_forty, by norm_num⟩,
    C10_indexes_in_bounds (.fin 30) (.fin 20) (.fin 40) 20 (by simp) (by norm_num [fp_lt_fin])
      vrange_twenty_forty (by norm_num)⟩

end ThermalCamera
